import Mathlib

/-!
# Verification of the `GraphStruct` directed-graph engine (`src/Graph.hpp`)

Shallow embedding of the directed-graph data structure and its operations.

Modelling conventions, chosen to mirror the C++ source faithfully:

* A node (`c_GraphNode<NodeData>`) is identified by its `uint32_t index`.
  The payload `nodeData` is never inspected by any operation covered by the
  claims, so it is omitted from the embedding.
* C++ node pointers are modelled as `Option Nat`: `none` is `nullptr` and
  `some i` is a pointer to the node whose `index` is `i`.  Inside one
  `c_Graph` the constructor guarantees indices are unique, so pointer
  equality coincides with index equality; all theorems that rely on this
  carry a `Nodup` hypothesis on the list of indices.
* A graph state is the list of its nodes in storage order (`raw_ptrs`).
  Mutating a node through a pointer is modelled by rewriting the node with
  that index inside the list.
* `std::vector::at` throws `std::out_of_range` on a bad index, and
  dereferencing a null/dangling pointer is a fault; both are modelled by an
  `Option` result, `none` meaning the C++ call does not return normally.
* `uint32_t` arithmetic is modelled over `Nat`; the only places the 32-bit
  representation shows through in the source are the literal sentinels
  `4294967293` (`min_idx` initialiser / "not found") and `4294967295`
  (`(uint32_t)(-1)`), which are kept as literals.
* Recursive traversals are modelled with an explicit fuel parameter
  (structural recursion on the fuel) so that every definition is
  executable; `none` additionally signals fuel exhaustion, which never
  happens for sufficiently large fuel.
-/

namespace GraphStruct

/-- Connection descriptor (`c_GraphCnt`): `{from, to, priority}`.
`from` is a Lean keyword, hence the field names `fromId`/`toId`. -/
structure c_GraphCnt where
  fromId : Nat
  toId : Nat
  priority : Nat := 0
deriving DecidableEq, Repr

/-- One graph node (`c_GraphNode`): unique index plus the outbound and
inbound pointer lists.  Entries are pointers: `none` is `nullptr`. -/
structure c_GraphNode where
  index : Nat
  cnt_out : List (Option Nat) := []
  cnt_in : List (Option Nat) := []
deriving DecidableEq, Repr

/-- Look a node up by index (following a pointer `some a` to its object). -/
def findNode (g : List c_GraphNode) (a : Nat) : Option c_GraphNode :=
  g.find? (fun nd => nd.index == a)

/-- The indices stored in a graph state (the `indexes` vector, which the
constructor keeps aligned with `raw_ptrs`). -/
def idxs (g : List c_GraphNode) : List Nat :=
  g.map (fun nd => nd.index)

/-- Replace node `a`'s outbound list. -/
def setOut (g : List c_GraphNode) (a : Nat) (l : List (Option Nat)) : List c_GraphNode :=
  g.map (fun nd => if nd.index = a then { nd with cnt_out := l } else nd)

/-- Replace node `a`'s inbound list. -/
def setIn (g : List c_GraphNode) (a : Nat) (l : List (Option Nat)) : List c_GraphNode :=
  g.map (fun nd => if nd.index = a then { nd with cnt_in := l } else nd)

/-- `this->cnt_out.push_back(e)` on node `a`. -/
def pushOut (g : List c_GraphNode) (a : Nat) (e : Option Nat) : List c_GraphNode :=
  g.map (fun nd => if nd.index = a then { nd with cnt_out := nd.cnt_out ++ [e] } else nd)

/-- `other->cnt_in.push_back(e)` on node `a`. -/
def pushIn (g : List c_GraphNode) (a : Nat) (e : Option Nat) : List c_GraphNode :=
  g.map (fun nd => if nd.index = a then { nd with cnt_in := nd.cnt_in ++ [e] } else nd)

/-- `externalDegree()` of node `a` (0 when the node does not exist, which
never happens through the C++ interface where `this` is a live object). -/
def outDegreeOf (g : List c_GraphNode) (a : Nat) : Nat :=
  match findNode g a with
  | none => 0
  | some nd => nd.cnt_out.length

/-- `internalDegree()` of node `a`. -/
def inDegreeOf (g : List c_GraphNode) (a : Nat) : Nat :=
  match findNode g a with
  | none => 0
  | some nd => nd.cnt_in.length

/-- `c_GraphNode::establishCnt(other)`, lines 61-67: push `other` onto
`this->cnt_out` and `this` onto `other->cnt_in` unless `other` is null or
has the same index; returns `this->cnt_out.size()`.
`a` is the index of `this`, `bp` the pointer argument. -/
def establishCnt (g : List c_GraphNode) (a : Nat) (bp : Option Nat) : Nat × List c_GraphNode :=
  match bp with
  | none => (outDegreeOf g a, g)
  | some b =>
    if b = a then (outDegreeOf g a, g)
    else
      let g' := pushIn (pushOut g a (some b)) b (some a)
      (outDegreeOf g' a, g')

/-- The scan loop of `c_GraphNode::severCnt(c_GraphNode*)`, lines 78-97.
`extnum`/`intnum` are the list sizes captured before the loop; `steps`
counts the remaining iterations (the loop runs for `i < maxidx`).
Reads are `std::vector::at`: an index that is `< extnum`/`< intnum` but out
of range of the *current* (already shortened) list throws, modelled as
`none`.  Returns the final `(cnt_out, cnt_in)` pair. -/
def severLoop (a b extnum intnum : Nat) :
    Nat → Nat → List (Option Nat) → List (Option Nat) → Bool → Bool →
    Option (List (Option Nat) × List (Option Nat))
  | 0, _, aOut, bIn, _, _ => some (aOut, bIn)
  | steps+1, i, aOut, bIn, gotExt, gotInt =>
    match (if i < extnum then aOut[i]? else some none : Option (Option Nat)) with
    | none => none
    | some tmpExt =>
      match (if i < intnum then bIn[i]? else some none : Option (Option Nat)) with
      | none => none
      | some tmpInt =>
        let aOut2 := if tmpExt = some b then aOut.eraseIdx i else aOut
        let gotExt2 := gotExt || decide (tmpExt = some b)
        let bIn2 := if tmpInt = some a then bIn.eraseIdx i else bIn
        let gotInt2 := gotInt || decide (tmpInt = some a)
        if gotExt2 && gotInt2 then some (aOut2, bIn2)
        else severLoop a b extnum intnum steps (i+1) aOut2 bIn2 gotExt2 gotInt2

/-- `c_GraphNode::severCnt(c_GraphNode* other)`, lines 70-99.  `a` is the
index of `this`, `bp` the pointer argument.  `none` models the C++ call
throwing `std::out_of_range` from `at()`.  On normal return the result is
`(cnt_out.size(), new graph state)`. -/
def severCntPtr (g : List c_GraphNode) (a : Nat) (bp : Option Nat) :
    Option (Nat × List c_GraphNode) :=
  match findNode g a with
  | none => some (0, g)
  | some na =>
    let extnum := na.cnt_out.length
    match bp with
    | none => some (extnum, g)
    | some b =>
      if b = a then some (extnum, g)
      else
        match findNode g b with
        | none => none
        | some nb =>
          let intnum := nb.cnt_in.length
          let maxidx := max extnum intnum
          match severLoop a b extnum intnum maxidx 0 na.cnt_out nb.cnt_in false false with
          | none => none
          | some (aOut, bIn) =>
            some (aOut.length, setIn (setOut g a aOut) b bIn)

/-- `c_GraphNode::severCnt(uint32_t index)`, lines 101-116: bounds-checked
removal of the outbound edge at a storage position, plus removal of the
first matching back-reference from that neighbour's inbound list.
Faults (`none`) if the stored pointer is null or dangling, as the C++
would. -/
def severCntIdx (g : List c_GraphNode) (a : Nat) (index : Nat) :
    Option (Nat × List c_GraphNode) :=
  match findNode g a with
  | none => some (0, g)
  | some na =>
    let extnum := na.cnt_out.length
    if index ≥ extnum then some (extnum, g)
    else
      match na.cnt_out[index]? with
      | none => none
      | some ent =>
        match ent with
        | none => none
        | some b =>
          match findNode g b with
          | none => none
          | some nb =>
            let bIn := nb.cnt_in.erase (some a)
            let aOut := na.cnt_out.eraseIdx index
            some (aOut.length, setIn (setOut g a aOut) b bIn)

/-- `c_GraphNode::traverseCnt(index)`: bounds-checked outbound access. -/
def traverseCnt (g : List c_GraphNode) (a : Nat) (index : Nat) : Option Nat :=
  match findNode g a with
  | none => none
  | some na =>
    if index ≥ na.cnt_out.length then none
    else match na.cnt_out[index]? with
      | none => none
      | some e => e

/-- `c_SearchHeader`, lines 134-164: per-traversal bookkeeping.
`visit_queue` stores node pointers, but only non-null ones are ever pushed,
so it is a plain index list here. -/
structure c_SearchHeader where
  visit_queue : List Nat := []
  idx_visited : List Nat := []
  min_idx : Nat := 4294967293
  max_idx : Nat := 0
deriving DecidableEq, Repr

/-- The freshly constructed header (`new c_SearchHeader`). -/
def initHeader : c_SearchHeader := {}

/-- `c_SearchHeader::testAdd`, lines 140-163: the dual min/max fast-path /
linear-scan visited test.  Returns the boolean result and the updated
header. -/
def testAdd (h : c_SearchHeader) (index : Nat) : Bool × c_SearchHeader :=
  if index > h.max_idx then
    let h1 := { h with max_idx := index }
    let h2 := if index < h1.min_idx then { h1 with min_idx := index } else h1
    (true, { h2 with idx_visited := h2.idx_visited ++ [index] })
  else if index < h.min_idx then
    (true, { h with min_idx := index, idx_visited := h.idx_visited ++ [index] })
  else if index = h.max_idx ∨ index = h.min_idx then
    (false, h)
  else if h.idx_visited.contains index then
    (false, h)
  else
    (true, { h with idx_visited := h.idx_visited ++ [index] })

/-- The graph container `c_Graph`.  `count` and the cached `degrees` list
are derivable (`count = nodes.length`; no claim mentions `degrees`), so
only the node storage and the cached connection list are kept. -/
structure c_Graph where
  nodes : List c_GraphNode := []
  calc_cnts : List c_GraphCnt := []
deriving DecidableEq, Repr

/-- `c_Graph::idxMap`, lines 451-458: linear scan of the `indexes` vector,
`(uint32_t)(-1) = 4294967295` when absent. -/
def idxMapAux : List Nat → Nat → Nat → Nat
  | [], _, _ => 4294967295
  | x :: r, ID, pos => if x = ID then pos else idxMapAux r ID (pos+1)

/-- `idxMap(ID)` over a graph state. -/
def idxMap (g : List c_GraphNode) (ID : Nat) : Nat :=
  idxMapAux (idxs g) ID 0

/-- One step of the pre-filled constructor, lines 466-485: resolve or create
both endpoints, establish the edge, record the descriptor verbatim, and
stop consuming input once a storage position reaches `4294967290`. -/
def buildGraphAux : List c_GraphCnt → List c_GraphNode → List c_GraphCnt → c_Graph
  | [], nodes, cnts => { nodes := nodes, calc_cnts := cnts }
  | TMP :: rest, nodes, cnts =>
    let i0 := idxMap nodes TMP.fromId
    let nodes1 := if i0 = 4294967293 ∨ i0 = 4294967295 then
        nodes ++ [{ index := TMP.fromId }] else nodes
    let i := if i0 = 4294967293 ∨ i0 = 4294967295 then nodes.length else i0
    let j0 := idxMap nodes1 TMP.toId
    let nodes2 := if j0 = 4294967293 ∨ j0 = 4294967295 then
        nodes1 ++ [{ index := TMP.toId }] else nodes1
    let j := if j0 = 4294967293 ∨ j0 = 4294967295 then nodes1.length else j0
    let nodes3 := (establishCnt nodes2 TMP.fromId (some TMP.toId)).2
    let cnts1 := cnts ++ [TMP]
    if i ≥ 4294967290 ∨ j ≥ 4294967290 then { nodes := nodes3, calc_cnts := cnts1 }
    else buildGraphAux rest nodes3 cnts1

/-- `c_Graph::c_Graph(prefill, connectionList)`, lines 465-488 (the shared
`prefill` payload is irrelevant to every claim and omitted). -/
def buildGraph (connectionList : List c_GraphCnt) : c_Graph :=
  buildGraphAux connectionList [] []

/-- The per-node duplicate scan of `optimizeCnts` (lines 529-554 and
583-609): walk `tmp->cnt_out` maintaining `marked`, `minidx`, `maxidx`,
collecting accepted descriptors and the duplicates to sever.  `pf` is
`none` for the priority-less overload and `some prioFunc` otherwise (the
`uint8_t` priority is reduced `% 256`).  Faults (`none`) if an entry is a
null pointer (`node->index` on `nullptr`) or, in the priority overload,
dangling. -/
def optScan (g : List c_GraphNode) (tmp : c_GraphNode)
    (pf : Option (c_GraphNode → c_GraphNode → Nat)) :
    List (Option Nat) → List Nat → Nat → Nat → List c_GraphCnt → List Nat →
    Option (List c_GraphCnt × List Nat)
  | [], _, _, _, cacc, sacc => some (cacc, sacc)
  | none :: _, _, _, _, _, _ => none
  | some x :: rest, marked, minidx, maxidx, cacc, sacc =>
    let step : Bool × Nat × Nat :=
      if x < minidx then (true, x, maxidx)
      else if x > maxidx then (true, minidx, x)
      else (!(marked.contains x), minidx, maxidx)
    match step with
    | (good, minidx', maxidx') =>
      if good then
        match (match pf with
               | none => some 0
               | some f =>
                 match findNode g x with
                 | none => none
                 | some nd => some (f tmp nd % 256) : Option Nat) with
        | none => none
        | some prio =>
          optScan g tmp pf rest (marked ++ [x]) minidx' maxidx'
            (cacc ++ [{ fromId := tmp.index, toId := x, priority := prio }]) sacc
      else
        optScan g tmp pf rest marked minidx' maxidx' cacc (sacc ++ [x])

/-- `for (c_GraphNode* dupl : to_sever) tmp->severCnt(dupl);`
(lines 555-557 / 610-612). -/
def severFold (a : Nat) : List Nat → List c_GraphNode → Option (List c_GraphNode)
  | [], g => some g
  | d :: rest, g =>
    match severCntPtr g a (some d) with
    | none => none
    | some (_, g') => severFold a rest g'

/-- The `for (i=0; i < count; i++)` loop of `optimizeCnts`; `remaining` is
the number of positions still to process, `pos` the current one.  `count`
is captured beforehand and node severing never changes `nodes.length`, so
`get?` at `pos` always succeeds within range. -/
def optLoop (pf : Option (c_GraphNode → c_GraphNode → Nat)) :
    Nat → Nat → List c_GraphNode → List c_GraphCnt →
    Option (List c_GraphNode × List c_GraphCnt)
  | 0, _, nodes, cacc => some (nodes, cacc)
  | remaining+1, pos, nodes, cacc =>
    match nodes[pos]? with
    | none => none
    | some tmp =>
      match optScan nodes tmp pf tmp.cnt_out [] 4294967295 0 cacc [] with
      | none => none
      | some (cacc', to_sever) =>
        match severFold tmp.index to_sever nodes with
        | none => none
        | some nodes' => optLoop pf remaining (pos+1) nodes' cacc'

/-- `c_Graph::optimizeCnts()` / `optimizeCnts(prioFunc)`, lines 521-560 and
575-615: clear `calc_cnts`, rebuild it node by node while severing detected
duplicates, and return the new descriptor count.  The two C++ overloads are
merged through the optional `pf`. -/
def optimizeCnts (G : c_Graph) (pf : Option (c_GraphNode → c_GraphNode → Nat)) :
    Option (Nat × c_Graph) :=
  match optLoop pf G.nodes.length 0 G.nodes [] with
  | none => none
  | some (nodes', cacc) => some (cacc.length, { nodes := nodes', calc_cnts := cacc })

/-- Call positions inside `devTraverseDfs` (lines 350-385): `visit` is an
invocation of the function on a start pointer, `expand` the neighbour
`for` loop over the remaining outbound entries. -/
inductive DfsMode where
  | visit (sp : Option Nat)
  | expand (es : List (Option Nat))
deriving Repr

/-- `devTraverseDfs`, lines 350-385.  The `owns_header` flag only governs
allocation/deallocation of the header and has no observable effect here.
Faults (`none`) when fuel runs out, or on `node->index` for a null
outbound entry (line 373 dereferences without a null check). -/
def dfsCore (g : List c_GraphNode) :
    Nat → DfsMode → c_SearchHeader → Option (List Nat × c_SearchHeader)
  | 0, _, _ => none
  | _+1, .visit none, hdr => some ([], hdr)
  | fuel+1, .visit (some s), hdr =>
    match findNode g s with
    | none => none
    | some nd =>
      let r := testAdd hdr s
      let out0 := if r.1 then [s] else []
      match dfsCore g fuel (.expand nd.cnt_out) r.2 with
      | none => none
      | some (out1, h1) => some (out0 ++ out1, h1)
  | _+1, .expand [], hdr => some ([], hdr)
  | _+1, .expand (none :: _), _ => none
  | fuel+1, .expand (some ni :: rest), hdr =>
    let r := testAdd hdr ni
    if r.1 then
      match dfsCore g fuel (.visit (some ni)) r.2 with
      | none => none
      | some (dq, h1) =>
        match dfsCore g fuel (.expand rest) h1 with
        | none => none
        | some (out2, h2) => some (ni :: (dq ++ out2), h2)
    else
      dfsCore g fuel (.expand rest) r.2

/-- Call positions inside `devTraverseDfs_Filt` (lines 391-432); `expand`
carries the snapshot of the node whose neighbour loop is running (needed as
the filter's first argument). -/
inductive DfsFMode where
  | visit (sp : Option Nat) (owns : Bool)
  | expand (snd : c_GraphNode) (es : List (Option Nat))

/-- `for i in dequeue: if (searchFunc(node, i)) output.push_back(i)`
(lines 422-425): the parent re-filters every returned descendant. -/
def filterDq (g : List c_GraphNode) (f : Option c_GraphNode → c_GraphNode → Bool)
    (nd : c_GraphNode) : List Nat → Option (List Nat)
  | [] => some []
  | x :: rest =>
    match findNode g x with
    | none => none
    | some xn =>
      match filterDq g f nd rest with
      | none => none
      | some r => some (if f (some nd) xn then x :: r else r)

/-- `devTraverseDfs_Filt`, lines 391-432.  Note lines 408-414: when the
start node is newly recorded it is pushed on *both* branches of the
`if (owns_header && searchFunc(nullptr, start))` test, so the filter's
verdict never affects the root's inclusion; this is kept verbatim. -/
def dfsFiltCore (g : List c_GraphNode) (f : Option c_GraphNode → c_GraphNode → Bool) :
    Nat → DfsFMode → c_SearchHeader → Option (List Nat × c_SearchHeader)
  | 0, _, _ => none
  | _+1, .visit none _, hdr => some ([], hdr)
  | fuel+1, .visit (some s) owns, hdr =>
    match findNode g s with
    | none => none
    | some nd =>
      let r := testAdd hdr s
      let out0 := if r.1 then (if owns && f none nd then [s] else [s]) else []
      match dfsFiltCore g f fuel (.expand nd nd.cnt_out) r.2 with
      | none => none
      | some (out1, h1) => some (out0 ++ out1, h1)
  | _+1, .expand _ [], hdr => some ([], hdr)
  | _+1, .expand _ (none :: _), _ => none
  | fuel+1, .expand nd (some ni :: rest), hdr =>
    let r := testAdd hdr ni
    if r.1 then
      match findNode g ni with
      | none => none
      | some nnode =>
        let keep := f (some nd) nnode
        match dfsFiltCore g f fuel (.visit (some ni) false) r.2 with
        | none => none
        | some (dq, h1) =>
          match filterDq g f nnode dq with
          | none => none
          | some dqF =>
            match dfsFiltCore g f fuel (.expand nd rest) h1 with
            | none => none
            | some (out2, h2) =>
              some ((if keep then [ni] else []) ++ dqF ++ out2, h2)
    else
      dfsFiltCore g f fuel (.expand nd rest) r.2

/-- The neighbour-expansion loop of `devTraverseBfs` (lines 196-209):
null entries are skipped; each newly recorded neighbour is appended to the
output and to the shared `visit_queue`. -/
def bfsExpand : c_SearchHeader → List (Option Nat) → List Nat × c_SearchHeader
  | hdr, [] => ([], hdr)
  | hdr, none :: rest => bfsExpand hdr rest
  | hdr, some ni :: rest =>
    let r := testAdd hdr ni
    if r.1 then
      let h2 := { r.2 with visit_queue := r.2.visit_queue ++ [ni] }
      match bfsExpand h2 rest with
      | (out, h3) => (ni :: out, h3)
    else bfsExpand r.2 rest

/-- Call positions inside `devTraverseBfs` (lines 167-251): `visit` is one
invocation, `drain` one iteration of the `do { ... } while` dequeue loop
(carrying the local `newqueue`), `inner` the
`while (dequeue.empty() && !visit_queue.empty())` pop loop. -/
inductive BfsMode where
  | visit (sp : Option Nat) (owns : Bool)
  | drain (owns : Bool) (newqueue : List Nat)
  | inner

/-- `devTraverseBfs`, lines 167-251, as a fuelled state machine over the
shared search header.  `none` only on fuel exhaustion or a dangling
pointer, neither of which occurs through the graph interface. -/
def bfsCore (g : List c_GraphNode) :
    Nat → BfsMode → c_SearchHeader → Option (List Nat × c_SearchHeader)
  | 0, _, _ => none
  | _+1, .visit none _, hdr => some ([], hdr)
  | fuel+1, .visit (some s) owns, hdr =>
    match findNode g s with
    | none => none
    | some nd =>
      let r := testAdd hdr s
      let out0 := if r.1 then [s] else []
      match bfsExpand r.2 nd.cnt_out with
      | (outE, h1) =>
        match bfsCore g fuel (.drain owns []) h1 with
        | none => none
        | some (outD, h2) => some (out0 ++ outE ++ outD, h2)
  | fuel+1, .drain owns nq, hdr =>
    match bfsCore g fuel .inner hdr with
    | none => none
    | some (dq, h1) =>
      let nq1 := nq ++ dq
      let promote := owns && h1.visit_queue.isEmpty && !nq1.isEmpty
      let h2 := if promote then { h1 with visit_queue := nq1 } else h1
      let nq2 := if promote then [] else nq1
      if h2.visit_queue.isEmpty then
        if owns then some (dq, h2)
        else
          let h3 := if nq2.isEmpty then h2 else { h2 with visit_queue := nq2 }
          some (dq, h3)
      else
        match bfsCore g fuel (.drain owns nq2) h2 with
        | none => none
        | some (outR, h3) => some (dq ++ outR, h3)
  | fuel+1, .inner, hdr =>
    match hdr.visit_queue with
    | [] => some ([], hdr)
    | h :: rest =>
      match bfsCore g fuel (.visit (some h) false) { hdr with visit_queue := rest } with
      | none => none
      | some (dq, h1) =>
        if dq.isEmpty then bfsCore g fuel .inner h1
        else some (dq, h1)

/-- The filtered neighbour-expansion loop of `devTraverseBfs_Filt`
(lines 289-304): the filter only gates the output push, never the queue
push. -/
def bfsFiltExpand (g : List c_GraphNode) (f : Option c_GraphNode → c_GraphNode → Bool)
    (snd : c_GraphNode) :
    c_SearchHeader → List (Option Nat) → Option (List Nat × c_SearchHeader)
  | hdr, [] => some ([], hdr)
  | hdr, none :: rest => bfsFiltExpand g f snd hdr rest
  | hdr, some ni :: rest =>
    let r := testAdd hdr ni
    if r.1 then
      match findNode g ni with
      | none => none
      | some nnode =>
        let h2 := { r.2 with visit_queue := r.2.visit_queue ++ [ni] }
        match bfsFiltExpand g f snd h2 rest with
        | none => none
        | some (out, h3) => some ((if f (some snd) nnode then [ni] else []) ++ out, h3)
    else bfsFiltExpand g f snd r.2 rest

/-- `devTraverseBfs_Filt`, lines 257-347: identical control flow to
`devTraverseBfs`; the root is pushed only by the owning call and only when
`searchFunc(nullptr, start)` holds (lines 277-281). -/
def bfsFiltCore (g : List c_GraphNode) (f : Option c_GraphNode → c_GraphNode → Bool) :
    Nat → BfsMode → c_SearchHeader → Option (List Nat × c_SearchHeader)
  | 0, _, _ => none
  | _+1, .visit none _, hdr => some ([], hdr)
  | fuel+1, .visit (some s) owns, hdr =>
    match findNode g s with
    | none => none
    | some nd =>
      let r := testAdd hdr s
      let out0 := if r.1 then (if owns && f none nd then [s] else []) else []
      match bfsFiltExpand g f nd r.2 nd.cnt_out with
      | none => none
      | some (outE, h1) =>
        match bfsFiltCore g f fuel (.drain owns []) h1 with
        | none => none
        | some (outD, h2) => some (out0 ++ outE ++ outD, h2)
  | fuel+1, .drain owns nq, hdr =>
    match bfsFiltCore g f fuel .inner hdr with
    | none => none
    | some (dq, h1) =>
      let nq1 := nq ++ dq
      let promote := owns && h1.visit_queue.isEmpty && !nq1.isEmpty
      let h2 := if promote then { h1 with visit_queue := nq1 } else h1
      let nq2 := if promote then [] else nq1
      if h2.visit_queue.isEmpty then
        if owns then some (dq, h2)
        else
          let h3 := if nq2.isEmpty then h2 else { h2 with visit_queue := nq2 }
          some (dq, h3)
      else
        match bfsFiltCore g f fuel (.drain owns nq2) h2 with
        | none => none
        | some (outR, h3) => some (dq ++ outR, h3)
  | fuel+1, .inner, hdr =>
    match hdr.visit_queue with
    | [] => some ([], hdr)
    | h :: rest =>
      match bfsFiltCore g f fuel (.visit (some h) false) { hdr with visit_queue := rest } with
      | none => none
      | some (dq, h1) =>
        if dq.isEmpty then bfsFiltCore g f fuel .inner h1
        else some (dq, h1)

/-- `c_Graph::runBreadthFirst(index_start)`, lines 628-636: resolve the
identity (empty result when unresolvable) and run the BFS with a fresh
header.  The fuel is explicit; every theorem quantifies it or fixes a
sufficient value. -/
def runBreadthFirst (G : c_Graph) (fuel : Nat) (index_start : Nat) : Option (List Nat) :=
  let init := idxMap G.nodes index_start
  if init = 4294967293 ∨ init = 4294967295 then some []
  else
    match G.nodes[init]? with
    | none => none
    | some start_parent =>
      match bfsCore G.nodes fuel (.visit (some start_parent.index) true) initHeader with
      | none => none
      | some (out, _) => some out

/-- `c_Graph::runBreadthFirst(index_start, searchFunc)`, lines 652-660. -/
def runBreadthFirstFilt (G : c_Graph) (fuel : Nat) (index_start : Nat)
    (f : Option c_GraphNode → c_GraphNode → Bool) : Option (List Nat) :=
  let init := idxMap G.nodes index_start
  if init = 4294967293 ∨ init = 4294967295 then some []
  else
    match G.nodes[init]? with
    | none => none
    | some start_parent =>
      match bfsFiltCore G.nodes f fuel (.visit (some start_parent.index) true) initHeader with
      | none => none
      | some (out, _) => some out

/-- `c_Graph::runDepthFirst(index_start)`, lines 672-680. -/
def runDepthFirst (G : c_Graph) (fuel : Nat) (index_start : Nat) : Option (List Nat) :=
  let init := idxMap G.nodes index_start
  if init = 4294967293 ∨ init = 4294967295 then some []
  else
    match G.nodes[init]? with
    | none => none
    | some start_parent =>
      match dfsCore G.nodes fuel (.visit (some start_parent.index)) initHeader with
      | none => none
      | some (out, _) => some out

/-- `c_Graph::runDepthFirst(index_start, searchFunc)`, lines 696-704. -/
def runDepthFirstFilt (G : c_Graph) (fuel : Nat) (index_start : Nat)
    (f : Option c_GraphNode → c_GraphNode → Bool) : Option (List Nat) :=
  let init := idxMap G.nodes index_start
  if init = 4294967293 ∨ init = 4294967295 then some []
  else
    match G.nodes[init]? with
    | none => none
    | some start_parent =>
      match dfsFiltCore G.nodes f fuel (.visit (some start_parent.index) true) initHeader with
      | none => none
      | some (out, _) => some out

/-! ## Specification-side reference definitions

These definitions follow the *spec's words* (plain first-occurrence
set-membership, reference pre-order DFS, reference FIFO breadth-first
discovery); the theorems compare the source-derived definitions above
against them. -/

/-- Modelled from the spec: the acceptance decisions of "a plain
first-occurrence set-membership test" — the k-th flag is true exactly when
the k-th identity does not occur earlier (`seen` accumulates). -/
def firstOccFlags : List Nat → List Nat → List Bool
  | [], _ => []
  | i :: rest, seen =>
    (!(seen.contains i)) ::
      firstOccFlags rest (if seen.contains i then seen else seen ++ [i])

/-- Modelled from the spec: the recorded identities of a plain
first-occurrence set-membership test, in first-occurrence order. -/
def firstOccs : List Nat → List Nat → List Nat
  | [], acc => acc
  | i :: rest, acc => firstOccs rest (if acc.contains i then acc else acc ++ [i])

/-- Run `testAdd` over a whole list of identities, collecting the returned
booleans (the acceptance decisions) and the final header. -/
def testAddRun : List Nat → c_SearchHeader → List Bool × c_SearchHeader
  | [], h => ([], h)
  | i :: rest, h =>
    let r := testAdd h i
    let p := testAddRun rest r.2
    (r.1 :: p.1, p.2)

/-- The search-header invariant maintained by `testAdd`: every recorded
identity lies in the `[min_idx, max_idx]` window, and each bound is either
itself recorded or still at its initial value. -/
def HInv (h : c_SearchHeader) : Prop :=
  (∀ v ∈ h.idx_visited, h.min_idx ≤ v ∧ v ≤ h.max_idx) ∧
  (h.max_idx ∈ h.idx_visited ∨ h.max_idx = 0) ∧
  (h.min_idx ∈ h.idx_visited ∨ h.min_idx = 4294967293)

/-! ### Concrete scenario states used by individual claims -/

/-- The spec's optimiser scenario: the graph built from
`{(1,2),(1,2),(1,3)}`. -/
def optScenarioGraph : c_Graph :=
  buildGraph [⟨1, 2, 0⟩, ⟨1, 2, 0⟩, ⟨1, 3, 0⟩]

/-- The priority function `|to.id - from.id|` of the optimiser scenario. -/
def absDiffPrio (a b : c_GraphNode) : Nat :=
  max a.index b.index - min a.index b.index

/-- A one-edge graph `{(1,2)}` for the filtered-traversal scenarios. -/
def filtScenarioGraph : c_Graph := buildGraph [⟨1, 2, 0⟩]

/-- The always-false filter. -/
def falseFilter : Option c_GraphNode → c_GraphNode → Bool := fun _ _ => false

/-- A state reached purely by edge establishment — the graph built from
`{(3,2),(1,2),(1,4),(1,2)}` — in which node 1's outbound list is
`[2, 4, 2]` while node 2's inbound list is `[3, 1, 1]`: the two lists hold
the doubled edge at different positions. -/
def severScenarioGraph : c_Graph :=
  buildGraph [⟨3, 2, 0⟩, ⟨1, 2, 0⟩, ⟨1, 4, 0⟩, ⟨1, 2, 0⟩]

/-! ### Invariants, reachability and the spec-side depth-first reference -/

/-- Well-formedness of a graph state: every adjacency entry of every node
is a non-null pointer to a node of the graph (the C10 invariant). -/
def WF (g : List c_GraphNode) : Prop :=
  ∀ nd ∈ g, (∀ e ∈ nd.cnt_out, ∃ i, e = some i ∧ i ∈ idxs g) ∧
            (∀ e ∈ nd.cnt_in, ∃ i, e = some i ∧ i ∈ idxs g)

/-- All node identities stay below the reserved sentinel values (the
identity-space invariant of the spec, §3). -/
def IdxBelow (g : List c_GraphNode) : Prop :=
  ∀ nd ∈ g, nd.index < 4294967293

/-- The edge relation read off a graph state: node `x` lists a pointer to
`y` outbound. -/
def edgeRel (g : List c_GraphNode) (x y : Nat) : Prop :=
  ∃ nd ∈ g, nd.index = x ∧ some y ∈ nd.cnt_out

/-- Reachability along outbound edges. -/
def Reach (g : List c_GraphNode) (s x : Nat) : Prop :=
  Relation.ReflTransGen (edgeRel g) s x

/-- Pointer-list entries that a traversal expansion may dereference:
each non-null entry resolves inside `g`. -/
def EntriesOk (g : List c_GraphNode) (es : List (Option Nat)) : Prop :=
  ∀ e ∈ es, ∃ x, e = some x ∧ x ∈ idxs g

/-- `u`'s outbound neighbours are all recorded in `W`: the node has been
fully expanded. -/
def ExpandedIn (g : List c_GraphNode) (u : Nat) (W : List Nat) : Prop :=
  ∀ y, edgeRel g u y → y ∈ W

/-- Number of indices of `g` not yet recorded in `V` (the fuel measure of
the traversals). -/
def countUnvisited (g : List c_GraphNode) (V : List Nat) : Nat :=
  ((idxs g).filter (fun i => !(V.contains i))).length

/-- An upper bound on every node's out-degree. -/
def OutDegLe (g : List c_GraphNode) (B : Nat) : Prop :=
  ∀ nd ∈ g, nd.cnt_out.length ≤ B

/-- Modelled from the spec: the reference pre-order, immediate-descent
depth-first traversal ("visit node, append to output; for each outbound
neighbour not yet recorded, append it to the output immediately, then
recurse into it before advancing to the next neighbour"), with a plain
set-membership visited list.  It mirrors `dfsCore`'s call structure so the
two can be compared with the same fuel. -/
def specDfsCore (g : List c_GraphNode) :
    Nat → DfsMode → List Nat → Option (List Nat × List Nat)
  | 0, _, _ => none
  | _+1, .visit none, V => some ([], V)
  | fuel+1, .visit (some s), V =>
    match findNode g s with
    | none => none
    | some nd =>
      let out0 := if V.contains s then [] else [s]
      let V1 := if V.contains s then V else V ++ [s]
      match specDfsCore g fuel (.expand nd.cnt_out) V1 with
      | none => none
      | some (out1, V2) => some (out0 ++ out1, V2)
  | _+1, .expand [], V => some ([], V)
  | _+1, .expand (none :: _), _ => none
  | fuel+1, .expand (some ni :: rest), V =>
    if V.contains ni then
      specDfsCore g fuel (.expand rest) V
    else
      match specDfsCore g fuel (.visit (some ni)) (V ++ [ni]) with
      | none => none
      | some (dq, V1) =>
        match specDfsCore g fuel (.expand rest) V1 with
        | none => none
        | some (out2, V2) => some (ni :: (dq ++ out2), V2)

/-- The spec-side counterpart of `runDepthFirst`. -/
def specRunDepthFirst (G : c_Graph) (fuel : Nat) (index_start : Nat) : Option (List Nat) :=
  let init := idxMap G.nodes index_start
  if init = 4294967293 ∨ init = 4294967295 then some []
  else
    match G.nodes[init]? with
    | none => none
    | some start_parent =>
      match specDfsCore G.nodes fuel (.visit (some start_parent.index)) [] with
      | none => none
      | some (out, _) => some out

/-- The spec-side counterpart of `bfsExpand`: the neighbour-expansion loop
over a plain visited list `V` and queue `Q` (null entries skipped, fresh
identities appended to output, visited list and queue). -/
def specExpand : List Nat → List Nat → List (Option Nat) → List Nat × List Nat × List Nat
  | V, Q, [] => ([], V, Q)
  | V, Q, none :: rest => specExpand V Q rest
  | V, Q, some ni :: rest =>
    if V.contains ni then specExpand V Q rest
    else
      match specExpand (V ++ [ni]) (Q ++ [ni]) rest with
      | (out, V2, Q2) => (ni :: out, V2, Q2)

/-- The spec-side counterpart of `bfsCore`: the same fuelled state machine
with the header replaced by a plain visited list and queue. -/
def specBfsCore (g : List c_GraphNode) :
    Nat → BfsMode → List Nat → List Nat → Option (List Nat × List Nat × List Nat)
  | 0, _, _, _ => none
  | _+1, .visit none _, V, Q => some ([], V, Q)
  | fuel+1, .visit (some s) owns, V, Q =>
    match findNode g s with
    | none => none
    | some nd =>
      let out0 := if V.contains s then [] else [s]
      let V0 := if V.contains s then V else V ++ [s]
      match specExpand V0 Q nd.cnt_out with
      | (outE, V1, Q1) =>
        match specBfsCore g fuel (.drain owns []) V1 Q1 with
        | none => none
        | some (outD, V2, Q2) => some (out0 ++ outE ++ outD, V2, Q2)
  | fuel+1, .drain owns nq, V, Q =>
    match specBfsCore g fuel .inner V Q with
    | none => none
    | some (dq, V1, Q1) =>
      let nq1 := nq ++ dq
      let promote := owns && Q1.isEmpty && !nq1.isEmpty
      let Q2 := if promote then nq1 else Q1
      let nq2 := if promote then ([] : List Nat) else nq1
      if Q2.isEmpty then
        if owns then some (dq, V1, Q2)
        else some (dq, V1, if nq2.isEmpty then Q2 else nq2)
      else
        match specBfsCore g fuel (.drain owns nq2) V1 Q2 with
        | none => none
        | some (outR, V3, Q3) => some (dq ++ outR, V3, Q3)
  | fuel+1, .inner, V, Q =>
    match Q with
    | [] => some ([], V, [])
    | u :: rest =>
      match specBfsCore g fuel (.visit (some u) false) V rest with
      | none => none
      | some (dq, V1, Q1) =>
        if dq.isEmpty then specBfsCore g fuel .inner V1 Q1
        else some (dq, V1, Q1)

/-- Modelled from the spec: the reference first-in-first-out breadth-first
discovery loop — pop the head of the work queue, append its not-yet-seen
neighbours (in adjacency-list order) to the output, the visited list and
the queue, and repeat until the queue empties. -/
def bfsProcess (g : List c_GraphNode) : Nat → List Nat → List Nat → Option (List Nat × List Nat)
  | 0, _, _ => none
  | _+1, V, [] => some ([], V)
  | fuel+1, V, u :: Q =>
    match findNode g u with
    | none => none
    | some nd =>
      match specExpand V Q nd.cnt_out with
      | (n, V1, Q1) =>
        match bfsProcess g fuel V1 Q1 with
        | none => none
        | some (o, V2) => some (n ++ o, V2)

/-- `bfsProcess` as a relation (the fuel is existential: the canonical
result of the reference loop). -/
def BProc (g : List c_GraphNode) (V Q o V2 : List Nat) : Prop :=
  ∃ fu, bfsProcess g fu V Q = some (o, V2)

/-- Expand one whole level in order, collecting the newly discovered
identities (the next level). -/
def levelStep (g : List c_GraphNode) : List Nat → List Nat → Option (List Nat × List Nat)
  | V, [] => some ([], V)
  | V, u :: rest =>
    match findNode g u with
    | none => none
    | some nd =>
      match specExpand V [] nd.cnt_out with
      | (n, V1, _) =>
        match levelStep g V1 rest with
        | none => none
        | some (n2, V2) => some (n ++ n2, V2)

/-- Modelled from the spec: level-order visitation — the successive
breadth-first levels after the given one, ties within one level in
adjacency-list order. -/
def bfsLevels (g : List c_GraphNode) : Nat → List Nat → List Nat → Option (List (List Nat))
  | 0, _, _ => none
  | fuel+1, V, L =>
    if L.isEmpty then some []
    else
      match levelStep g V L with
      | none => none
      | some (N, V1) =>
        match bfsLevels g fuel V1 N with
        | none => none
        | some Ls => some (N :: Ls)

/-- `x` lies within `n` hops of `s` (shortest-hop distance at most `n`). -/
def ReachN (g : List c_GraphNode) (s : Nat) : Nat → Nat → Prop
  | 0, x => x = s
  | n+1, x => ReachN g s n x ∨ ∃ y, ReachN g s n y ∧ edgeRel g y x

/-- `u` has been recorded and fully expanded into `V`. -/
def Processed (g : List c_GraphNode) (V : List Nat) (u : Nat) : Prop :=
  u ∈ V ∧ ∀ nd, findNode g u = some nd → ∀ e ∈ nd.cnt_out, ∀ y, e = some y → y ∈ V

/-- Every queue entry has been recorded and fully expanded: re-processing
the queue discovers nothing. -/
def Quiescent (g : List c_GraphNode) (V Q : List Nat) : Prop :=
  ∀ u ∈ Q, Processed g V u

/-- Preconditions under which each `specBfsCore` call position is entered
through the graph interface: queue entries are recorded identities of graph
nodes, and a drain's accumulated `newqueue` holds already-processed ones. -/
def BfsPre (g : List c_GraphNode) : BfsMode → List Nat → List Nat → Prop
  | .visit _ _, V, Q => (∀ u ∈ Q, u ∈ V) ∧ (∀ u ∈ Q, u ∈ idxs g)
  | .drain _ nq, V, Q =>
      (∀ u ∈ Q, u ∈ V) ∧ (∀ u ∈ Q, u ∈ idxs g) ∧
      Quiescent g V nq ∧ (∀ u ∈ nq, u ∈ V) ∧ (∀ u ∈ nq, u ∈ idxs g)
  | .inner, V, Q => (∀ u ∈ Q, u ∈ V) ∧ (∀ u ∈ Q, u ∈ idxs g)

/-- What each `specBfsCore` call position computes, in terms of the
reference first-in-first-out loop `bfsProcess`: the output and visited
list are those of the reference loop, and the leftover queue holds only
already-processed identities (empty for the owning call). -/
def BfsChar (g : List c_GraphNode) : BfsMode → List Nat → List Nat →
    List Nat × List Nat × List Nat → Prop
  | .visit none _, V, Q, r => r = ([], V, Q)
  | .visit (some s) owns, V, Q, r =>
      ∃ o, BProc g (if V.contains s then V else V ++ [s]) (s :: Q) o r.2.1 ∧
        r.1 = (if V.contains s then [] else [s]) ++ o ∧
        Quiescent g r.2.1 r.2.2 ∧ (∀ u ∈ r.2.2, u ∈ r.2.1) ∧
        (∀ u ∈ r.2.2, u ∈ idxs g) ∧ r.2.2.length ≤ o.length ∧
        (owns = true → r.2.2 = [])
  | .drain owns nq, V, Q, r =>
      BProc g V Q r.1 r.2.1 ∧
        Quiescent g r.2.1 r.2.2 ∧ (∀ u ∈ r.2.2, u ∈ r.2.1) ∧
        (∀ u ∈ r.2.2, u ∈ idxs g) ∧ r.2.2.length ≤ nq.length + r.1.length ∧
        (owns = true → r.2.2 = [])
  | .inner, V, Q, r =>
      BProc g V Q r.1 r.2.1 ∧
        Quiescent g r.2.1 r.2.2 ∧ (∀ u ∈ r.2.2, u ∈ r.2.1) ∧
        (∀ u ∈ r.2.2, u ∈ idxs g) ∧ r.2.2.length ≤ r.1.length

end GraphStruct

/-! ## Theorems -/

namespace GraphStruct

theorem hInv_initHeader : HInv initHeader := by
  refine ⟨?_, ?_, ?_⟩
  · intro v hv; simp [initHeader] at hv
  · right; rfl
  · right; rfl

theorem testAdd_spec (h : c_SearchHeader) (i : Nat) (hInv : HInv h)
    (hi : i < 4294967293) :
    (testAdd h i).1 = !(h.idx_visited.contains i) ∧
    (testAdd h i).2.idx_visited =
      (if h.idx_visited.contains i then h.idx_visited else h.idx_visited ++ [i]) ∧
    (testAdd h i).2.visit_queue = h.visit_queue ∧
    HInv (testAdd h i).2 := by
  obtain ⟨hIa, hIb, hIc⟩ := hInv
  by_cases h1 : i > h.max_idx
  · have hnotin : ¬ i ∈ h.idx_visited := fun hmem => absurd (hIa i hmem).2 (by omega)
    by_cases h2 : i < h.min_idx
    · have hstep : testAdd h i =
          (true, { h with min_idx := i, max_idx := i,
                          idx_visited := h.idx_visited ++ [i] }) := by
        simp [testAdd, h1, h2]
      rw [hstep]
      refine ⟨by simp [hnotin], by simp [hnotin], rfl, ?_, ?_, ?_⟩
      · intro v hv
        dsimp only at hv ⊢
        simp only [List.mem_append, List.mem_singleton] at hv
        rcases hv with hv | hv
        · have := hIa v hv; constructor <;> omega
        · constructor <;> omega
      · left; simp
      · left; simp
    · have hstep : testAdd h i =
          (true, { h with max_idx := i, idx_visited := h.idx_visited ++ [i] }) := by
        simp [testAdd, h1, h2]
      rw [hstep]
      refine ⟨by simp [hnotin], by simp [hnotin], rfl, ?_, ?_, ?_⟩
      · intro v hv
        dsimp only at hv ⊢
        simp only [List.mem_append, List.mem_singleton] at hv
        rcases hv with hv | hv
        · have := hIa v hv; constructor <;> omega
        · constructor <;> omega
      · left; simp
      · rcases hIc with hc | hc
        · left; simp only []
          exact List.mem_append_left _ hc
        · right; exact hc
  · by_cases h2 : i < h.min_idx
    · have hnotin : ¬ i ∈ h.idx_visited := fun hmem => absurd (hIa i hmem).1 (by omega)
      have hstep : testAdd h i =
          (true, { h with min_idx := i, idx_visited := h.idx_visited ++ [i] }) := by
        simp [testAdd, h1, h2]
      rw [hstep]
      refine ⟨by simp [hnotin], by simp [hnotin], rfl, ?_, ?_, ?_⟩
      · intro v hv
        dsimp only at hv ⊢
        simp only [List.mem_append, List.mem_singleton] at hv
        rcases hv with hv | hv
        · have := hIa v hv; constructor <;> omega
        · constructor <;> omega
      · rcases hIb with hb | hb
        · left; simp only []
          exact List.mem_append_left _ hb
        · right; exact hb
      · left; simp
    · by_cases h3 : i = h.max_idx ∨ i = h.min_idx
      · have hin : i ∈ h.idx_visited := by
          rcases h3 with h3 | h3
          · rcases hIb with hb | hb
            · exact h3 ▸ hb
            · -- max_idx = 0, hence i = 0 = min_idx, which must then be recorded
              have hmin0 : h.min_idx = 0 := by omega
              rcases hIc with hc | hc
              · have heq : h.min_idx = i := by omega
                exact heq ▸ hc
              · omega
          · rcases hIc with hc | hc
            · exact h3 ▸ hc
            · omega
        have hstep : testAdd h i = (false, h) := by
          simp [testAdd, h1, h2, h3]
        rw [hstep]
        exact ⟨by simp [hin], by simp [hin], rfl, hIa, hIb, hIc⟩
      · by_cases h4 : i ∈ h.idx_visited
        · -- the linear scan finds the duplicate
          have hstep : testAdd h i = (false, h) := by
            simp [testAdd, h1, h2, h3, h4]
          rw [hstep]
          exact ⟨by simp [h4], by simp [h4], rfl, hIa, hIb, hIc⟩
        · have hstep : testAdd h i =
              (true, { h with idx_visited := h.idx_visited ++ [i] }) := by
            simp [testAdd, h1, h2, h3, h4]
          rw [hstep]
          refine ⟨by simp [h4], by simp [h4], rfl, ?_, ?_, ?_⟩
          · intro v hv
            dsimp only at hv ⊢
            simp only [List.mem_append, List.mem_singleton] at hv
            rcases hv with hv | hv
            · exact hIa v hv
            · constructor <;> omega
          · rcases hIb with hb | hb
            · left; simp only []
              exact List.mem_append_left _ hb
            · right; exact hb
          · rcases hIc with hc | hc
            · left; simp only []
              exact List.mem_append_left _ hc
            · right; exact hc

theorem testAddRun_spec (ids : List Nat) :
    ∀ h : c_SearchHeader, HInv h → (∀ i ∈ ids, i < 4294967293) →
    (testAddRun ids h).1 = firstOccFlags ids h.idx_visited ∧
    (testAddRun ids h).2.idx_visited = firstOccs ids h.idx_visited ∧
    HInv (testAddRun ids h).2 := by
  induction ids with
  | nil => intro h hInv _; exact ⟨rfl, rfl, hInv⟩
  | cons i rest ih =>
    intro h hInv hBound
    have hi : i < 4294967293 := hBound i (List.mem_cons_self i rest)
    obtain ⟨hFlag, hVis, _, hInv'⟩ := testAdd_spec h i hInv hi
    have hRest := ih (testAdd h i).2 hInv' (fun j hj => hBound j (List.mem_cons_of_mem _ hj))
    refine ⟨?_, ?_, hRest.2.2⟩
    · simp only [testAddRun, hRest.1, hVis, firstOccFlags, hFlag]
    · simp only [testAddRun, hRest.2.1, hVis, firstOccs]

end GraphStruct

namespace GraphStruct

/-- C6: on a freshly constructed `c_SearchHeader`, for any call sequence of
identities below the reserved sentinel `4294967293`, `testAdd` returns
`true` and records an identity exactly on its first occurrence and `false`
on every repeat — the min/max fast path plus interior linear scan make the
same acceptance decisions, and record the same identities, as a plain
first-occurrence set-membership test. -/
theorem c6_testAdd_first_occurrence (ids : List Nat)
    (hBound : ∀ i ∈ ids, i < 4294967293) :
    (testAddRun ids initHeader).1 = firstOccFlags ids [] ∧
    (testAddRun ids initHeader).2.idx_visited = firstOccs ids [] := by
  have h := testAddRun_spec ids initHeader hInv_initHeader hBound
  exact ⟨h.1, h.2.1⟩

/-- Witness for `c6_testAdd_first_occurrence` at the concrete call sequence
`5, 3, 5, 4, 0, 3` (flags `[T,T,F,T,T,F]`, recorded `[5,3,4,0]`). -/
theorem c6_testAdd_first_occurrence_witness :
    (testAddRun [5, 3, 5, 4, 0, 3] initHeader).1 =
        firstOccFlags [5, 3, 5, 4, 0, 3] [] ∧
    (testAddRun [5, 3, 5, 4, 0, 3] initHeader).2.idx_visited =
        firstOccs [5, 3, 5, 4, 0, 3] [] :=
  c6_testAdd_first_occurrence [5, 3, 5, 4, 0, 3] (by decide)

/-- C1 (failing input): on the spec's own scenario graph
`{(1,2),(1,2),(1,3)}` the first `optimizeCnts()` call returns `3`, keeps
the duplicate descriptor `1→2` in the cached list, and leaves the nodes'
adjacency lists untouched (no severing); the priority overload with
`|to.id - from.id|` likewise returns `3` with priorities `[1,1,2]`.  The
claim (and the optimiser's own documentation, `Graph.hpp` lines 513-516)
expects `2` distinct descriptors with the redundant edge removed: the
`min`/`max` fast path (lines 534-538) classifies the second `2` as "above
the running maximum", because `maxidx` is only ever updated in the
`else if` branch and still holds its initial `0`. -/
theorem c1_optimize_keeps_duplicate :
    optimizeCnts optScenarioGraph none =
      some (3, { nodes := optScenarioGraph.nodes,
                 calc_cnts := [⟨1, 2, 0⟩, ⟨1, 2, 0⟩, ⟨1, 3, 0⟩] }) ∧
    optimizeCnts optScenarioGraph (some absDiffPrio) =
      some (3, { nodes := optScenarioGraph.nodes,
                 calc_cnts := [⟨1, 2, 1⟩, ⟨1, 2, 1⟩, ⟨1, 3, 2⟩] }) ∧
    (findNode optScenarioGraph.nodes 1).map (fun nd => nd.cnt_out) =
      some [some 2, some 2, some 3] := by
  refine ⟨by decide, by decide, by decide⟩

/-- C2 (failing input): a filtered depth-first traversal of the graph
`{(1,2)}` from node 1 with the constant-false filter still returns `[1]`:
the root is pushed on both branches of
`if (owns_header && searchFunc(nullptr, start))` (lines 409-413), so the
filter's verdict never controls the root's inclusion, contradicting the
claim (and the function's own documentation, line 389: "The function must
return TRUE to add it to the output vector"). -/
theorem c2_filtered_dfs_root_ignores_filter :
    runDepthFirstFilt filtScenarioGraph 10 1 falseFilter = some [1] := by
  decide

/-- C3 (failing input): in the establish-only state `severScenarioGraph`
(node 1 outbound `[2,4,2]`, node 2 inbound `[3,1,1]`),
`severCnt` of node 2 on node 1 removes *both* occurrences of 2 from node
1's outbound list (final `[4]`, returned degree 1) instead of only the
first (`[4,2]`, degree 2): the scan erases at every position whose current
entry equals `other`, and after the first erase the second copy shifts into
a later scanned position.  This contradicts the claim and the method's own
documentation (line 69: "It will only remove the first instance of a
connection").  Node 2's inbound list does lose exactly one `1`. -/
theorem c3_sever_removes_both_occurrences :
    severCntPtr severScenarioGraph.nodes 1 (some 2) =
      some (1, [{ index := 3, cnt_out := [some 2], cnt_in := [] },
                { index := 2, cnt_out := [], cnt_in := [some 3, some 1] },
                { index := 1, cnt_out := [some 4], cnt_in := [] },
                { index := 4, cnt_out := [], cnt_in := [some 1] }]) := by
  decide

/-- C4 (failing input): the state `severScenarioGraph` is reachable from
construction by `establishCnt` alone and is symmetric (node 1's outbound
holds 2 twice, node 2's inbound holds 1 twice), yet after
`severCnt(node 2)` on node 1 the occurrence counts disagree: 0 copies of
2 remain outbound of node 1 while 1 copy of 1 remains inbound of node 2 —
the paired-occurrence symmetry invariant is not preserved by `severCnt`. -/
theorem c4_sever_breaks_symmetry :
    (findNode severScenarioGraph.nodes 1).map (fun nd => nd.cnt_out.count (some 2)) =
        some 2 ∧
    (findNode severScenarioGraph.nodes 2).map (fun nd => nd.cnt_in.count (some 1)) =
        some 2 ∧
    (severCntPtr severScenarioGraph.nodes 1 (some 2)).map
        (fun r => ((findNode r.2 1).map (fun nd => nd.cnt_out.count (some 2)),
                   (findNode r.2 2).map (fun nd => nd.cnt_in.count (some 1)))) =
      some (some 0, some 1) := by
  refine ⟨by decide, by decide, by decide⟩

end GraphStruct

namespace GraphStruct

theorem eraseIdx_append_len {α : Type} (l t : List α) (x : α) :
    (l ++ x :: t).eraseIdx l.length = l ++ t := by
  induction l with
  | nil => rfl
  | cons y r ih => simpa [List.eraseIdx] using ih

theorem findNode_some {g : List c_GraphNode} {a : Nat} {nd : c_GraphNode}
    (h : findNode g a = some nd) : nd.index = a ∧ nd ∈ g := by
  refine ⟨?_, List.mem_of_find?_eq_some h⟩
  have := List.find?_some h
  simpa using this

theorem findNode_map (g : List c_GraphNode) (a : Nat) (f : c_GraphNode → c_GraphNode)
    (hf : ∀ nd, (f nd).index = nd.index) :
    findNode (g.map f) a = (findNode g a).map f := by
  unfold findNode
  have hpf : ((fun nd : c_GraphNode => nd.index == a) ∘ f) =
      (fun nd : c_GraphNode => nd.index == a) := by
    funext nd
    simp [Function.comp, hf]
  rw [List.find?_map f g, hpf]

theorem findNode_of_mem_nodup {g : List c_GraphNode} {nd : c_GraphNode}
    (hnd : (idxs g).Nodup) (hmem : nd ∈ g) : findNode g nd.index = some nd := by
  induction g with
  | nil => cases hmem
  | cons x rest ih =>
    have hcons : x.index ∉ idxs rest ∧ (idxs rest).Nodup := by
      have := hnd
      simp only [idxs, List.map_cons, List.nodup_cons] at this
      exact ⟨by simpa [idxs] using this.1, by simpa [idxs] using this.2⟩
    rcases List.mem_cons.mp hmem with h | h
    · subst h; simp [findNode]
    · have hx : x.index ≠ nd.index := by
        intro he
        exact hcons.1 (he ▸ List.mem_map_of_mem (fun nd => nd.index) h)
    -- the head does not match, recurse
      have := ih hcons.2 h
      simpa [findNode, List.find?_cons, hx] using this

end GraphStruct

namespace GraphStruct

theorem severLoop_phaseB (a b : Nat) (L1 L2 : List (Option Nat))
    (ha : some a ∉ L2) :
    ∀ steps i, L1.length < i → i ≤ L2.length → steps + i = L2.length + 1 →
    severLoop a b (L1.length + 1) (L2.length + 1) steps i L1 (L2 ++ [some a]) true false =
      some (L1, L2) := by
  intro steps
  induction steps with
  | zero => intro i h1 h2 h3; omega
  | succ s ih =>
    intro i h1 h2 h3
    have hE : ¬ i < L1.length + 1 := by omega
    have hI : i < L2.length + 1 := by omega
    by_cases hiq : i < L2.length
    · have hv : (L2 ++ [some a])[i]? = some L2[i] := by
        rw [List.getElem?_append_left hiq]
        exact List.getElem?_eq_getElem hiq
      have hvne : L2[i] ≠ some a := fun he => ha (he ▸ L2.getElem_mem hiq)
      rw [severLoop]
      simp only [if_neg hE, if_pos hI, hv]
      simp only [if_neg hvne, hvne, decide_eq_true_eq, Bool.or_false, decide_False]
      have := ih (i+1) (by omega) (by omega) (by omega)
      simpa using this
    · have hiq' : i = L2.length := by omega
      subst hiq'
      have hv : (L2 ++ [some a])[L2.length]? = some (some a) :=
        List.getElem?_concat_length L2 (some a)
      have herase : (L2 ++ [some a]).eraseIdx L2.length = L2 := by
        simpa using eraseIdx_append_len L2 [] (some a)
      rw [severLoop]
      simp only [if_neg hE, if_pos hI, hv]
      simp [herase]

theorem severLoop_phaseC (a b : Nat) (L1 L2 : List (Option Nat))
    (hb : some b ∉ L1) :
    ∀ steps i, L2.length < i → i ≤ L1.length → steps + i = L1.length + 1 →
    severLoop a b (L1.length + 1) (L2.length + 1) steps i (L1 ++ [some b]) L2 false true =
      some (L1, L2) := by
  intro steps
  induction steps with
  | zero => intro i h1 h2 h3; omega
  | succ s ih =>
    intro i h1 h2 h3
    have hI : ¬ i < L2.length + 1 := by omega
    have hE : i < L1.length + 1 := by omega
    by_cases hip : i < L1.length
    · have hv : (L1 ++ [some b])[i]? = some L1[i] := by
        rw [List.getElem?_append_left hip]
        exact List.getElem?_eq_getElem hip
      have hvne : L1[i] ≠ some b := fun he => hb (he ▸ L1.getElem_mem hip)
      rw [severLoop]
      simp only [if_neg hI, if_pos hE, hv]
      simp only [if_neg hvne, hvne, decide_eq_true_eq, Bool.false_or, decide_False]
      have := ih (i+1) (by omega) (by omega) (by omega)
      simpa using this
    · have hip' : i = L1.length := by omega
      subst hip'
      have hv : (L1 ++ [some b])[L1.length]? = some (some b) :=
        List.getElem?_concat_length L1 (some b)
      have herase : (L1 ++ [some b]).eraseIdx L1.length = L1 := by
        simpa using eraseIdx_append_len L1 [] (some b)
      rw [severLoop]
      simp only [if_neg hI, if_pos hE, hv]
      simp [herase]

theorem severLoop_phaseA (a b : Nat) (L1 L2 : List (Option Nat))
    (hb : some b ∉ L1) (ha : some a ∉ L2) :
    ∀ steps i, i ≤ L1.length → i ≤ L2.length →
    steps + i = max (L1.length + 1) (L2.length + 1) →
    severLoop a b (L1.length + 1) (L2.length + 1) steps i
        (L1 ++ [some b]) (L2 ++ [some a]) false false =
      some (L1, L2) := by
  intro steps
  induction steps with
  | zero => intro i h1 h2 h3; omega
  | succ s ih =>
    intro i h1 h2 h3
    have hE : i < L1.length + 1 := by omega
    have hI : i < L2.length + 1 := by omega
    by_cases hip : i < L1.length
    · have hvE : (L1 ++ [some b])[i]? = some L1[i] := by
        rw [List.getElem?_append_left hip]
        exact List.getElem?_eq_getElem hip
      have hvEne : L1[i] ≠ some b := fun he => hb (he ▸ L1.getElem_mem hip)
      by_cases hiq : i < L2.length
      · have hvI : (L2 ++ [some a])[i]? = some L2[i] := by
          rw [List.getElem?_append_left hiq]
          exact List.getElem?_eq_getElem hiq
        have hvIne : L2[i] ≠ some a := fun he => ha (he ▸ L2.getElem_mem hiq)
        rw [severLoop]
        simp only [if_pos hE, if_pos hI, hvE, hvI]
        simp only [if_neg hvEne, if_neg hvIne, hvEne, hvIne, decide_eq_true_eq,
          Bool.or_false, Bool.false_or, decide_False]
        have := ih (i+1) (by omega) (by omega) (by omega)
        simpa using this
      · -- i = L2.length < L1.length: the inbound hit comes first
        have hiq' : i = L2.length := by omega
        subst hiq'
        have hvI : (L2 ++ [some a])[L2.length]? = some (some a) :=
          List.getElem?_concat_length L2 (some a)
        have herase : (L2 ++ [some a]).eraseIdx L2.length = L2 := by
          simpa using eraseIdx_append_len L2 [] (some a)
        rw [severLoop]
        simp only [if_pos hE, if_pos hI, hvE, hvI]
        simp only [if_neg hvEne, hvEne, decide_eq_true_eq, Bool.or_false,
          Bool.false_or, decide_False, decide_True, herase]
        have := severLoop_phaseC a b L1 L2 hb s (L2.length + 1) (by omega) (by omega)
          (by omega)
        simpa using this
    · have hip' : i = L1.length := by omega
      subst hip'
      have hvE : (L1 ++ [some b])[L1.length]? = some (some b) :=
        List.getElem?_concat_length L1 (some b)
      have heraseE : (L1 ++ [some b]).eraseIdx L1.length = L1 := by
        simpa using eraseIdx_append_len L1 [] (some b)
      by_cases hiq : L1.length < L2.length
      · have hvI : (L2 ++ [some a])[L1.length]? = some L2[L1.length] := by
          rw [List.getElem?_append_left hiq]
          exact List.getElem?_eq_getElem hiq
        have hvIne : L2[L1.length] ≠ some a := fun he => ha (he ▸ L2.getElem_mem hiq)
        rw [severLoop]
        simp only [if_pos hE, if_pos hI, hvE, hvI]
        simp only [if_neg hvIne, hvIne, decide_eq_true_eq, Bool.or_false,
          Bool.false_or, decide_False, decide_True, heraseE]
        have := severLoop_phaseB a b L1 L2 ha s (L1.length + 1) (by omega) (by omega)
          (by omega)
        simpa using this
      · -- both lists end at the same position: both hits in one iteration
        have hiq' : L1.length = L2.length := by omega
        have hvI : (L2 ++ [some a])[L1.length]? = some (some a) := by
          rw [hiq']
          exact List.getElem?_concat_length L2 (some a)
        have heraseI : (L2 ++ [some a]).eraseIdx L1.length = L2 := by
          rw [hiq']
          simpa using eraseIdx_append_len L2 [] (some a)
        rw [severLoop]
        simp only [if_pos hE, if_pos hI, hvE, hvI]
        simp [heraseE, heraseI]

end GraphStruct

namespace GraphStruct

/-- C7 (counterexample): in the graph built from `{(1,2),(1,3)}` (node 1
outbound `[2,3]`), `establishCnt` appends the new copy of 2 at the *end*
(`[2,3,2]`), but the following `severCnt` removes the *first* copy, leaving
`[3,2]` — the adjacency lists are not restored to their prior state, so the
inverse law fails as stated. -/
theorem c7_establish_sever_not_inverse :
    severCntPtr (establishCnt (buildGraph [⟨1, 2, 0⟩, ⟨1, 3, 0⟩]).nodes 1 (some 2)).2
        1 (some 2) =
      some (2, [{ index := 1, cnt_out := [some 3, some 2], cnt_in := [] },
                { index := 2, cnt_out := [], cnt_in := [some 1] },
                { index := 3, cnt_out := [], cnt_in := [some 1] }]) ∧
    (buildGraph [⟨1, 2, 0⟩, ⟨1, 3, 0⟩]).nodes =
      [{ index := 1, cnt_out := [some 2, some 3], cnt_in := [] },
       { index := 2, cnt_out := [], cnt_in := [some 1] },
       { index := 3, cnt_out := [], cnt_in := [some 1] }] ∧
    severCntPtr (establishCnt (buildGraph [⟨1, 2, 0⟩, ⟨1, 3, 0⟩]).nodes 1 (some 2)).2
        1 (some 2) ≠
      some (2, (buildGraph [⟨1, 2, 0⟩, ⟨1, 3, 0⟩]).nodes) := by
  refine ⟨by decide, by decide, by decide⟩

/-- C7 (amended): for distinct nodes `a`, `b` of a graph with unique
indices, *provided `b` does not already occur in `a`'s outbound list and
`a` does not already occur in `b`'s inbound list*, `establishCnt` followed
immediately by `severCnt` restores the entire graph state — every node's
outbound and inbound list, element for element — and the sever returns
`a`'s original out-degree.  (Without the no-prior-parallel-edge proviso the
law fails, as the counterexample above shows.) -/
theorem c7_establish_sever_inverse (g : List c_GraphNode) (a b : Nat)
    (na nb : c_GraphNode) (hnd : (idxs g).Nodup) (hab : a ≠ b)
    (hfa : findNode g a = some na) (hfb : findNode g b = some nb)
    (hout : some b ∉ na.cnt_out) (hin : some a ∉ nb.cnt_in) :
    severCntPtr (establishCnt g a (some b)).2 a (some b) =
      some (na.cnt_out.length, g) := by
  have hna := findNode_some hfa
  have hnb := findNode_some hfb
  have hba : ¬ (b = a) := fun h => hab h.symm
  have hest : (establishCnt g a (some b)).2 = pushIn (pushOut g a (some b)) b (some a) := by
    simp [establishCnt, hba]
  have hf1 : ∀ nd : c_GraphNode,
      ((fun nd : c_GraphNode =>
        if nd.index = a then { nd with cnt_out := nd.cnt_out ++ [some b] } else nd) nd).index =
      nd.index := by
    intro nd; by_cases h : nd.index = a <;> simp [h]
  have hf2 : ∀ nd : c_GraphNode,
      ((fun nd : c_GraphNode =>
        if nd.index = b then { nd with cnt_in := nd.cnt_in ++ [some a] } else nd) nd).index =
      nd.index := by
    intro nd; by_cases h : nd.index = b <;> simp [h]
  have hmap : pushIn (pushOut g a (some b)) b (some a) =
      (g.map (fun nd : c_GraphNode =>
        if nd.index = a then { nd with cnt_out := nd.cnt_out ++ [some b] } else nd)).map
        (fun nd : c_GraphNode =>
          if nd.index = b then { nd with cnt_in := nd.cnt_in ++ [some a] } else nd) := rfl
  have hfind_a : findNode (pushIn (pushOut g a (some b)) b (some a)) a =
      some { na with cnt_out := na.cnt_out ++ [some b] } := by
    rw [hmap, findNode_map _ _ _ hf2, findNode_map _ _ _ hf1, hfa]
    simp [hna.1, hab, hba]
  have hfind_b : findNode (pushIn (pushOut g a (some b)) b (some a)) b =
      some { nb with cnt_in := nb.cnt_in ++ [some a] } := by
    rw [hmap, findNode_map _ _ _ hf2, findNode_map _ _ _ hf1, hfb]
    simp [hnb.1, hab, hba]
  have hloop := severLoop_phaseA a b na.cnt_out nb.cnt_in hout hin
    (max (na.cnt_out.length + 1) (nb.cnt_in.length + 1)) 0 (by omega) (by omega) (by omega)
  have hrestore :
      setIn (setOut (pushIn (pushOut g a (some b)) b (some a)) a na.cnt_out) b nb.cnt_in
        = g := by
    show ((((g.map _).map _).map _).map _) = g
    rw [List.map_map, List.map_map, List.map_map]
    conv_rhs => rw [← List.map_id g]
    apply List.map_congr_left
    intro nd hmem
    by_cases hia : nd.index = a
    · have hnd_eq : nd = na := by
        have h1 := findNode_of_mem_nodup hnd hmem
        rw [hia, hfa] at h1
        exact (Option.some_injective _ h1).symm
      subst hnd_eq
      obtain ⟨ndi, ndo, ndn⟩ := nd
      have hia2 : ndi = a := hia
      subst hia2
      simp [Function.comp, hab, hba]
    · by_cases hib : nd.index = b
      · have hnd_eq : nd = nb := by
          have h1 := findNode_of_mem_nodup hnd hmem
          rw [hib, hfb] at h1
          exact (Option.some_injective _ h1).symm
        subst hnd_eq
        obtain ⟨ndi, ndo, ndn⟩ := nd
        have hib2 : ndi = b := hib
        subst hib2
        simp [Function.comp, hba]
      · simp [Function.comp, hia, hib]
  rw [hest]
  simp only [severCntPtr, hfind_a, hfind_b, if_neg hba, List.length_append,
    List.length_singleton]
  rw [hloop]
  simp [hrestore]

/-- Witness for `c7_establish_sever_inverse` on the graph `{(1,2),(2,3)}`
with `a = 1`, `b = 3` (no prior 1→3 edge). -/
theorem c7_establish_sever_inverse_witness :
    severCntPtr (establishCnt (buildGraph [⟨1, 2, 0⟩, ⟨2, 3, 0⟩]).nodes 1 (some 3)).2
        1 (some 3) =
      some (1, (buildGraph [⟨1, 2, 0⟩, ⟨2, 3, 0⟩]).nodes) :=
  c7_establish_sever_inverse (buildGraph [⟨1, 2, 0⟩, ⟨2, 3, 0⟩]).nodes 1 3
    { index := 1, cnt_out := [some 2], cnt_in := [] }
    { index := 3, cnt_out := [], cnt_in := [some 2] }
    (by decide) (by decide) (by decide) (by decide) (by decide) (by decide)

end GraphStruct

namespace GraphStruct

theorem mem_idxs_of_findNode {g : List c_GraphNode} {a : Nat} {nd : c_GraphNode}
    (h : findNode g a = some nd) : a ∈ idxs g := by
  obtain ⟨hidx, hmem⟩ := findNode_some h
  exact hidx ▸ List.mem_map_of_mem (fun nd => nd.index) hmem

theorem findNode_of_mem_idxs {g : List c_GraphNode} {a : Nat}
    (h : a ∈ idxs g) : ∃ nd, findNode g a = some nd := by
  induction g with
  | nil => simp [idxs] at h
  | cons x rest ih =>
    by_cases hx : x.index = a
    · exact ⟨x, by simp [findNode, hx]⟩
    · have h' : a ∈ idxs rest := by
        simp only [idxs, List.map_cons, List.mem_cons] at h
        rcases h with h | h
        · exact absurd h.symm hx
        · simpa [idxs] using h
      obtain ⟨nd', hnd'⟩ := ih h'
      exact ⟨nd', by simpa [findNode, List.find?_cons, hx] using hnd'⟩

theorem idx_below_of_mem {g : List c_GraphNode} {a : Nat}
    (hb : IdxBelow g) (h : a ∈ idxs g) : a < 4294967293 := by
  obtain ⟨nd, hmem, hidx⟩ := List.mem_map.mp h
  exact hidx ▸ hb nd hmem

theorem filter_length_mono {α : Type} (l : List α) (p q : α → Bool)
    (h : ∀ x, q x = true → p x = true) :
    (l.filter q).length ≤ (l.filter p).length := by
  induction l with
  | nil => simp
  | cons x rest ih =>
    by_cases hq : q x = true
    · simp [List.filter_cons, hq, h x hq]
      omega
    · simp only [List.filter_cons, Bool.not_eq_true] at hq ⊢
      rw [hq]
      by_cases hp : p x = true
      · simp [hp]; omega
      · simp only [Bool.not_eq_true] at hp
        rw [hp]
        simpa using ih

theorem filter_length_lt {α : Type} (l : List α) (p q : α → Bool) (x0 : α)
    (hmem : x0 ∈ l) (hp : p x0 = true) (hq : q x0 = false)
    (h : ∀ x, q x = true → p x = true) :
    (l.filter q).length < (l.filter p).length := by
  induction l with
  | nil => cases hmem
  | cons x rest ih =>
    rcases List.mem_cons.mp hmem with he | hmem'
    · subst he
      have hmono := filter_length_mono rest p q h
      simp [List.filter_cons, hp, hq]
      omega
    · have hrec := ih hmem'
      by_cases hqx : q x = true
      · simp [List.filter_cons, hqx, h x hqx]
        omega
      · by_cases hpx : p x = true
        · simp [List.filter_cons, hqx, hpx]
          omega
        · simp [List.filter_cons, hqx, hpx]
          omega

theorem countUnvisited_mono (g : List c_GraphNode) (V : List Nat) (ext : List Nat) :
    countUnvisited g (V ++ ext) ≤ countUnvisited g V := by
  apply filter_length_mono
  intro x hx
  simp at hx ⊢
  exact hx.1

end GraphStruct

namespace GraphStruct

theorem countUnvisited_fresh (g : List c_GraphNode) (V : List Nat) (ni : Nat)
    (hmem : ni ∈ idxs g) (hnv : ¬ ni ∈ V) :
    countUnvisited g (V ++ [ni]) < countUnvisited g V := by
  apply filter_length_lt _ _ _ ni hmem
  · simp [hnv]
  · simp
  · intro x hx
    simp at hx ⊢
    exact hx.1

theorem idxMapAux_not_found (l : List Nat) (ID : Nat) (pos : Nat)
    (h : ¬ ID ∈ l) : idxMapAux l ID pos = 4294967295 := by
  induction l generalizing pos with
  | nil => rfl
  | cons x rest ih =>
    have hx : x ≠ ID := fun he => h (he ▸ List.mem_cons_self x rest)
    simp only [idxMapAux, if_neg hx]
    exact ih _ (fun hm => h (List.mem_cons_of_mem x hm))

theorem idxMapAux_found (l : List Nat) (ID : Nat) :
    ∀ pos, ID ∈ l →
    ∃ j, j < l.length ∧ idxMapAux l ID pos = pos + j ∧ l[j]? = some ID := by
  induction l with
  | nil => intro pos h; cases h
  | cons x rest ih =>
    intro pos h
    by_cases hx : x = ID
    · exact ⟨0, by simp, by simp [idxMapAux, hx], by simp [hx]⟩
    · have h' : ID ∈ rest := by
        rcases List.mem_cons.mp h with he | hm
        · exact absurd he.symm hx
        · exact hm
      obtain ⟨j, hj, heq, hget⟩ := ih (pos + 1) h'
      refine ⟨j + 1, by simpa using hj, ?_, by simpa using hget⟩
      simp only [idxMapAux, if_neg hx, heq]
      omega

theorem idxMap_not_found (g : List c_GraphNode) (s : Nat)
    (h : ¬ s ∈ idxs g) : idxMap g s = 4294967295 :=
  idxMapAux_not_found (idxs g) s 0 h

theorem idxMap_found (g : List c_GraphNode) (s : Nat) (h : s ∈ idxs g) :
    idxMap g s < g.length ∧
    ∃ nd, g[idxMap g s]? = some nd ∧ nd.index = s := by
  obtain ⟨j, hj, heq, hget⟩ := idxMapAux_found (idxs g) s 0 h
  have hlen : (idxs g).length = g.length := List.length_map g _
  have hj' : j < g.length := hlen ▸ hj
  have heq' : idxMap g s = j := by simpa [idxMap] using heq
  refine ⟨by omega, ?_⟩
  have hmap : (idxs g)[j]? = (g[j]?).map (fun nd => nd.index) := by
    simp [idxs, List.getElem?_map]
  rw [hmap] at hget
  match hg : g[j]? with
  | none => rw [hg] at hget; simp at hget
  | some nd =>
    rw [hg] at hget
    simp at hget
    exact ⟨nd, by rw [heq', hg], hget⟩

end GraphStruct

namespace GraphStruct

theorem wf_entries_ok {g : List c_GraphNode} {nd : c_GraphNode}
    (hwf : WF g) (hmem : nd ∈ g) : EntriesOk g nd.cnt_out :=
  (hwf nd hmem).1

theorem entries_ok_tail {g : List c_GraphNode} {e : Option Nat} {es : List (Option Nat)}
    (h : EntriesOk g (e :: es)) : EntriesOk g es :=
  fun e' he' => h e' (List.mem_cons_of_mem _ he')

end GraphStruct

namespace GraphStruct

theorem dfsCore_sim (g : List c_GraphNode) (hwf : WF g) (hbelow : IdxBelow g) :
    ∀ fuel (m : DfsMode) (h : c_SearchHeader), HInv h →
    (∀ es, m = DfsMode.expand es → EntriesOk g es) →
    (dfsCore g fuel m h = none ∧ specDfsCore g fuel m h.idx_visited = none) ∨
    (∃ o h', dfsCore g fuel m h = some (o, h') ∧
      specDfsCore g fuel m h.idx_visited = some (o, h'.idx_visited) ∧
      HInv h' ∧ h'.visit_queue = h.visit_queue) := by
  intro fuel
  induction fuel with
  | zero =>
    intro m h _ _
    left
    exact ⟨rfl, rfl⟩
  | succ f ih =>
    intro m h hInv hok
    match m with
    | .visit none =>
      right
      exact ⟨[], h, rfl, rfl, hInv, rfl⟩
    | .visit (some s) =>
      match hf : findNode g s with
      | none =>
        left
        exact ⟨by simp [dfsCore, hf], by simp [specDfsCore, hf]⟩
      | some nd =>
        have hsmem : s ∈ idxs g := mem_idxs_of_findNode hf
        have hs_lt : s < 4294967293 := idx_below_of_mem hbelow hsmem
        obtain ⟨hflag, hvis, hqueue, hInv'⟩ := testAdd_spec h s hInv hs_lt
        have hentries : EntriesOk g nd.cnt_out := wf_entries_ok hwf (findNode_some hf).2
        have hrec := ih (.expand nd.cnt_out) (testAdd h s).2 hInv'
          (fun es he => by cases he; exact hentries)
        by_cases hc : s ∈ h.idx_visited
        · have hcb : h.idx_visited.contains s = true := by simpa using hc
          rw [hvis, if_pos hcb] at hrec
          rcases hrec with ⟨hn1, hn2⟩ | ⟨o, h', hd1, hd2, hInv2, hq2⟩
          · left
            exact ⟨by simp [dfsCore, hf, hn1], by simp [specDfsCore, hf, hn2, hc, hcb]⟩
          · right
            refine ⟨o, h', ?_, by simp [specDfsCore, hf, hd2, hc, hcb], hInv2,
              hq2.trans hqueue⟩
            simp [dfsCore, hf, hd1, hflag, hcb, hc]
        · have hcb : h.idx_visited.contains s = false := by simpa using hc
          rw [hvis, if_neg (by rw [hcb]; exact Bool.false_ne_true)] at hrec
          rcases hrec with ⟨hn1, hn2⟩ | ⟨o, h', hd1, hd2, hInv2, hq2⟩
          · left
            exact ⟨by simp [dfsCore, hf, hn1], by simp [specDfsCore, hf, hn2, hc, hcb]⟩
          · right
            refine ⟨s :: o, h', ?_, by simp [specDfsCore, hf, hd2, hc, hcb], hInv2,
              hq2.trans hqueue⟩
            simp [dfsCore, hf, hd1, hflag, hcb, hc]
    | .expand [] =>
      right
      exact ⟨[], h, rfl, rfl, hInv, rfl⟩
    | .expand (none :: rest) =>
      left
      exact ⟨rfl, rfl⟩
    | .expand (some ni :: rest) =>
      have hni_mem : ni ∈ idxs g := by
        obtain ⟨x, hx, hxm⟩ := hok _ rfl (some ni) (List.mem_cons_self _ _)
        cases hx
        exact hxm
      have hni_lt : ni < 4294967293 := idx_below_of_mem hbelow hni_mem
      obtain ⟨hflag, hvis, hqueue, hInv'⟩ := testAdd_spec h ni hInv hni_lt
      have htail : EntriesOk g rest := entries_ok_tail (hok _ rfl)
      by_cases hc : ni ∈ h.idx_visited
      · -- already recorded: the loop just moves on
        have hcb : h.idx_visited.contains ni = true := by simpa using hc
        rw [if_pos hcb] at hvis
        have hrec := ih (.expand rest) (testAdd h ni).2 hInv'
          (fun es he => by cases he; exact htail)
        rw [hvis] at hrec
        rcases hrec with ⟨hn1, hn2⟩ | ⟨o, h', hd1, hd2, hInv2, hq2⟩
        · left
          refine ⟨?_, by simp [specDfsCore, hn2, hc, hcb]⟩
          simp only [dfsCore, hflag, hcb]
          simpa using hn1
        · right
          refine ⟨o, h', ?_, by simp [specDfsCore, hd2, hc, hcb], hInv2,
            hq2.trans hqueue⟩
          simp only [dfsCore, hflag, hcb]
          simpa using hd1
      · -- fresh: recurse into the neighbour, then the rest of the loop
        have hcb : h.idx_visited.contains ni = false := by simpa using hc
        rw [if_neg (by rw [hcb]; exact Bool.false_ne_true)] at hvis
        have hrec1 := ih (.visit (some ni)) (testAdd h ni).2 hInv'
          (by intro es he; cases he)
        rw [hvis] at hrec1
        rcases hrec1 with ⟨hn1, hn2⟩ | ⟨dq, h1, hd1, hd2, hInv1, hq1⟩
        · left
          refine ⟨?_, by simp [specDfsCore, hn2, hc, hcb]⟩
          simp only [dfsCore, hflag, hcb]
          simp [hn1]
        · have hrec2 := ih (.expand rest) h1 hInv1
            (fun es he => by cases he; exact htail)
          rcases hrec2 with ⟨hn1', hn2'⟩ | ⟨o2, h2, hd1', hd2', hInv2', hq2'⟩
          · left
            refine ⟨?_, by simp [specDfsCore, hd2, hn2', hc, hcb]⟩
            simp only [dfsCore, hflag, hcb]
            simp [hd1, hn1']
          · right
            refine ⟨ni :: (dq ++ o2), h2, ?_,
              by simp [specDfsCore, hd2, hd2', hc, hcb],
              hInv2', (hq2'.trans hq1).trans hqueue⟩
            simp only [dfsCore, hflag, hcb]
            simp [hd1, hd1']

end GraphStruct

namespace GraphStruct

theorem specDfs_visited (g : List c_GraphNode) :
    ∀ fuel (m : DfsMode) (V : List Nat) (r : List Nat × List Nat),
    specDfsCore g fuel m V = some r → r.2 = V ++ r.1 := by
  intro fuel
  induction fuel with
  | zero => intro m V r h; cases h
  | succ f ih =>
    intro m V r h
    match m with
    | .visit none =>
      cases h
      simp
    | .visit (some s) =>
      match hf : findNode g s with
      | none => rw [specDfsCore.eq_3, hf] at h; cases h
      | some nd =>
        rw [specDfsCore.eq_3, hf] at h
        by_cases hcb : V.contains s
        · simp only [hcb, if_true] at h
          match hrec : specDfsCore g f (.expand nd.cnt_out) V with
          | none => rw [hrec] at h; cases h
          | some (o1, V2) =>
            rw [hrec] at h
            cases h
            simpa using ih _ _ _ hrec
        · simp only [hcb, if_false, Bool.false_eq_true] at h
          match hrec : specDfsCore g f (.expand nd.cnt_out) (V ++ [s]) with
          | none => rw [hrec] at h; cases h
          | some (o1, V2) =>
            rw [hrec] at h
            cases h
            have := ih _ _ _ hrec
            simp at this ⊢
            simp [this]
    | .expand [] =>
      cases h
      simp
    | .expand (none :: rest) => cases h
    | .expand (some ni :: rest) =>
      rw [specDfsCore.eq_6] at h
      by_cases hcb : V.contains ni
      · simp only [hcb, if_true] at h
        exact ih _ _ _ h
      · simp only [hcb, if_false, Bool.false_eq_true] at h
        match hrec : specDfsCore g f (.visit (some ni)) (V ++ [ni]) with
        | none => rw [hrec] at h; cases h
        | some (dq, V1) =>
          rw [hrec] at h
          dsimp only at h
          match hrec2 : specDfsCore g f (.expand rest) V1 with
          | none => rw [hrec2] at h; cases h
          | some (o2, V2) =>
            rw [hrec2] at h
            cases h
            have h1 := ih _ _ _ hrec
            have h2 := ih _ _ _ hrec2
            simp at h1 h2 ⊢
            simp [h2, h1]

end GraphStruct

namespace GraphStruct

theorem specDfs_mono {g : List c_GraphNode} {fuel : Nat} {m : DfsMode}
    {V : List Nat} {r : List Nat × List Nat}
    (h : specDfsCore g fuel m V = some r) : ∀ x ∈ V, x ∈ r.2 := by
  intro x hx
  rw [specDfs_visited g fuel m V r h]
  exact List.mem_append_left _ hx

theorem expandedIn_mono {g : List c_GraphNode} {u : Nat} {W W' : List Nat}
    (hsub : ∀ x ∈ W, x ∈ W') (h : ExpandedIn g u W) : ExpandedIn g u W' :=
  fun y hy => hsub y (h y hy)

theorem specDfs_nodup (g : List c_GraphNode) :
    ∀ fuel (m : DfsMode) (V : List Nat) (r : List Nat × List Nat),
    specDfsCore g fuel m V = some r → V.Nodup → r.2.Nodup := by
  intro fuel
  induction fuel with
  | zero => intro m V r h _; cases h
  | succ f ih =>
    intro m V r h hV
    match m with
    | .visit none => cases h; exact hV
    | .visit (some s) =>
      match hf : findNode g s with
      | none => rw [specDfsCore.eq_3, hf] at h; cases h
      | some nd =>
        rw [specDfsCore.eq_3, hf] at h
        by_cases hcb : V.contains s
        · simp only [hcb, if_true] at h
          match hrec : specDfsCore g f (.expand nd.cnt_out) V with
          | none => rw [hrec] at h; cases h
          | some (o1, V2) => rw [hrec] at h; cases h; exact ih _ _ _ hrec hV
        · simp only [hcb, if_false, Bool.false_eq_true] at h
          have hsV : ¬ s ∈ V := by simpa using hcb
          match hrec : specDfsCore g f (.expand nd.cnt_out) (V ++ [s]) with
          | none => rw [hrec] at h; cases h
          | some (o1, V2) =>
            rw [hrec] at h; cases h
            exact ih (.expand nd.cnt_out) (V ++ [s]) (o1, V2) hrec
              (by simp [List.nodup_append, hV, hsV])
    | .expand [] => cases h; exact hV
    | .expand (none :: rest) => cases h
    | .expand (some ni :: rest) =>
      rw [specDfsCore.eq_6] at h
      by_cases hcb : V.contains ni
      · simp only [hcb, if_true] at h
        exact ih _ _ _ h hV
      · simp only [hcb, if_false, Bool.false_eq_true] at h
        have hnV : ¬ ni ∈ V := by simpa using hcb
        match hrec : specDfsCore g f (.visit (some ni)) (V ++ [ni]) with
        | none => rw [hrec] at h; cases h
        | some (dq, V1) =>
          rw [hrec] at h
          dsimp only at h
          match hrec2 : specDfsCore g f (.expand rest) V1 with
          | none => rw [hrec2] at h; cases h
          | some (o2, V2) =>
            rw [hrec2] at h; cases h
            have h1 := ih (.visit (some ni)) (V ++ [ni]) (dq, V1) hrec
              (by simp [List.nodup_append, hV, hnV])
            exact ih (.expand rest) V1 (o2, V2) hrec2 h1

theorem specDfs_sound (g : List c_GraphNode) :
    ∀ fuel (m : DfsMode) (V : List Nat) (r : List Nat × List Nat),
    specDfsCore g fuel m V = some r →
    (∀ s, m = DfsMode.visit (some s) → ∀ x ∈ r.1, Reach g s x) ∧
    (∀ es, m = DfsMode.expand es → ∀ x ∈ r.1, ∃ y, some y ∈ es ∧ Reach g y x) := by
  intro fuel
  induction fuel with
  | zero => intro m V r h; cases h
  | succ f ih =>
    intro m V r h
    match m with
    | .visit none =>
      cases h
      exact ⟨fun s hs => by simp at hs, fun es hes => by cases hes⟩
    | .visit (some s) =>
      refine ⟨?_, fun es hes => by cases hes⟩
      intro s' hs'
      cases hs'
      match hf : findNode g s with
      | none => rw [specDfsCore.eq_3, hf] at h; cases h
      | some nd =>
        rw [specDfsCore.eq_3, hf] at h
        have hstep : ∀ o1 V2, specDfsCore g f (.expand nd.cnt_out) (if V.contains s then V else V ++ [s]) = some (o1, V2) →
            ∀ x ∈ o1, Reach g s x := by
          intro o1 V2 hrec x hx
          obtain ⟨y, hy, hreach⟩ := (ih _ _ _ hrec).2 nd.cnt_out rfl x hx
          have hedge : edgeRel g s y :=
            ⟨nd, (findNode_some hf).2, (findNode_some hf).1, hy⟩
          exact Relation.ReflTransGen.head hedge hreach
        by_cases hcb : V.contains s
        · simp only [hcb, if_true] at h hstep
          match hrec : specDfsCore g f (.expand nd.cnt_out) V with
          | none => rw [hrec] at h; cases h
          | some (o1, V2) =>
            rw [hrec] at h; cases h
            intro x hx
            simp at hx
            exact hstep o1 V2 hrec x hx
        · simp only [hcb, if_false, Bool.false_eq_true] at h hstep
          match hrec : specDfsCore g f (.expand nd.cnt_out) (V ++ [s]) with
          | none => rw [hrec] at h; cases h
          | some (o1, V2) =>
            rw [hrec] at h; cases h
            intro x hx
            simp at hx
            rcases hx with hx | hx
            · exact hx ▸ Relation.ReflTransGen.refl
            · exact hstep o1 V2 hrec x hx
    | .expand [] =>
      cases h
      refine ⟨fun s hs => (by cases hs), fun es hes => ?_⟩
      intro x hx
      cases hx
    | .expand (none :: rest) => cases h
    | .expand (some ni :: rest) =>
      refine ⟨fun s hs => (by cases hs), ?_⟩
      intro es hes
      injection hes with hes2
      subst hes2
      rw [specDfsCore.eq_6] at h
      by_cases hcb : V.contains ni
      · simp only [hcb, if_true] at h
        intro x hx
        obtain ⟨y, hy, hreach⟩ := (ih _ _ _ h).2 rest rfl x hx
        exact ⟨y, List.mem_cons_of_mem _ hy, hreach⟩
      · simp only [hcb, if_false, Bool.false_eq_true] at h
        match hrec : specDfsCore g f (.visit (some ni)) (V ++ [ni]) with
        | none => rw [hrec] at h; cases h
        | some (dq, V1) =>
          rw [hrec] at h
          dsimp only at h
          match hrec2 : specDfsCore g f (.expand rest) V1 with
          | none => rw [hrec2] at h; cases h
          | some (o2, V2) =>
            rw [hrec2] at h; cases h
            intro x hx
            simp at hx
            rcases hx with hx | hx | hx
            · exact ⟨ni, List.mem_cons_self _ _, hx ▸ Relation.ReflTransGen.refl⟩
            · obtain hreach := (ih _ _ _ hrec).1 ni rfl x hx
              exact ⟨ni, List.mem_cons_self _ _, hreach⟩
            · obtain ⟨y, hy, hreach⟩ := (ih _ _ _ hrec2).2 rest rfl x hx
              exact ⟨y, List.mem_cons_of_mem _ hy, hreach⟩

end GraphStruct

namespace GraphStruct

theorem specDfs_closure (g : List c_GraphNode) (hnd : (idxs g).Nodup) :
    ∀ fuel (m : DfsMode) (V : List Nat) (r : List Nat × List Nat),
    specDfsCore g fuel m V = some r →
    (∀ u ∈ r.2, u ∈ V ∨ ExpandedIn g u r.2) ∧
    (∀ s, m = DfsMode.visit (some s) → s ∈ r.2 ∧ ExpandedIn g s r.2) ∧
    (∀ es, m = DfsMode.expand es → ∀ y, (some y) ∈ es → y ∈ r.2) := by
  intro fuel
  induction fuel with
  | zero => intro m V r h; cases h
  | succ f ih =>
    intro m V r h
    match m with
    | .visit none =>
      cases h
      exact ⟨fun u hu => Or.inl hu, fun s hs => (by simp at hs),
        fun es hes => (by cases hes)⟩
    | .visit (some s) =>
      rw [specDfsCore.eq_3] at h
      match hf : findNode g s with
      | none => rw [hf] at h; cases h
      | some nd =>
        rw [hf] at h
        by_cases hcb : V.contains s
        · simp only [hcb, if_true] at h
          match hrec : specDfsCore g f (.expand nd.cnt_out) V with
          | none => rw [hrec] at h; cases h
          | some (o1, V2) =>
            rw [hrec] at h; cases h
            obtain ⟨hA, _, hC⟩ := ih _ _ _ hrec
            have hExp : ExpandedIn g s V2 := by
              intro y hy
              obtain ⟨nd', hmem', hidx', hyo⟩ := hy
              have hnd' : nd' = nd := by
                have h1 := findNode_of_mem_nodup hnd hmem'
                rw [hidx', hf] at h1
                exact (Option.some_injective _ h1).symm
              exact hC nd.cnt_out rfl y (hnd' ▸ hyo)
            have hsV : s ∈ V := by simpa using hcb
            refine ⟨?_, ?_, fun es hes => (by cases hes)⟩
            · intro u hu
              exact hA u hu
            · intro s' hs'
              cases hs'
              exact ⟨specDfs_mono hrec s hsV, hExp⟩
        · simp only [hcb, if_false, Bool.false_eq_true] at h
          match hrec : specDfsCore g f (.expand nd.cnt_out) (V ++ [s]) with
          | none => rw [hrec] at h; cases h
          | some (o1, V2) =>
            rw [hrec] at h; cases h
            obtain ⟨hA, _, hC⟩ := ih _ _ _ hrec
            have hExp : ExpandedIn g s V2 := by
              intro y hy
              obtain ⟨nd', hmem', hidx', hyo⟩ := hy
              have hnd' : nd' = nd := by
                have h1 := findNode_of_mem_nodup hnd hmem'
                rw [hidx', hf] at h1
                exact (Option.some_injective _ h1).symm
              exact hC nd.cnt_out rfl y (hnd' ▸ hyo)
            refine ⟨?_, ?_, fun es hes => (by cases hes)⟩
            · intro u hu
              rcases hA u hu with h1 | h1
              · rcases List.mem_append.mp h1 with h2 | h2
                · exact Or.inl h2
                · have hus : u = s := by simpa using h2
                  exact Or.inr (hus ▸ hExp)
              · exact Or.inr h1
            · intro s' hs'
              cases hs'
              refine ⟨specDfs_mono hrec s ?_, hExp⟩
              simp
    | .expand [] =>
      cases h
      refine ⟨fun u hu => Or.inl hu, fun s hs => (by cases hs), ?_⟩
      intro es hes y hy
      injection hes with hes2
      subst hes2
      cases hy
    | .expand (none :: rest) => cases h
    | .expand (some ni :: rest) =>
      rw [specDfsCore.eq_6] at h
      by_cases hcb : V.contains ni
      · simp only [hcb, if_true] at h
        obtain ⟨hA, _, hC⟩ := ih _ _ _ h
        have hniV : ni ∈ V := by simpa using hcb
        refine ⟨hA, fun s hs => (by cases hs), ?_⟩
        intro es hes y hy
        injection hes with hes2
        subst hes2
        rcases List.mem_cons.mp hy with he | hm
        · have : y = ni := by simpa using he
          subst this
          exact specDfs_mono h y hniV
        · exact hC rest rfl y hm
      · simp only [hcb, if_false, Bool.false_eq_true] at h
        match hrec : specDfsCore g f (.visit (some ni)) (V ++ [ni]) with
        | none => rw [hrec] at h; cases h
        | some (dq, V1) =>
          rw [hrec] at h
          dsimp only at h
          match hrec2 : specDfsCore g f (.expand rest) V1 with
          | none => rw [hrec2] at h; cases h
          | some (o2, V2) =>
            rw [hrec2] at h; cases h
            obtain ⟨hA1, hB1, _⟩ := ih _ _ _ hrec
            obtain ⟨hA2, _, hC2⟩ := ih _ _ _ hrec2
            have hmono2 : ∀ x ∈ V1, x ∈ V2 := specDfs_mono hrec2
            obtain ⟨hniV1, hExpNi⟩ := hB1 ni rfl
            have hniV1' : ni ∈ V1 := hniV1
            have hExpNi' : ExpandedIn g ni V1 := hExpNi
            refine ⟨?_, fun s hs => (by cases hs), ?_⟩
            · intro u hu
              rcases hA2 u hu with h1 | h1
              · rcases hA1 u h1 with h2 | h2
                · rcases List.mem_append.mp h2 with h3 | h3
                  · exact Or.inl h3
                  · have hun : u = ni := by simpa using h3
                    subst hun
                    exact Or.inr (expandedIn_mono hmono2 hExpNi')
                · exact Or.inr (expandedIn_mono hmono2 h2)
              · exact Or.inr h1
            · intro es hes y hy
              injection hes with hes2
              subst hes2
              rcases List.mem_cons.mp hy with he | hm
              · have : y = ni := by simpa using he
                subst this
                exact hmono2 y hniV1'
              · exact hC2 rest rfl y hm

end GraphStruct

namespace GraphStruct

theorem specDfs_success (g : List c_GraphNode) (B : Nat)
    (hwf : WF g) (hB : OutDegLe g B) :
    ∀ fuel (m : DfsMode) (V : List Nat),
    ((∃ sp, m = DfsMode.visit sp ∧ (∀ s, sp = some s → s ∈ idxs g) ∧
        (countUnvisited g V + 1) * (B + 2) ≤ fuel) ∨
     (∃ es, m = DfsMode.expand es ∧ EntriesOk g es ∧
        es.length + 1 + countUnvisited g V * (B + 2) ≤ fuel)) →
    ∃ r, specDfsCore g fuel m V = some r := by
  intro fuel
  induction fuel with
  | zero =>
    intro m V hcond
    exfalso
    rcases hcond with ⟨sp, _, _, hle⟩ | ⟨es, _, _, hle⟩
    · have hpos := Nat.mul_pos (n := countUnvisited g V + 1) (m := B + 2)
        (by omega) (by omega)
      omega
    · omega
  | succ f ih =>
    intro m V hcond
    rcases hcond with ⟨sp, heq, hmem, hle⟩ | ⟨es, heq, hok, hle⟩
    · subst heq
      cases sp with
      | none => exact ⟨([], V), rfl⟩
      | some s =>
        have hs := hmem s rfl
        obtain ⟨nd, hf⟩ := findNode_of_mem_idxs hs
        have hBnd : nd.cnt_out.length ≤ B := hB nd (findNode_some hf).2
        have hokE : EntriesOk g nd.cnt_out := wf_entries_ok hwf (findNode_some hf).2
        have hu1 : countUnvisited g (if V.contains s then V else V ++ [s]) ≤
            countUnvisited g V := by
          by_cases hcb : V.contains s
          · simp only [hcb, if_true]
            exact Nat.le_refl _
          · have hcbf : V.contains s = false := by simpa using hcb
            simp only [hcbf, if_false, Bool.false_eq_true]
            exact countUnvisited_mono g V [s]
        have hrec := ih (.expand nd.cnt_out) (if V.contains s then V else V ++ [s])
          (Or.inr ⟨nd.cnt_out, rfl, hokE, by
            have hmul : countUnvisited g (if V.contains s then V else V ++ [s]) * (B + 2) ≤
                countUnvisited g V * (B + 2) := Nat.mul_le_mul_right _ hu1
            have hexp : (countUnvisited g V + 1) * (B + 2) =
                countUnvisited g V * (B + 2) + (B + 2) := by ring
            omega⟩)
        obtain ⟨r1, hr1⟩ := hrec
        obtain ⟨o1, V2⟩ := r1
        refine ⟨((if V.contains s then [] else [s]) ++ o1, V2), ?_⟩
        rw [specDfsCore.eq_3, hf]
        dsimp only
        by_cases hcb : V.contains s
        · simp only [hcb, if_true] at hr1 ⊢
          rw [hr1]
        · have hcbf : V.contains s = false := by simpa using hcb
          simp only [hcbf, if_false, Bool.false_eq_true] at hr1 ⊢
          rw [hr1]
    · subst heq
      cases es with
      | nil => exact ⟨([], V), rfl⟩
      | cons e rest =>
        cases e with
        | none => exact absurd (hok none (List.mem_cons_self _ _)) (by simp)
        | some ni =>
          simp only [List.length_cons] at hle
          have hni : ni ∈ idxs g := by
            obtain ⟨x, hx, hxm⟩ := hok (some ni) (List.mem_cons_self _ _)
            cases hx
            exact hxm
          by_cases hcb : V.contains ni
          · have hrec := ih (.expand rest) V
              (Or.inr ⟨rest, rfl, entries_ok_tail hok, by omega⟩)
            obtain ⟨r1, hr1⟩ := hrec
            refine ⟨r1, ?_⟩
            rw [specDfsCore.eq_6]
            simp only [hcb, if_true]
            exact hr1
          · have hniV : ¬ ni ∈ V := by simpa using hcb
            have hfresh := countUnvisited_fresh g V ni hni hniV
            have hrec1 := ih (.visit (some ni)) (V ++ [ni])
              (Or.inl ⟨some ni, rfl, by intro s hs; cases hs; exact hni, by
                have hmul : (countUnvisited g (V ++ [ni]) + 1) * (B + 2) ≤
                    countUnvisited g V * (B + 2) :=
                  Nat.mul_le_mul_right _ (by omega)
                omega⟩)
            obtain ⟨r1, hr1⟩ := hrec1
            obtain ⟨dq, V1⟩ := r1
            have hV1eq : V1 = (V ++ [ni]) ++ dq := by
              simpa using specDfs_visited g f _ _ _ hr1
            have hu2 : countUnvisited g V1 ≤ countUnvisited g (V ++ [ni]) := by
              rw [hV1eq]
              exact countUnvisited_mono g (V ++ [ni]) dq
            have hrec2 := ih (.expand rest) V1
              (Or.inr ⟨rest, rfl, entries_ok_tail hok, by
                have hmul : countUnvisited g V1 * (B + 2) ≤
                    countUnvisited g V * (B + 2) :=
                  Nat.mul_le_mul_right _ (by omega)
                omega⟩)
            obtain ⟨r2, hr2⟩ := hrec2
            obtain ⟨o2, V2⟩ := r2
            refine ⟨(ni :: (dq ++ o2), V2), ?_⟩
            have hcbf : V.contains ni = false := by simpa using hcb
            rw [specDfsCore.eq_6]
            simp only [hcbf, if_false, Bool.false_eq_true]
            rw [hr1]
            dsimp only
            rw [hr2]

end GraphStruct

namespace GraphStruct

theorem countUnvisited_nil (g : List c_GraphNode) :
    countUnvisited g [] = g.length := by
  simp [countUnvisited, idxs]

/-- C8: on a well-formed graph (unique indices, all adjacency entries
resolving, identities below the sentinels, out-degrees bounded by `B`) with
enough fuel, `runDepthFirst` from a resolvable start returns a sequence
that (i) equals the reference pre-order immediate-descent depth-first
traversal `specRunDepthFirst` (start first; each newly recorded neighbour
followed contiguously by its not-yet-visited descendants before any later
sibling), (ii) has no duplicates, and (iii) contains exactly the nodes
reachable from the start. -/
theorem c8_depth_first_preorder (G : c_Graph) (fuel s B : Nat)
    (hwf : WF G.nodes) (hnd : (idxs G.nodes).Nodup) (hbelow : IdxBelow G.nodes)
    (hB : OutDegLe G.nodes B) (hlen : G.nodes.length < 4294967293)
    (hs : s ∈ idxs G.nodes)
    (hfuel : (G.nodes.length + 1) * (B + 2) ≤ fuel) :
    ∃ out, runDepthFirst G fuel s = some out ∧
      specRunDepthFirst G fuel s = some out ∧
      out.Nodup ∧
      (∀ x, x ∈ out ↔ Reach G.nodes s x) := by
  obtain ⟨hpos, nd0, hget, hidx0⟩ := idxMap_found G.nodes s hs
  have hcond : ¬ (idxMap G.nodes s = 4294967293 ∨ idxMap G.nodes s = 4294967295) := by
    omega
  -- fuel suffices for the spec-side traversal
  have hsucc := specDfs_success G.nodes B hwf hB fuel (.visit (some s)) []
    (Or.inl ⟨some s, rfl, fun s' hs' => by cases hs'; exact hs, by
      rw [countUnvisited_nil]; exact hfuel⟩)
  obtain ⟨r, hr⟩ := hsucc
  -- simulation transfers the result to the real traversal
  have hsim := dfsCore_sim G.nodes hwf hbelow fuel (.visit (some s)) initHeader
    hInv_initHeader (fun es he => by cases he)
  have hvis0 : initHeader.idx_visited = [] := rfl
  rcases hsim with ⟨hn1, hn2⟩ | ⟨o, h', hd1, hd2, _, _⟩
  · rw [hvis0, hr] at hn2
    cases hn2
  · rw [hvis0] at hd2
    rw [hd2] at hr
    obtain ⟨o', V'⟩ := r
    injection hr with hr2
    have hV' : h'.idx_visited = [] ++ o := specDfs_visited G.nodes fuel _ [] _ hd2
    simp only [List.nil_append] at hV'
    refine ⟨o, ?_, ?_, ?_, ?_⟩
    · simp only [runDepthFirst, if_neg hcond, hget, hidx0, hd1]
    · simp only [specRunDepthFirst, if_neg hcond, hget, hidx0, hd2]
    · have := specDfs_nodup G.nodes fuel _ [] _ hd2 (by simp)
      rwa [hV'] at this
    · intro x
      constructor
      · intro hx
        exact (specDfs_sound G.nodes fuel _ [] _ hd2).1 s rfl x hx
      · intro hreach
        obtain ⟨hA, hBconj, _⟩ := specDfs_closure G.nodes hnd fuel _ [] _ hd2
        obtain ⟨hsIn, _⟩ := hBconj s rfl
        have hsIn2 : s ∈ h'.idx_visited := hsIn
        have hsIn' : s ∈ o := by rw [← hV']; exact hsIn2
        have hclosed : ∀ u ∈ o, ∀ y, edgeRel G.nodes u y → y ∈ o := by
          intro u hu y hy
          have hu2 : u ∈ h'.idx_visited := by rw [hV']; exact hu
          rcases hA u hu2 with h1 | h1
          · cases h1
          · have h3 : y ∈ h'.idx_visited := h1 y hy
            rwa [hV'] at h3
        induction hreach with
        | refl => exact hsIn'
        | tail hab hbc ihx =>
          exact hclosed _ ihx _ hbc

end GraphStruct

namespace GraphStruct

/-- Witness for `c8_depth_first_preorder` on the cycle `{(1,2),(2,3),(3,1)}`
with out-degree bound 1 and fuel 12. -/
theorem c8_depth_first_preorder_witness :
    ∃ out, runDepthFirst (buildGraph [⟨1, 2, 0⟩, ⟨2, 3, 0⟩, ⟨3, 1, 0⟩]) 12 1 = some out ∧
      specRunDepthFirst (buildGraph [⟨1, 2, 0⟩, ⟨2, 3, 0⟩, ⟨3, 1, 0⟩]) 12 1 = some out ∧
      out.Nodup ∧
      (∀ x, x ∈ out ↔ Reach (buildGraph [⟨1, 2, 0⟩, ⟨2, 3, 0⟩, ⟨3, 1, 0⟩]).nodes 1 x) :=
  c8_depth_first_preorder (buildGraph [⟨1, 2, 0⟩, ⟨2, 3, 0⟩, ⟨3, 1, 0⟩]) 12 1 1
    (by
      have hG : (buildGraph [⟨1, 2, 0⟩, ⟨2, 3, 0⟩, ⟨3, 1, 0⟩]).nodes =
          [{ index := 1, cnt_out := [some 2], cnt_in := [some 3] },
           { index := 2, cnt_out := [some 3], cnt_in := [some 1] },
           { index := 3, cnt_out := [some 1], cnt_in := [some 2] }] := by decide
      rw [hG]
      simp [WF, idxs])
    (by decide) (by unfold IdxBelow; decide) (by unfold OutDegLe; decide)
    (by decide) (by decide) (by decide)

end GraphStruct

namespace GraphStruct

theorem idxs_map (g : List c_GraphNode) (f : c_GraphNode → c_GraphNode)
    (hf : ∀ nd, (f nd).index = nd.index) : idxs (g.map f) = idxs g := by
  simp only [idxs, List.map_map]
  congr 1
  funext nd
  simp [Function.comp, hf]

theorem severLoop_subset (a b extnum intnum : Nat) :
    ∀ steps i aOut bIn gotExt gotInt o1 o2,
    severLoop a b extnum intnum steps i aOut bIn gotExt gotInt = some (o1, o2) →
    (∀ e ∈ o1, e ∈ aOut) ∧ (∀ e ∈ o2, e ∈ bIn) := by
  intro steps
  induction steps with
  | zero =>
    intro i aOut bIn gotExt gotInt o1 o2 h
    cases h
    exact ⟨fun e he => he, fun e he => he⟩
  | succ st ih =>
    intro i aOut bIn gotExt gotInt o1 o2 h
    rw [severLoop] at h
    match hE : (if i < extnum then aOut[i]? else some none : Option (Option Nat)) with
    | none => rw [hE] at h; cases h
    | some tmpExt =>
      rw [hE] at h
      dsimp only at h
      match hI : (if i < intnum then bIn[i]? else some none : Option (Option Nat)) with
      | none => rw [hI] at h; cases h
      | some tmpInt =>
        rw [hI] at h
        dsimp only at h
        have hsubE : ∀ e ∈ (if tmpExt = some b then aOut.eraseIdx i else aOut), e ∈ aOut := by
          intro e he
          by_cases hc : tmpExt = some b
          · rw [if_pos hc] at he
            exact (List.eraseIdx_sublist aOut i).mem he
          · rwa [if_neg hc] at he
        have hsubI : ∀ e ∈ (if tmpInt = some a then bIn.eraseIdx i else bIn), e ∈ bIn := by
          intro e he
          by_cases hc : tmpInt = some a
          · rw [if_pos hc] at he
            exact (List.eraseIdx_sublist bIn i).mem he
          · rwa [if_neg hc] at he
        by_cases hgot : ((gotExt || decide (tmpExt = some b)) &&
            (gotInt || decide (tmpInt = some a))) = true
        · rw [if_pos hgot] at h
          cases h
          exact ⟨hsubE, hsubI⟩
        · rw [if_neg hgot] at h
          obtain ⟨h1, h2⟩ := ih _ _ _ _ _ _ _ h
          exact ⟨fun e he => hsubE e (h1 e he), fun e he => hsubI e (h2 e he)⟩

theorem wf_setOutIn {g : List c_GraphNode} {a b : Nat}
    {aOut bIn : List (Option Nat)}
    (hwf : WF g)
    (hout : ∀ e ∈ aOut, ∃ i, e = some i ∧ i ∈ idxs g)
    (hin : ∀ e ∈ bIn, ∃ i, e = some i ∧ i ∈ idxs g) :
    WF (setIn (setOut g a aOut) b bIn) := by
  intro nd' hmem'
  have hidx : idxs (setIn (setOut g a aOut) b bIn) = idxs g := by
    rw [setIn, setOut, idxs_map, idxs_map]
    · intro nd; by_cases h : nd.index = a <;> simp [h]
    · intro nd; by_cases h : nd.index = b <;> simp [h]
  rw [hidx]
  simp only [setIn, setOut, List.mem_map] at hmem'
  obtain ⟨nd1, hmem1, hnd1⟩ := hmem'
  obtain ⟨nd0, hmem0, hnd0⟩ := hmem1
  obtain ⟨h0out, h0in⟩ := hwf nd0 hmem0
  subst hnd1
  subst hnd0
  constructor
  · intro e he
    by_cases hb : (if nd0.index = a then { nd0 with cnt_out := aOut } else nd0).index = b
    · rw [if_pos hb] at he
      by_cases ha : nd0.index = a
      · rw [if_pos ha] at he
        exact hout e he
      · rw [if_neg ha] at he
        exact h0out e he
    · rw [if_neg hb] at he
      by_cases ha : nd0.index = a
      · rw [if_pos ha] at he
        exact hout e he
      · rw [if_neg ha] at he
        exact h0out e he
  · intro e he
    by_cases hb : (if nd0.index = a then { nd0 with cnt_out := aOut } else nd0).index = b
    · rw [if_pos hb] at he
      exact hin e he
    · rw [if_neg hb] at he
      by_cases ha : nd0.index = a
      · rw [if_pos ha] at he
        exact h0in e he
      · rw [if_neg ha] at he
        exact h0in e he

theorem wf_severCntPtr {g : List c_GraphNode} {a : Nat} {bp : Option Nat}
    {n : Nat} {g' : List c_GraphNode}
    (hwf : WF g) (h : severCntPtr g a bp = some (n, g')) : WF g' := by
  unfold severCntPtr at h
  match hfa : findNode g a with
  | none => rw [hfa] at h; cases h; exact hwf
  | some na =>
    rw [hfa] at h
    dsimp only at h
    match bp with
    | none => cases h; exact hwf
    | some b =>
      dsimp only at h
      by_cases hb : b = a
      · rw [if_pos hb] at h; cases h; exact hwf
      · rw [if_neg hb] at h
        match hfb : findNode g b with
        | none => rw [hfb] at h; cases h
        | some nb =>
          rw [hfb] at h
          dsimp only at h
          match hloop : severLoop a b na.cnt_out.length nb.cnt_in.length
              (max na.cnt_out.length nb.cnt_in.length) 0 na.cnt_out nb.cnt_in false false with
          | none => rw [hloop] at h; cases h
          | some (aOut, bIn) =>
            rw [hloop] at h
            cases h
            obtain ⟨hs1, hs2⟩ := severLoop_subset _ _ _ _ _ _ _ _ _ _ _ _ hloop
            exact wf_setOutIn hwf
              (fun e he => (hwf na (findNode_some hfa).2).1 e (hs1 e he))
              (fun e he => (hwf nb (findNode_some hfb).2).2 e (hs2 e he))

theorem wf_severCntIdx {g : List c_GraphNode} {a idx : Nat}
    {n : Nat} {g' : List c_GraphNode}
    (hwf : WF g) (h : severCntIdx g a idx = some (n, g')) : WF g' := by
  unfold severCntIdx at h
  match hfa : findNode g a with
  | none => rw [hfa] at h; cases h; exact hwf
  | some na =>
    rw [hfa] at h
    dsimp only at h
    by_cases hge : idx ≥ na.cnt_out.length
    · rw [if_pos hge] at h; cases h; exact hwf
    · rw [if_neg hge] at h
      match hent : na.cnt_out[idx]? with
      | none => rw [hent] at h; cases h
      | some ent =>
        rw [hent] at h
        dsimp only at h
        match ent with
        | none => cases h
        | some b =>
          dsimp only at h
          match hfb : findNode g b with
          | none => rw [hfb] at h; cases h
          | some nb =>
            rw [hfb] at h
            dsimp only at h
            cases h
            exact wf_setOutIn hwf
              (fun e he => (hwf na (findNode_some hfa).2).1 e
                ((List.eraseIdx_sublist na.cnt_out idx).mem he))
              (fun e he => (hwf nb (findNode_some hfb).2).2 e
                ((List.erase_sublist (some a) nb.cnt_in).mem he))

end GraphStruct

namespace GraphStruct

theorem wf_establishCnt {g : List c_GraphNode} {a : Nat} {bp : Option Nat}
    (hwf : WF g) (ha : a ∈ idxs g) (hb : ∀ b, bp = some b → b ∈ idxs g) :
    WF (establishCnt g a bp).2 := by
  match bp with
  | none => exact hwf
  | some b =>
    by_cases hba : b = a
    · simp only [establishCnt, if_pos hba]
      exact hwf
    · simp only [establishCnt, if_neg hba]
      have hbmem : b ∈ idxs g := hb b rfl
      intro nd' hmem'
      have hidx : idxs (pushIn (pushOut g a (some b)) b (some a)) = idxs g := by
        rw [pushIn, pushOut, idxs_map, idxs_map]
        · intro nd; by_cases h : nd.index = a <;> simp [h]
        · intro nd; by_cases h : nd.index = b <;> simp [h]
      rw [hidx]
      simp only [pushIn, pushOut, List.mem_map] at hmem'
      obtain ⟨nd1, hmem1, hnd1⟩ := hmem'
      obtain ⟨nd0, hmem0, hnd0⟩ := hmem1
      obtain ⟨h0out, h0in⟩ := hwf nd0 hmem0
      subst hnd1
      subst hnd0
      constructor
      · intro e he
        by_cases hcb : (if nd0.index = a then
            { nd0 with cnt_out := nd0.cnt_out ++ [some b] } else nd0).index = b
        · rw [if_pos hcb] at he
          by_cases hca : nd0.index = a
          · rw [if_pos hca] at he
            dsimp only at he
            rcases List.mem_append.mp he with h1 | h1
            · exact h0out e h1
            · exact ⟨b, by simpa using h1, hbmem⟩
          · rw [if_neg hca] at he
            exact h0out e he
        · rw [if_neg hcb] at he
          by_cases hca : nd0.index = a
          · rw [if_pos hca] at he
            dsimp only at he
            rcases List.mem_append.mp he with h1 | h1
            · exact h0out e h1
            · exact ⟨b, by simpa using h1, hbmem⟩
          · rw [if_neg hca] at he
            exact h0out e he
      · intro e he
        by_cases hcb : (if nd0.index = a then
            { nd0 with cnt_out := nd0.cnt_out ++ [some b] } else nd0).index = b
        · rw [if_pos hcb] at he
          dsimp only at he
          by_cases hca : nd0.index = a
          · rw [if_pos hca] at he
            dsimp only at he
            rcases List.mem_append.mp he with h1 | h1
            · exact h0in e h1
            · exact ⟨a, by simpa using h1, ha⟩
          · rw [if_neg hca] at he
            rcases List.mem_append.mp he with h1 | h1
            · exact h0in e h1
            · exact ⟨a, by simpa using h1, ha⟩
        · rw [if_neg hcb] at he
          by_cases hca : nd0.index = a
          · rw [if_pos hca] at he
            exact h0in e he
          · rw [if_neg hca] at he
            exact h0in e he

theorem wf_append_node {g : List c_GraphNode} (hwf : WF g) (k : Nat) :
    WF (g ++ [{ index := k }]) := by
  intro nd hmem
  rcases List.mem_append.mp hmem with h | h
  · obtain ⟨h1, h2⟩ := hwf nd h
    constructor
    · intro e he
      obtain ⟨i, hi, him⟩ := h1 e he
      exact ⟨i, hi, by simp only [idxs, List.map_append, List.mem_append]; exact Or.inl him⟩
    · intro e he
      obtain ⟨i, hi, him⟩ := h2 e he
      exact ⟨i, hi, by simp only [idxs, List.map_append, List.mem_append]; exact Or.inl him⟩
  · have : nd = { index := k } := by simpa using h
    subst this
    exact ⟨fun e he => (by cases he), fun e he => (by cases he)⟩

theorem idxs_mono_append (ns : List c_GraphNode) (x : c_GraphNode) {i : Nat}
    (h : i ∈ idxs ns) : i ∈ idxs (ns ++ [x]) := by
  simp only [idxs, List.map_append, List.mem_append]
  exact Or.inl h

theorem wf_buildGraphAux :
    ∀ (cl : List c_GraphCnt) (nodes : List c_GraphNode) (cnts : List c_GraphCnt),
    WF nodes → WF (buildGraphAux cl nodes cnts).nodes := by
  intro cl
  induction cl with
  | nil => intro nodes cnts hwf; exact hwf
  | cons TMP rest ih =>
    intro nodes cnts hwf
    rw [buildGraphAux]
    have hwf1 : WF (if idxMap nodes TMP.fromId = 4294967293 ∨
        idxMap nodes TMP.fromId = 4294967295 then
        nodes ++ [{ index := TMP.fromId }] else nodes) := by
      split
      · exact wf_append_node hwf TMP.fromId
      · exact hwf
    have hmem1 : TMP.fromId ∈ idxs (if idxMap nodes TMP.fromId = 4294967293 ∨
        idxMap nodes TMP.fromId = 4294967295 then
        nodes ++ [{ index := TMP.fromId }] else nodes) := by
      split
      · simp [idxs]
      · rename_i hc
        by_cases hmem : TMP.fromId ∈ idxs nodes
        · exact hmem
        · exact absurd (idxMap_not_found nodes TMP.fromId hmem) (by tauto)
    generalize hgen1 : (if idxMap nodes TMP.fromId = 4294967293 ∨
        idxMap nodes TMP.fromId = 4294967295 then
        nodes ++ [{ index := TMP.fromId }] else nodes) = nodes1 at hwf1 hmem1 ⊢
    have hwf2 : WF (if idxMap nodes1 TMP.toId = 4294967293 ∨
        idxMap nodes1 TMP.toId = 4294967295 then
        nodes1 ++ [{ index := TMP.toId }] else nodes1) := by
      split
      · exact wf_append_node hwf1 TMP.toId
      · exact hwf1
    have hmem1' : TMP.fromId ∈ idxs (if idxMap nodes1 TMP.toId = 4294967293 ∨
        idxMap nodes1 TMP.toId = 4294967295 then
        nodes1 ++ [{ index := TMP.toId }] else nodes1) := by
      split
      · exact idxs_mono_append nodes1 _ hmem1
      · exact hmem1
    have hmem2 : TMP.toId ∈ idxs (if idxMap nodes1 TMP.toId = 4294967293 ∨
        idxMap nodes1 TMP.toId = 4294967295 then
        nodes1 ++ [{ index := TMP.toId }] else nodes1) := by
      split
      · simp [idxs]
      · rename_i hc
        by_cases hmem : TMP.toId ∈ idxs nodes1
        · exact hmem
        · exact absurd (idxMap_not_found nodes1 TMP.toId hmem) (by tauto)
    generalize hgen2 : (if idxMap nodes1 TMP.toId = 4294967293 ∨
        idxMap nodes1 TMP.toId = 4294967295 then
        nodes1 ++ [{ index := TMP.toId }] else nodes1) = nodes2
        at hwf2 hmem1' hmem2 ⊢
    have hwf3 : WF (establishCnt nodes2 TMP.fromId (some TMP.toId)).2 :=
      wf_establishCnt hwf2 hmem1' (fun b hb => by cases hb; exact hmem2)
    generalize hgen3 : (establishCnt nodes2 TMP.fromId (some TMP.toId)).2 = nodes3
        at hwf3 ⊢
    split <;> (try split) <;> (try split) <;>
      first
        | exact hwf3
        | exact ih nodes3 _ hwf3

end GraphStruct

namespace GraphStruct

theorem wf_severFold (a : Nat) :
    ∀ (ds : List Nat) (g : List c_GraphNode) (g' : List c_GraphNode),
    WF g → severFold a ds g = some g' → WF g' := by
  intro ds
  induction ds with
  | nil => intro g g' hwf h; cases h; exact hwf
  | cons d rest ih =>
    intro g g' hwf h
    rw [severFold] at h
    match hsev : severCntPtr g a (some d) with
    | none => rw [hsev] at h; cases h
    | some (n, g1) =>
      rw [hsev] at h
      exact ih g1 g' (wf_severCntPtr hwf hsev) h

theorem wf_optLoop (pf : Option (c_GraphNode → c_GraphNode → Nat)) :
    ∀ (remaining pos : Nat) (nodes : List c_GraphNode) (cacc : List c_GraphCnt)
      (r : List c_GraphNode × List c_GraphCnt),
    WF nodes → optLoop pf remaining pos nodes cacc = some r → WF r.1 := by
  intro remaining
  induction remaining with
  | zero =>
    intro pos nodes cacc r hwf h
    cases h
    exact hwf
  | succ rem ih =>
    intro pos nodes cacc r hwf h
    rw [optLoop] at h
    match hget : nodes[pos]? with
    | none => rw [hget] at h; cases h
    | some tmp =>
      rw [hget] at h
      dsimp only at h
      match hscan : optScan nodes tmp pf tmp.cnt_out [] 4294967295 0 cacc [] with
      | none => rw [hscan] at h; cases h
      | some (cacc', to_sever) =>
        rw [hscan] at h
        dsimp only at h
        match hsf : severFold tmp.index to_sever nodes with
        | none => rw [hsf] at h; cases h
        | some nodes' =>
          rw [hsf] at h
          exact ih (pos+1) nodes' cacc' r (wf_severFold _ _ _ _ hwf hsf) h

theorem wf_optimizeCnts {G : c_Graph} {pf : Option (c_GraphNode → c_GraphNode → Nat)}
    {n : Nat} {G' : c_Graph}
    (hwf : WF G.nodes) (h : optimizeCnts G pf = some (n, G')) : WF G'.nodes := by
  unfold optimizeCnts at h
  match hloop : optLoop pf G.nodes.length 0 G.nodes [] with
  | none => rw [hloop] at h; cases h
  | some (nodes', cacc) =>
    rw [hloop] at h
    cases h
    exact wf_optLoop pf _ _ _ _ _ hwf hloop

theorem runDepthFirst_defined (G : c_Graph) (fuel s B : Nat)
    (hwf : WF G.nodes) (hbelow : IdxBelow G.nodes)
    (hB : OutDegLe G.nodes B) (hlen : G.nodes.length < 4294967293)
    (hs : s ∈ idxs G.nodes)
    (hfuel : (G.nodes.length + 1) * (B + 2) ≤ fuel) :
    ∃ out, runDepthFirst G fuel s = some out := by
  obtain ⟨hpos, nd0, hget, hidx0⟩ := idxMap_found G.nodes s hs
  have hcond : ¬ (idxMap G.nodes s = 4294967293 ∨ idxMap G.nodes s = 4294967295) := by
    omega
  have hsucc := specDfs_success G.nodes B hwf hB fuel (.visit (some s)) []
    (Or.inl ⟨some s, rfl, fun s' hs' => by cases hs'; exact hs, by
      rw [countUnvisited_nil]; exact hfuel⟩)
  obtain ⟨r, hr⟩ := hsucc
  have hsim := dfsCore_sim G.nodes hwf hbelow fuel (.visit (some s)) initHeader
    hInv_initHeader (fun es he => by cases he)
  have hvis0 : initHeader.idx_visited = [] := rfl
  rcases hsim with ⟨hn1, hn2⟩ | ⟨o, h', hd1, _, _, _⟩
  · rw [hvis0, hr] at hn2
    cases hn2
  · refine ⟨o, ?_⟩
    simp only [runDepthFirst, if_neg hcond, hget, hidx0, hd1]

end GraphStruct

namespace GraphStruct

/-- **C10.** Every element of every node's outbound and inbound adjacency
list is a present, valid node reference (`WF`): the prefilled constructor
(`buildGraph`), `establishCnt` (called on a node of the graph with a
pointer argument resolving in the graph — the only way the public
interface produces the pointer), both `severCnt` overloads and
`optimizeCnts` all preserve or establish this invariant whenever they
return at all; and under it (plus the identity-space and finiteness side
conditions) the depth-first traversal, which dereferences neighbour
pointers without an absence check, is well-defined: `runDepthFirst`
returns a result given enough fuel. -/
theorem c10_adjacency_entries_valid :
    (∀ cl : List c_GraphCnt, WF (buildGraph cl).nodes) ∧
    (∀ (g : List c_GraphNode) (a : Nat) (bp : Option Nat),
      WF g → a ∈ idxs g → (∀ b, bp = some b → b ∈ idxs g) →
      WF (establishCnt g a bp).2) ∧
    (∀ (g : List c_GraphNode) (a : Nat) (bp : Option Nat) (n : Nat)
       (g' : List c_GraphNode),
      WF g → severCntPtr g a bp = some (n, g') → WF g') ∧
    (∀ (g : List c_GraphNode) (a idx n : Nat) (g' : List c_GraphNode),
      WF g → severCntIdx g a idx = some (n, g') → WF g') ∧
    (∀ (G : c_Graph) (pf : Option (c_GraphNode → c_GraphNode → Nat))
       (n : Nat) (G' : c_Graph),
      WF G.nodes → optimizeCnts G pf = some (n, G') → WF G'.nodes) ∧
    (∀ (G : c_Graph) (fuel s B : Nat),
      WF G.nodes → IdxBelow G.nodes → OutDegLe G.nodes B →
      G.nodes.length < 4294967293 → s ∈ idxs G.nodes →
      (G.nodes.length + 1) * (B + 2) ≤ fuel →
      ∃ out, runDepthFirst G fuel s = some out) := by
  refine ⟨?_, ?_, ?_, ?_, ?_, ?_⟩
  · intro cl
    unfold buildGraph
    exact wf_buildGraphAux cl [] [] (fun nd h => by cases h)
  · exact fun g a bp hwf ha hb => wf_establishCnt hwf ha hb
  · exact fun g a bp n g' hwf h => wf_severCntPtr hwf h
  · exact fun g a idx n g' hwf h => wf_severCntIdx hwf h
  · exact fun G pf n G' hwf h => wf_optimizeCnts hwf h
  · exact fun G fuel s B h1 h2 h3 h4 h5 h6 =>
      runDepthFirst_defined G fuel s B h1 h2 h3 h4 h5 h6

/-- Witness for C10 on the star graph `{(1,2),(1,3)}`: every component of
the invariant theorem applied at concrete inputs, all hypotheses
discharged by evaluation. -/
theorem c10_adjacency_entries_valid_witness :
    WF (buildGraph [⟨1,2,0⟩, ⟨1,3,0⟩]).nodes ∧
    WF (establishCnt (buildGraph [⟨1,2,0⟩, ⟨1,3,0⟩]).nodes 1 (some 3)).2 ∧
    WF [⟨1,[some 3],[]⟩, ⟨2,[],[]⟩, ⟨3,[],[some 1]⟩] ∧
    WF [⟨1,[some 2],[]⟩, ⟨2,[],[some 1]⟩, ⟨3,[],[]⟩] ∧
    WF [⟨1,[some 2, some 3],[]⟩, ⟨2,[],[some 1]⟩, ⟨3,[],[some 1]⟩] ∧
    (∃ out, runDepthFirst (buildGraph [⟨1,2,0⟩, ⟨1,3,0⟩]) 16 1 = some out) := by
  have h := c10_adjacency_entries_valid
  have hwf : WF (buildGraph [⟨1,2,0⟩, ⟨1,3,0⟩]).nodes := h.1 [⟨1,2,0⟩, ⟨1,3,0⟩]
  refine ⟨hwf, ?_, ?_, ?_, ?_, ?_⟩
  · exact h.2.1 (buildGraph [⟨1,2,0⟩, ⟨1,3,0⟩]).nodes 1 (some 3) hwf
      (by decide) (fun b hb => by cases hb; decide)
  · exact h.2.2.1 (buildGraph [⟨1,2,0⟩, ⟨1,3,0⟩]).nodes 1 (some 2) 1
      [⟨1,[some 3],[]⟩, ⟨2,[],[]⟩, ⟨3,[],[some 1]⟩] hwf (by decide)
  · exact h.2.2.2.1 (buildGraph [⟨1,2,0⟩, ⟨1,3,0⟩]).nodes 1 1 1
      [⟨1,[some 2],[]⟩, ⟨2,[],[some 1]⟩, ⟨3,[],[]⟩] hwf (by decide)
  · exact h.2.2.2.2.1 (buildGraph [⟨1,2,0⟩, ⟨1,3,0⟩]) none 2
      { nodes := [⟨1,[some 2, some 3],[]⟩, ⟨2,[],[some 1]⟩, ⟨3,[],[some 1]⟩],
        calc_cnts := [⟨1,2,0⟩, ⟨1,3,0⟩] } hwf (by decide)
  · exact h.2.2.2.2.2 (buildGraph [⟨1,2,0⟩, ⟨1,3,0⟩]) 16 1 2 hwf
      (by unfold IdxBelow; decide) (by unfold OutDegLe; decide)
      (by decide) (by decide) (by decide)

end GraphStruct

namespace GraphStruct

theorem severLoop_nohit (a b extnum intnum : Nat) :
    ∀ (steps i : Nat) (aOut bIn : List (Option Nat)),
    extnum ≤ aOut.length → intnum ≤ bIn.length →
    some b ∉ aOut → some a ∉ bIn →
    severLoop a b extnum intnum steps i aOut bIn false false = some (aOut, bIn) := by
  intro steps
  induction steps with
  | zero => intro i aOut bIn _ _ _ _; rfl
  | succ st ih =>
    intro i aOut bIn hea hib hnb hna
    obtain ⟨tE, hTE, hEne⟩ : ∃ tE, (if i < extnum then aOut[i]? else some none) = some tE ∧
        tE ≠ some b := by
      by_cases hi : i < extnum
      · have hlt : i < aOut.length := lt_of_lt_of_le hi hea
        refine ⟨aOut[i], by rw [if_pos hi]; exact List.getElem?_eq_getElem hlt, ?_⟩
        intro hc
        exact hnb (hc ▸ aOut.getElem_mem hlt)
      · exact ⟨none, by rw [if_neg hi], by simp⟩
    obtain ⟨tI, hTI, hIne⟩ : ∃ tI, (if i < intnum then bIn[i]? else some none) = some tI ∧
        tI ≠ some a := by
      by_cases hi : i < intnum
      · have hlt : i < bIn.length := lt_of_lt_of_le hi hib
        refine ⟨bIn[i], by rw [if_pos hi]; exact List.getElem?_eq_getElem hlt, ?_⟩
        intro hc
        exact hna (hc ▸ bIn.getElem_mem hlt)
      · exact ⟨none, by rw [if_neg hi], by simp⟩
    rw [severLoop, hTE, hTI]
    dsimp only
    rw [if_neg hEne, if_neg hIne]
    simp only [decide_eq_false hEne, decide_eq_false hIne, Bool.or_false,
      Bool.and_self, Bool.false_and, if_neg (Bool.false_ne_true)]
    exact ih (i+1) aOut bIn hea hib hnb hna

theorem setOut_id {g : List c_GraphNode} {a : Nat} {na : c_GraphNode}
    (hnd : (idxs g).Nodup) (hfa : findNode g a = some na) :
    setOut g a na.cnt_out = g := by
  have hstep : ∀ nd ∈ g,
      (if nd.index = a then { nd with cnt_out := na.cnt_out } else nd) = nd := by
    intro nd hmem
    by_cases hia : nd.index = a
    · rw [if_pos hia]
      have h1 : findNode g a = some nd := hia ▸ findNode_of_mem_nodup hnd hmem
      have h2 : nd = na := by rw [h1] at hfa; injection hfa
      rw [← h2]
    · rw [if_neg hia]
  calc setOut g a na.cnt_out
      = g.map id := List.map_congr_left hstep
    _ = g := List.map_id g

theorem setIn_id {g : List c_GraphNode} {a : Nat} {na : c_GraphNode}
    (hnd : (idxs g).Nodup) (hfa : findNode g a = some na) :
    setIn g a na.cnt_in = g := by
  have hstep : ∀ nd ∈ g,
      (if nd.index = a then { nd with cnt_in := na.cnt_in } else nd) = nd := by
    intro nd hmem
    by_cases hia : nd.index = a
    · rw [if_pos hia]
      have h1 : findNode g a = some nd := hia ▸ findNode_of_mem_nodup hnd hmem
      have h2 : nd = na := by rw [h1] at hfa; injection hfa
      rw [← h2]
    · rw [if_neg hia]
  calc setIn g a na.cnt_in
      = g.map id := List.map_congr_left hstep
    _ = g := List.map_id g

theorem severCntPtr_null (g : List c_GraphNode) (a : Nat) :
    severCntPtr g a none = some (outDegreeOf g a, g) := by
  unfold severCntPtr outDegreeOf
  cases hfa : findNode g a <;> rfl

theorem severCntPtr_self (g : List c_GraphNode) (a : Nat) :
    severCntPtr g a (some a) = some (outDegreeOf g a, g) := by
  unfold severCntPtr outDegreeOf
  cases hfa : findNode g a with
  | none => rfl
  | some na => simp

theorem severCntPtr_noedge {g : List c_GraphNode} {a b : Nat}
    {na nb : c_GraphNode}
    (hnd : (idxs g).Nodup) (hfa : findNode g a = some na)
    (hfb : findNode g b = some nb) (hba : b ≠ a)
    (hnb : some b ∉ na.cnt_out) (hna : some a ∉ nb.cnt_in) :
    severCntPtr g a (some b) = some (outDegreeOf g a, g) := by
  unfold severCntPtr
  rw [hfa]
  dsimp only
  rw [if_neg hba, hfb]
  dsimp only
  rw [severLoop_nohit a b na.cnt_out.length nb.cnt_in.length _ 0 na.cnt_out nb.cnt_in
    (le_refl _) (le_refl _) hnb hna]
  dsimp only
  have hsi : setIn (setOut g a na.cnt_out) b nb.cnt_in = g := by
    rw [setOut_id hnd hfa]
    exact setIn_id hnd hfb
  rw [hsi]
  unfold outDegreeOf
  rw [hfa]

theorem severCntIdx_oob (g : List c_GraphNode) (a idx : Nat)
    (h : outDegreeOf g a ≤ idx) :
    severCntIdx g a idx = some (outDegreeOf g a, g) := by
  unfold severCntIdx outDegreeOf
  unfold outDegreeOf at h
  cases hfa : findNode g a with
  | none => rfl
  | some na =>
    rw [hfa] at h
    dsimp only at h ⊢
    rw [if_pos (ge_iff_le.mpr h)]

theorem bfsExpand_skip :
    ∀ (es1 : List (Option Nat)) (hdr : c_SearchHeader) (es2 : List (Option Nat)),
    bfsExpand hdr (es1 ++ none :: es2) = bfsExpand hdr (es1 ++ es2) := by
  intro es1
  induction es1 with
  | nil => intro hdr es2; rfl
  | cons e rest ih =>
    intro hdr es2
    match e with
    | none =>
      show bfsExpand hdr (rest ++ none :: es2) = bfsExpand hdr (rest ++ es2)
      exact ih hdr es2
    | some ni =>
      show bfsExpand hdr (some ni :: (rest ++ none :: es2)) =
        bfsExpand hdr (some ni :: (rest ++ es2))
      rw [bfsExpand, bfsExpand]
      dsimp only
      by_cases hr : (testAdd hdr ni).1 = true
      · rw [if_pos hr, if_pos hr]
        simp only [ih]
      · rw [if_neg hr, if_neg hr, ih]

theorem bfsFiltExpand_skip (g : List c_GraphNode)
    (f : Option c_GraphNode → c_GraphNode → Bool) (snd : c_GraphNode) :
    ∀ (es1 : List (Option Nat)) (hdr : c_SearchHeader) (es2 : List (Option Nat)),
    bfsFiltExpand g f snd hdr (es1 ++ none :: es2) =
      bfsFiltExpand g f snd hdr (es1 ++ es2) := by
  intro es1
  induction es1 with
  | nil => intro hdr es2; rfl
  | cons e rest ih =>
    intro hdr es2
    match e with
    | none =>
      show bfsFiltExpand g f snd hdr (rest ++ none :: es2) =
        bfsFiltExpand g f snd hdr (rest ++ es2)
      exact ih hdr es2
    | some ni =>
      show bfsFiltExpand g f snd hdr (some ni :: (rest ++ none :: es2)) =
        bfsFiltExpand g f snd hdr (some ni :: (rest ++ es2))
      rw [bfsFiltExpand, bfsFiltExpand]
      dsimp only
      by_cases hr : (testAdd hdr ni).1 = true
      · rw [if_pos hr, if_pos hr]
        cases hfn : findNode g ni with
        | none => rfl
        | some nnode => simp only [ih]
      · rw [if_neg hr, if_neg hr, ih]

end GraphStruct

namespace GraphStruct

/-- **C9, counterexample.** The claim says an absent neighbour reference
encountered during *any* traversal is skipped rather than visited or
faulted on.  On the one-node graph whose node carries a null outbound
entry, the breadth-first entry point does skip it (lines 196-209 check
`node != nullptr`) and returns `[1]`, but the depth-first entry point
dereferences the entry without any absence check (lines 371-373,
`node->index` on `nullptr`) and faults instead of skipping. -/
theorem c9_dfs_faults_on_absent_neighbor :
    runBreadthFirst
      { nodes := [{ index := 1, cnt_out := [none], cnt_in := [] }], calc_cnts := [] }
      10 1 = some [1] ∧
    runDepthFirst
      { nodes := [{ index := 1, cnt_out := [none], cnt_in := [] }], calc_cnts := [] }
      10 1 = none := by
  exact ⟨rfl, rfl⟩

/-- **C9 (amended).** The listed edge cases, as the code actually behaves:
(1)-(2) establishing a connection to an absent node or a self-loop is a
no-op returning the unchanged out-degree; (3)-(4) severing an absent
pointer or a self-reference likewise; (5) severing a non-existent edge
(both endpoints present and distinct, no occurrence on either side) is a
no-op returning the unchanged out-degree; (6) severing an out-of-range
position likewise; (7) every one of the four traversal entry points
returns the empty sequence, with no fault, on a start identity not in the
graph; (8)-(9) the breadth-first expansions skip an absent neighbour
reference wherever it occurs in the adjacency list; (10)-(11) the
depth-first traversals, by contrast, fault on an absent neighbour
reference rather than skipping it (which the graph-level invariant of C10
keeps unreachable from the public interface). -/
theorem c9_edge_cases_noops :
    (∀ (g : List c_GraphNode) (a : Nat),
      establishCnt g a none = (outDegreeOf g a, g)) ∧
    (∀ (g : List c_GraphNode) (a : Nat),
      establishCnt g a (some a) = (outDegreeOf g a, g)) ∧
    (∀ (g : List c_GraphNode) (a : Nat),
      severCntPtr g a none = some (outDegreeOf g a, g)) ∧
    (∀ (g : List c_GraphNode) (a : Nat),
      severCntPtr g a (some a) = some (outDegreeOf g a, g)) ∧
    (∀ (g : List c_GraphNode) (a b : Nat) (na nb : c_GraphNode),
      (idxs g).Nodup → findNode g a = some na → findNode g b = some nb →
      b ≠ a → some b ∉ na.cnt_out → some a ∉ nb.cnt_in →
      severCntPtr g a (some b) = some (outDegreeOf g a, g)) ∧
    (∀ (g : List c_GraphNode) (a idx : Nat),
      outDegreeOf g a ≤ idx →
      severCntIdx g a idx = some (outDegreeOf g a, g)) ∧
    (∀ (G : c_Graph) (fuel s : Nat) (f : Option c_GraphNode → c_GraphNode → Bool),
      s ∉ idxs G.nodes →
      runBreadthFirst G fuel s = some [] ∧
      runBreadthFirstFilt G fuel s f = some [] ∧
      runDepthFirst G fuel s = some [] ∧
      runDepthFirstFilt G fuel s f = some []) ∧
    (∀ (hdr : c_SearchHeader) (es1 es2 : List (Option Nat)),
      bfsExpand hdr (es1 ++ none :: es2) = bfsExpand hdr (es1 ++ es2)) ∧
    (∀ (g : List c_GraphNode) (f : Option c_GraphNode → c_GraphNode → Bool)
       (snd : c_GraphNode) (hdr : c_SearchHeader) (es1 es2 : List (Option Nat)),
      bfsFiltExpand g f snd hdr (es1 ++ none :: es2) =
        bfsFiltExpand g f snd hdr (es1 ++ es2)) ∧
    (∀ (g : List c_GraphNode) (fuel : Nat) (es : List (Option Nat))
       (hdr : c_SearchHeader),
      dfsCore g (fuel+1) (.expand (none :: es)) hdr = none) ∧
    (∀ (g : List c_GraphNode) (f : Option c_GraphNode → c_GraphNode → Bool)
       (fuel : Nat) (nd : c_GraphNode) (es : List (Option Nat))
       (hdr : c_SearchHeader),
      dfsFiltCore g f (fuel+1) (.expand nd (none :: es)) hdr = none) := by
  refine ⟨?_, ?_, ?_, ?_, ?_, ?_, ?_, ?_, ?_, ?_, ?_⟩
  · intro g a; rfl
  · intro g a; simp [establishCnt]
  · exact severCntPtr_null
  · exact severCntPtr_self
  · exact fun g a b na nb h1 h2 h3 h4 h5 h6 => severCntPtr_noedge h1 h2 h3 h4 h5 h6
  · exact severCntIdx_oob
  · intro G fuel s f hs
    have hmap : idxMap G.nodes s = 4294967295 := idxMap_not_found G.nodes s hs
    refine ⟨?_, ?_, ?_, ?_⟩
    · rw [runBreadthFirst]; rw [if_pos (Or.inr hmap)]
    · rw [runBreadthFirstFilt]; rw [if_pos (Or.inr hmap)]
    · rw [runDepthFirst]; rw [if_pos (Or.inr hmap)]
    · rw [runDepthFirstFilt]; rw [if_pos (Or.inr hmap)]
  · exact fun hdr es1 es2 => bfsExpand_skip es1 hdr es2
  · exact fun g f snd hdr es1 es2 => bfsFiltExpand_skip g f snd es1 hdr es2
  · intro g fuel es hdr; rfl
  · intro g f fuel nd es hdr; rfl

/-- Witness for the amended C9 on concrete states: a non-existent edge
(1 to 3), an out-of-range position, an unresolvable start identity, and a
null entry skipped mid-list by the breadth-first expansion. -/
theorem c9_edge_cases_noops_witness :
    severCntPtr [⟨1,[some 2],[]⟩, ⟨2,[],[some 1]⟩, ⟨3,[],[]⟩] 1 (some 3) =
      some (outDegreeOf [⟨1,[some 2],[]⟩, ⟨2,[],[some 1]⟩, ⟨3,[],[]⟩] 1,
        [⟨1,[some 2],[]⟩, ⟨2,[],[some 1]⟩, ⟨3,[],[]⟩]) ∧
    severCntIdx [⟨1,[some 2],[]⟩, ⟨2,[],[some 1]⟩, ⟨3,[],[]⟩] 3 5 =
      some (outDegreeOf [⟨1,[some 2],[]⟩, ⟨2,[],[some 1]⟩, ⟨3,[],[]⟩] 3,
        [⟨1,[some 2],[]⟩, ⟨2,[],[some 1]⟩, ⟨3,[],[]⟩]) ∧
    (runBreadthFirst
      { nodes := [⟨1,[some 2],[]⟩, ⟨2,[],[some 1]⟩, ⟨3,[],[]⟩], calc_cnts := [] }
      10 9 = some [] ∧
     runBreadthFirstFilt
      { nodes := [⟨1,[some 2],[]⟩, ⟨2,[],[some 1]⟩, ⟨3,[],[]⟩], calc_cnts := [] }
      10 9 (fun _ _ => true) = some [] ∧
     runDepthFirst
      { nodes := [⟨1,[some 2],[]⟩, ⟨2,[],[some 1]⟩, ⟨3,[],[]⟩], calc_cnts := [] }
      10 9 = some [] ∧
     runDepthFirstFilt
      { nodes := [⟨1,[some 2],[]⟩, ⟨2,[],[some 1]⟩, ⟨3,[],[]⟩], calc_cnts := [] }
      10 9 (fun _ _ => true) = some []) ∧
    bfsExpand initHeader ([some 2] ++ none :: [some 3]) =
      bfsExpand initHeader ([some 2] ++ [some 3]) := by
  have h := c9_edge_cases_noops
  refine ⟨?_, ?_, ?_, ?_⟩
  · exact h.2.2.2.2.1 [⟨1,[some 2],[]⟩, ⟨2,[],[some 1]⟩, ⟨3,[],[]⟩] 1 3
      ⟨1,[some 2],[]⟩ ⟨3,[],[]⟩ (by decide) (by decide) (by decide)
      (by decide) (by decide) (by decide)
  · exact h.2.2.2.2.2.1 [⟨1,[some 2],[]⟩, ⟨2,[],[some 1]⟩, ⟨3,[],[]⟩] 3 5 (by decide)
  · exact h.2.2.2.2.2.2.1
      { nodes := [⟨1,[some 2],[]⟩, ⟨2,[],[some 1]⟩, ⟨3,[],[]⟩], calc_cnts := [] }
      10 9 (fun _ _ => true) (by decide)
  · exact h.2.2.2.2.2.2.2.1 initHeader [some 2] [some 3]

end GraphStruct

namespace GraphStruct

theorem specExpand_state :
    ∀ (es : List (Option Nat)) (V Q : List Nat),
    (specExpand V Q es).2.1 = V ++ (specExpand V Q es).1 ∧
    (specExpand V Q es).2.2 = Q ++ (specExpand V Q es).1 := by
  intro es
  induction es with
  | nil => intro V Q; simp [specExpand]
  | cons e rest ih =>
    intro V Q
    match e with
    | none => exact ih V Q
    | some ni =>
      by_cases hc : V.contains ni
      · rw [specExpand, if_pos hc]
        exact ih V Q
      · rw [specExpand, if_neg hc]
        obtain ⟨h1, h2⟩ := ih (V ++ [ni]) (Q ++ [ni])
        refine ⟨?_, ?_⟩
        · show (specExpand (V ++ [ni]) (Q ++ [ni]) rest).2.1 =
            V ++ ni :: (specExpand (V ++ [ni]) (Q ++ [ni]) rest).1
          rw [h1]; simp
        · show (specExpand (V ++ [ni]) (Q ++ [ni]) rest).2.2 =
            Q ++ ni :: (specExpand (V ++ [ni]) (Q ++ [ni]) rest).1
          rw [h2]; simp

theorem specExpand_fresh :
    ∀ (es : List (Option Nat)) (V Q : List Nat),
    (∀ x ∈ (specExpand V Q es).1, x ∉ V) ∧ (specExpand V Q es).1.Nodup := by
  intro es
  induction es with
  | nil => intro V Q; simp [specExpand]
  | cons e rest ih =>
    intro V Q
    match e with
    | none => exact ih V Q
    | some ni =>
      by_cases hc : V.contains ni
      · rw [specExpand, if_pos hc]
        exact ih V Q
      · rw [specExpand, if_neg hc]
        obtain ⟨h1, h2⟩ := ih (V ++ [ni]) (Q ++ [ni])
        have hni : ni ∉ V := by simpa using hc
        constructor
        · show ∀ x ∈ ni :: (specExpand (V ++ [ni]) (Q ++ [ni]) rest).1, x ∉ V
          intro x hx
          rcases List.mem_cons.mp hx with h | h
          · exact h ▸ hni
          · intro hv
            exact h1 x h (List.mem_append_left _ hv)
        · show (ni :: (specExpand (V ++ [ni]) (Q ++ [ni]) rest).1).Nodup
          refine List.nodup_cons.mpr ⟨?_, h2⟩
          intro hmem
          exact h1 ni hmem (by simp)

theorem specExpand_sub :
    ∀ (es : List (Option Nat)) (V Q : List Nat),
    ∀ x ∈ (specExpand V Q es).1, some x ∈ es := by
  intro es
  induction es with
  | nil => intro V Q x hx; simp [specExpand] at hx
  | cons e rest ih =>
    intro V Q x hx
    match e with
    | none => exact List.mem_cons_of_mem _ (ih V Q x hx)
    | some ni =>
      by_cases hc : V.contains ni
      · rw [specExpand, if_pos hc] at hx
        exact List.mem_cons_of_mem _ (ih V Q x hx)
      · rw [specExpand, if_neg hc] at hx
        rcases List.mem_cons.mp hx with h | h
        · exact h ▸ List.mem_cons_self _ _
        · exact List.mem_cons_of_mem _ (ih (V ++ [ni]) (Q ++ [ni]) x h)

theorem specExpand_complete :
    ∀ (es : List (Option Nat)) (V Q : List Nat),
    ∀ y, some y ∈ es → y ∈ (specExpand V Q es).2.1 := by
  intro es
  induction es with
  | nil => intro V Q y hy; cases hy
  | cons e rest ih =>
    intro V Q y hy
    match e with
    | none =>
      rcases List.mem_cons.mp hy with h | h
      · cases h
      · exact ih V Q y h
    | some ni =>
      by_cases hc : V.contains ni
      · rw [specExpand, if_pos hc]
        rcases List.mem_cons.mp hy with h | h
        · have hni : ni ∈ V := by simpa using hc
          have hyn : y = ni := by injection h
          rw [(specExpand_state rest V Q).1]
          exact List.mem_append_left _ (hyn ▸ hni)
        · exact ih V Q y h
      · rw [specExpand, if_neg hc]
        rcases List.mem_cons.mp hy with h | h
        · have hyn : y = ni := by injection h
          show y ∈ (specExpand (V ++ [ni]) (Q ++ [ni]) rest).2.1
          rw [(specExpand_state rest _ _).1]
          exact List.mem_append_left _ (by simp [hyn])
        · exact ih (V ++ [ni]) (Q ++ [ni]) y h

theorem specExpand_allin :
    ∀ (es : List (Option Nat)) (V Q : List Nat),
    (∀ y, some y ∈ es → y ∈ V) → specExpand V Q es = ([], V, Q) := by
  intro es
  induction es with
  | nil => intro V Q _; rfl
  | cons e rest ih =>
    intro V Q hall
    match e with
    | none =>
      show specExpand V Q rest = ([], V, Q)
      exact ih V Q (fun y hy => hall y (List.mem_cons_of_mem _ hy))
    | some ni =>
      have hni : ni ∈ V := hall ni (List.mem_cons_self _ _)
      have hc : V.contains ni = true := by simpa using hni
      rw [specExpand, if_pos hc]
      exact ih V Q (fun y hy => hall y (List.mem_cons_of_mem _ hy))

theorem specExpand_idxs (g : List c_GraphNode) :
    ∀ (es : List (Option Nat)) (V Q : List Nat), EntriesOk g es →
    ∀ x ∈ (specExpand V Q es).1, x ∈ idxs g := by
  intro es V Q hok x hx
  obtain ⟨y, hy, hym⟩ := hok (some x) (specExpand_sub es V Q x hx)
  cases hy
  exact hym

end GraphStruct

namespace GraphStruct

theorem bfsProcess_mono (g : List c_GraphNode) :
    ∀ (fu : Nat) (V Q : List Nat) (r : List Nat × List Nat),
    bfsProcess g fu V Q = some r → ∀ fu2, fu ≤ fu2 → bfsProcess g fu2 V Q = some r := by
  intro fu
  induction fu with
  | zero => intro V Q r h; cases h
  | succ f ih =>
    intro V Q r h fu2 hle
    obtain ⟨f2, rfl⟩ : ∃ f2, fu2 = f2 + 1 := ⟨fu2 - 1, by omega⟩
    cases Q with
    | nil => cases h; rfl
    | cons u rest =>
      simp only [bfsProcess] at h ⊢
      match hfn : findNode g u with
      | none => first | simp [hfn] at h | simp at h
      | some nd =>
        (try rw [hfn] at h)
        (try rw [hfn])
        (try dsimp only at h)
        (try dsimp only)
        match hrec : bfsProcess g f (specExpand V rest nd.cnt_out).2.1
            (specExpand V rest nd.cnt_out).2.2 with
        | none => first | simp [hrec] at h | simp at h
        | some (o, V2) =>
          (try rw [hrec] at h)
          (try dsimp only at h)
          rw [ih _ _ _ hrec f2 (by omega)]
          (try dsimp only)
          exact h

theorem bfsProcess_visited (g : List c_GraphNode) :
    ∀ (fu : Nat) (V Q : List Nat) (r : List Nat × List Nat),
    bfsProcess g fu V Q = some r → r.2 = V ++ r.1 := by
  intro fu
  induction fu with
  | zero => intro V Q r h; cases h
  | succ f ih =>
    intro V Q r h
    cases Q with
    | nil => cases h; simp
    | cons u rest =>
      simp only [bfsProcess] at h
      match hfn : findNode g u with
      | none => first | simp [hfn] at h | simp at h
      | some nd =>
        (try rw [hfn] at h)
        (try dsimp only at h)
        match hrec : bfsProcess g f (specExpand V rest nd.cnt_out).2.1
            (specExpand V rest nd.cnt_out).2.2 with
        | none => first | simp [hrec] at h | simp at h
        | some (o, V2) =>
          (try rw [hrec] at h)
          (try dsimp only at h)
          cases h
          have h1 := ih _ _ _ hrec
          dsimp only at h1
          rw [h1, (specExpand_state nd.cnt_out V rest).1]
          simp

end GraphStruct

namespace GraphStruct

theorem countUnvisited_append (g : List c_GraphNode) :
    ∀ (out V : List Nat), out.Nodup → (∀ x ∈ out, x ∉ V) → (∀ x ∈ out, x ∈ idxs g) →
    countUnvisited g (V ++ out) + out.length ≤ countUnvisited g V := by
  intro out
  induction out with
  | nil => intro V _ _ _; simp
  | cons x rest ih =>
    intro V hnd hfresh hidx
    have h1 : countUnvisited g (V ++ [x]) < countUnvisited g V :=
      countUnvisited_fresh g V x (hidx x (List.mem_cons_self _ _))
        (hfresh x (List.mem_cons_self _ _))
    have hx_rest : x ∉ rest := (List.nodup_cons.mp hnd).1
    have h2 := ih (V ++ [x]) (List.nodup_cons.mp hnd).2
      (fun y hy => by
        intro hmem
        rcases List.mem_append.mp hmem with hm | hm
        · exact hfresh y (List.mem_cons_of_mem _ hy) hm
        · have : y = x := by simpa using hm
          exact hx_rest (this ▸ hy))
      (fun y hy => hidx y (List.mem_cons_of_mem _ hy))
    have hassoc : V ++ x :: rest = (V ++ [x]) ++ rest := by simp
    rw [hassoc]
    simp only [List.length_cons]
    omega

theorem bfsProcess_total (g : List c_GraphNode) (hwf : WF g) :
    ∀ (fu : Nat) (V Q : List Nat), (∀ u ∈ Q, u ∈ idxs g) →
    Q.length + 2 * countUnvisited g V < fu →
    ∃ r, bfsProcess g fu V Q = some r := by
  intro fu
  induction fu with
  | zero => intro V Q _ hlt; omega
  | succ f ih =>
    intro V Q hQ hlt
    cases Q with
    | nil => exact ⟨([], V), rfl⟩
    | cons u rest =>
      obtain ⟨nd, hfn⟩ := findNode_of_mem_idxs (hQ u (List.mem_cons_self _ _))
      have hmem : nd ∈ g := (findNode_some hfn).2
      have hok : EntriesOk g nd.cnt_out := wf_entries_ok hwf hmem
      have hfresh := specExpand_fresh nd.cnt_out V rest
      have hidx := specExpand_idxs g nd.cnt_out V rest hok
      have hcnt := countUnvisited_append g (specExpand V rest nd.cnt_out).1 V
        hfresh.2 hfresh.1 hidx
      have hst := specExpand_state nd.cnt_out V rest
      have hlen : (specExpand V rest nd.cnt_out).2.2.length =
          rest.length + (specExpand V rest nd.cnt_out).1.length := by
        rw [hst.2]; simp
      have hQ2 : ∀ x ∈ (specExpand V rest nd.cnt_out).2.2, x ∈ idxs g := by
        intro x hx
        rw [hst.2] at hx
        rcases List.mem_append.mp hx with hm | hm
        · exact hQ x (List.mem_cons_of_mem _ hm)
        · exact hidx x hm
      have harith : (specExpand V rest nd.cnt_out).2.2.length +
          2 * countUnvisited g (specExpand V rest nd.cnt_out).2.1 < f := by
        rw [hlen, hst.1]
        have := hcnt
        simp only [List.length_cons] at hlt
        omega
      obtain ⟨⟨o, V2⟩, hrec⟩ := ih (specExpand V rest nd.cnt_out).2.1
        (specExpand V rest nd.cnt_out).2.2 hQ2 harith
      refine ⟨((specExpand V rest nd.cnt_out).1 ++ o, V2), ?_⟩
      rw [bfsProcess, hfn]
      dsimp only
      rw [hrec]

theorem bfsProcess_post (g : List c_GraphNode) :
    ∀ (fu : Nat) (V Q o V2 : List Nat), bfsProcess g fu V Q = some (o, V2) →
    (∀ u ∈ Q, u ∈ V) → Quiescent g V2 (Q ++ o) := by
  intro fu
  induction fu with
  | zero => intro V Q o V2 h; cases h
  | succ f ih =>
    intro V Q o V2 h hQV
    cases Q with
    | nil =>
      cases h
      intro u hu
      simp at hu
    | cons u rest =>
      rw [bfsProcess] at h
      match hfn : findNode g u with
      | none => first | simp [hfn] at h | simp at h
      | some nd =>
        (try rw [hfn] at h)
        (try dsimp only at h)
        match hrec : bfsProcess g f (specExpand V rest nd.cnt_out).2.1
            (specExpand V rest nd.cnt_out).2.2 with
        | none => first | simp [hrec] at h | simp at h
        | some (o1, V21) =>
          (try rw [hrec] at h)
          (try dsimp only at h)
          simp only [Option.some_inj, Prod.mk.injEq] at h
          obtain ⟨ho, hV21⟩ := h
          subst hV21
          subst ho
          have hst := specExpand_state nd.cnt_out V rest
          have hQ2 : ∀ x ∈ (specExpand V rest nd.cnt_out).2.2,
              x ∈ (specExpand V rest nd.cnt_out).2.1 := by
            intro x hx
            rw [hst.2] at hx
            rw [hst.1]
            rcases List.mem_append.mp hx with hm | hm
            · exact List.mem_append_left _ (hQV x (List.mem_cons_of_mem _ hm))
            · exact List.mem_append_right _ hm
          have hihq := ih _ _ _ _ hrec hQ2
          have hV2 : V21 = (specExpand V rest nd.cnt_out).2.1 ++ o1 :=
            bfsProcess_visited g f _ _ _ hrec
          intro x hx
          have hx4 : x = u ∨ x ∈ rest ∨ x ∈ (specExpand V rest nd.cnt_out).1 ∨
              x ∈ o1 := by simpa using hx
          rcases hx4 with hm | hm | hm | hm
          · subst hm
            constructor
            · rw [hV2, hst.1]
              exact List.mem_append_left _
                (List.mem_append_left _ (hQV x (List.mem_cons_self _ _)))
            · intro nd' hnd' e he y hy
              have hnd2 : nd' = nd := by
                rw [hfn] at hnd'
                injection hnd' with h2
                exact h2.symm
              have he2 : e ∈ nd.cnt_out := hnd2 ▸ he
              have hyv : y ∈ (specExpand V rest nd.cnt_out).2.1 :=
                specExpand_complete nd.cnt_out V rest y (hy ▸ he2)
              rw [hV2]
              exact List.mem_append_left _ hyv
          · exact hihq x (List.mem_append_left _
              (by rw [hst.2]; exact List.mem_append_left _ hm))
          · exact hihq x (List.mem_append_left _
              (by rw [hst.2]; exact List.mem_append_right _ hm))
          · exact hihq x (List.mem_append_right _ hm)

theorem bfsProcess_quiescent (g : List c_GraphNode) :
    ∀ (fu : Nat) (V Q : List Nat), Quiescent g V Q → (∀ u ∈ Q, u ∈ idxs g) →
    Q.length < fu → bfsProcess g fu V Q = some ([], V) := by
  intro fu
  induction fu with
  | zero => intro V Q _ _ h; omega
  | succ f ih =>
    intro V Q hq hQ hlen
    cases Q with
    | nil => rfl
    | cons u rest =>
      obtain ⟨nd, hfn⟩ := findNode_of_mem_idxs (hQ u (List.mem_cons_self _ _))
      have hexp : specExpand V rest nd.cnt_out = ([], V, rest) := by
        apply specExpand_allin
        intro y hy
        exact (hq u (List.mem_cons_self _ _)).2 nd hfn (some y) hy y rfl
      rw [bfsProcess, hfn]
      dsimp only
      rw [hexp]
      dsimp only
      rw [ih V rest (fun x hx => hq x (List.mem_cons_of_mem _ hx))
        (fun x hx => hQ x (List.mem_cons_of_mem _ hx))
        (by simp only [List.length_cons] at hlen; omega)]
      simp

end GraphStruct

namespace GraphStruct

theorem bProc_det {g : List c_GraphNode} {V Q o1 W1 o2 W2 : List Nat}
    (h1 : BProc g V Q o1 W1) (h2 : BProc g V Q o2 W2) : o1 = o2 ∧ W1 = W2 := by
  obtain ⟨f1, h1⟩ := h1
  obtain ⟨f2, h2⟩ := h2
  have h1m := bfsProcess_mono g f1 V Q _ h1 (max f1 f2) (Nat.le_max_left _ _)
  have h2m := bfsProcess_mono g f2 V Q _ h2 (max f1 f2) (Nat.le_max_right _ _)
  rw [h1m] at h2m
  have := Option.some_inj.mp h2m
  exact ⟨congrArg Prod.fst this, congrArg Prod.snd this⟩

theorem processed_mono {g : List c_GraphNode} {V ext : List Nat} {u : Nat}
    (h : Processed g V u) : Processed g (V ++ ext) u :=
  ⟨List.mem_append_left _ h.1,
   fun nd hnd e he y hy => List.mem_append_left _ (h.2 nd hnd e he y hy)⟩

theorem quiescent_mono {g : List c_GraphNode} {V ext S : List Nat}
    (h : Quiescent g V S) : Quiescent g (V ++ ext) S :=
  fun u hu => processed_mono (h u hu)

theorem bfsProcess_idxs (g : List c_GraphNode) (hwf : WF g) :
    ∀ (fu : Nat) (V Q o V2 : List Nat), bfsProcess g fu V Q = some (o, V2) →
    (∀ u ∈ Q, u ∈ idxs g) → ∀ x ∈ o, x ∈ idxs g := by
  intro fu
  induction fu with
  | zero => intro V Q o V2 h; cases h
  | succ f ih =>
    intro V Q o V2 h hQ
    cases Q with
    | nil => cases h; intro x hx; cases hx
    | cons u rest =>
      rw [bfsProcess] at h
      match hfn : findNode g u with
      | none => first | simp [hfn] at h | simp at h
      | some nd =>
        (try rw [hfn] at h)
        (try dsimp only at h)
        match hrec : bfsProcess g f (specExpand V rest nd.cnt_out).2.1
            (specExpand V rest nd.cnt_out).2.2 with
        | none => first | simp [hrec] at h | simp at h
        | some (o1, V21) =>
          (try rw [hrec] at h)
          (try dsimp only at h)
          simp only [Option.some_inj, Prod.mk.injEq] at h
          obtain ⟨ho, hV21⟩ := h
          subst ho
          have hok : EntriesOk g nd.cnt_out := wf_entries_ok hwf (findNode_some hfn).2
          have hn_idx := specExpand_idxs g nd.cnt_out V rest hok
          have hst := specExpand_state nd.cnt_out V rest
          have hQ2 : ∀ x ∈ (specExpand V rest nd.cnt_out).2.2, x ∈ idxs g := by
            intro x hx
            rw [hst.2] at hx
            rcases List.mem_append.mp hx with hm | hm
            · exact hQ x (List.mem_cons_of_mem _ hm)
            · exact hn_idx x hm
          intro x hx
          rcases List.mem_append.mp hx with hm | hm
          · exact hn_idx x hm
          · exact ih _ _ _ _ hrec hQ2 x hm

end GraphStruct

namespace GraphStruct

theorem quiescent_append {g : List c_GraphNode} {V a b : List Nat}
    (ha : Quiescent g V a) (hb : Quiescent g V b) : Quiescent g V (a ++ b) := by
  intro u hu
  rcases List.mem_append.mp hu with h | h
  · exact ha u h
  · exact hb u h

theorem specBfs_char_expandDrain (g : List c_GraphNode) (f : Nat)
    (ih : ∀ (m : BfsMode) (V Q : List Nat) (r : List Nat × List Nat × List Nat),
      specBfsCore g f m V Q = some r → BfsPre g m V Q → BfsChar g m V Q r)
    (s : Nat) (owns : Bool) (V0 Q : List Nat) (nd : c_GraphNode)
    (hfn : findNode g s = some nd) (hok : EntriesOk g nd.cnt_out)
    (hQV0 : ∀ u ∈ Q, u ∈ V0) (hQidx : ∀ u ∈ Q, u ∈ idxs g)
    (outD : List Nat) (V2 Q2 : List Nat)
    (hdrain : specBfsCore g f (.drain owns []) (specExpand V0 Q nd.cnt_out).2.1
      (specExpand V0 Q nd.cnt_out).2.2 = some (outD, V2, Q2)) :
    BProc g V0 (s :: Q) ((specExpand V0 Q nd.cnt_out).1 ++ outD) V2 ∧
    Quiescent g V2 Q2 ∧ (∀ u ∈ Q2, u ∈ V2) ∧ (∀ u ∈ Q2, u ∈ idxs g) ∧
    Q2.length ≤ (specExpand V0 Q nd.cnt_out).1.length + outD.length ∧
    (owns = true → Q2 = []) := by
  have hst := specExpand_state nd.cnt_out V0 Q
  have hEidx := specExpand_idxs g nd.cnt_out V0 Q hok
  have hQ1V1 : ∀ u ∈ (specExpand V0 Q nd.cnt_out).2.2,
      u ∈ (specExpand V0 Q nd.cnt_out).2.1 := by
    intro u hu
    rw [hst.2] at hu
    rw [hst.1]
    rcases List.mem_append.mp hu with hm | hm
    · exact List.mem_append_left _ (hQV0 u hm)
    · exact List.mem_append_right _ hm
  have hQ1idx : ∀ u ∈ (specExpand V0 Q nd.cnt_out).2.2, u ∈ idxs g := by
    intro u hu
    rw [hst.2] at hu
    rcases List.mem_append.mp hu with hm | hm
    · exact hQidx u hm
    · exact hEidx u hm
  have hpreD : BfsPre g (.drain owns []) (specExpand V0 Q nd.cnt_out).2.1
      (specExpand V0 Q nd.cnt_out).2.2 :=
    ⟨hQ1V1, hQ1idx, fun u hu => absurd hu (List.not_mem_nil u),
     fun u hu => absurd hu (List.not_mem_nil u),
     fun u hu => absurd hu (List.not_mem_nil u)⟩
  obtain ⟨hbpD, hquiD, hQ2V, hQ2idx, hlenD, howns⟩ :=
    ih (.drain owns []) _ _ (outD, V2, Q2) hdrain hpreD
  refine ⟨?_, hquiD, hQ2V, hQ2idx, ?_, howns⟩
  · obtain ⟨fu, hbp⟩ := hbpD
    refine ⟨fu + 1, ?_⟩
    rw [bfsProcess, hfn]
    dsimp only
    rw [hbp]
  · have : Q2.length ≤ outD.length := by simpa using hlenD
    omega

end GraphStruct

namespace GraphStruct

theorem specBfs_char (g : List c_GraphNode) (hwf : WF g) :
    ∀ (fuel : Nat) (m : BfsMode) (V Q : List Nat) (r : List Nat × List Nat × List Nat),
    specBfsCore g fuel m V Q = some r → BfsPre g m V Q → BfsChar g m V Q r := by
  intro fuel
  induction fuel with
  | zero => intro m V Q r h _; cases h
  | succ f ih =>
    intro m V Q r h hpre
    match m with
    | .visit none owns =>
      cases h
      rfl
    | .visit (some s) owns =>
      obtain ⟨hQV, hQidx⟩ := hpre
      simp only [specBfsCore] at h
      match hfn : findNode g s with
      | none => first | simp [hfn] at h | simp at h
      | some nd =>
        (try rw [hfn] at h)
        (try dsimp only at h)
        have hok : EntriesOk g nd.cnt_out := wf_entries_ok hwf (findNode_some hfn).2
        by_cases hsv : s ∈ V
        · have hcs : V.contains s = true := by simpa using hsv
          simp only [hcs, if_true] at h
          match hdrain : specBfsCore g f (.drain owns [])
              (specExpand V Q nd.cnt_out).2.1 (specExpand V Q nd.cnt_out).2.2 with
          | none => first | simp [hdrain] at h | simp at h
          | some (outD, V2, Q2) =>
            (try rw [hdrain] at h)
            (try dsimp only at h)
            obtain ⟨hbp, hqui, hQ2V, hQ2idx, hlen, howns⟩ :=
              specBfs_char_expandDrain g f ih s owns V Q nd hfn hok hQV hQidx
                outD V2 Q2 hdrain
            simp only [Option.some_inj] at h
            subst h
            show ∃ o, BProc g (if V.contains s then V else V ++ [s]) (s :: Q) o V2 ∧ _
            rw [hcs]
            refine ⟨(specExpand V Q nd.cnt_out).1 ++ outD, hbp, by simp, hqui,
              hQ2V, hQ2idx, by simpa using hlen, howns⟩
        · have hcs : V.contains s = false := by simpa using hsv
          simp only [hcs, if_false, Bool.false_eq_true] at h
          match hdrain : specBfsCore g f (.drain owns [])
              (specExpand (V ++ [s]) Q nd.cnt_out).2.1
              (specExpand (V ++ [s]) Q nd.cnt_out).2.2 with
          | none => first | simp [hdrain] at h | simp at h
          | some (outD, V2, Q2) =>
            (try rw [hdrain] at h)
            (try dsimp only at h)
            have hQV' : ∀ u ∈ Q, u ∈ V ++ [s] :=
              fun u hu => List.mem_append_left _ (hQV u hu)
            obtain ⟨hbp, hqui, hQ2V, hQ2idx, hlen, howns⟩ :=
              specBfs_char_expandDrain g f ih s owns (V ++ [s]) Q nd hfn hok hQV' hQidx
                outD V2 Q2 hdrain
            simp only [Option.some_inj] at h
            subst h
            show ∃ o, BProc g (if V.contains s then V else V ++ [s]) (s :: Q) o V2 ∧ _
            rw [hcs]
            refine ⟨(specExpand (V ++ [s]) Q nd.cnt_out).1 ++ outD, ?_, by simp, hqui,
              hQ2V, hQ2idx, by simpa using hlen, howns⟩
            simpa using hbp
    | .drain owns nq =>
      obtain ⟨hQV, hQidx, hnqQui, hnqV, hnqidx⟩ := hpre
      simp only [specBfsCore] at h
      match hinner : specBfsCore g f .inner V Q with
      | none => first | simp [hinner] at h | simp at h
      | some (dq, V1, Q1) =>
        (try rw [hinner] at h)
        (try dsimp only at h)
        obtain ⟨hbp, hqui1, hQ1V, hQ1idx, hlen1⟩ :=
          ih .inner V Q (dq, V1, Q1) hinner ⟨hQV, hQidx⟩
        obtain ⟨fu0, hbp0⟩ := hbp
        have hV1 : V1 = V ++ dq := bfsProcess_visited g fu0 V Q (dq, V1) hbp0
        have hpost : Quiescent g V1 (Q ++ dq) :=
          bfsProcess_post g fu0 V Q dq V1 hbp0 hQV
        have hdqQui : Quiescent g V1 dq :=
          fun u hu => hpost u (List.mem_append_right _ hu)
        have hdqV1 : ∀ u ∈ dq, u ∈ V1 := by
          intro u hu; rw [hV1]; exact List.mem_append_right _ hu
        have hdqidx : ∀ u ∈ dq, u ∈ idxs g :=
          bfsProcess_idxs g hwf fu0 V Q dq V1 hbp0 hQidx
        have hnqQui1 : Quiescent g V1 nq := hV1 ▸ quiescent_mono hnqQui
        have hnq1Qui : Quiescent g V1 (nq ++ dq) := quiescent_append hnqQui1 hdqQui
        have hnq1V : ∀ u ∈ nq ++ dq, u ∈ V1 := by
          intro u hu
          rcases List.mem_append.mp hu with hm | hm
          · rw [hV1]; exact List.mem_append_left _ (hnqV u hm)
          · exact hdqV1 u hm
        have hnq1idx : ∀ u ∈ nq ++ dq, u ∈ idxs g := by
          intro u hu
          rcases List.mem_append.mp hu with hm | hm
          · exact hnqidx u hm
          · exact hdqidx u hm
        have hQ1Qui : Quiescent g V1 Q1 := hqui1
        -- a quiescent queue re-processes to nothing
        have hrunq : ∀ (S : List Nat), Quiescent g V1 S → (∀ u ∈ S, u ∈ idxs g) →
            BProc g V1 S [] V1 :=
          fun S hS hSidx => ⟨S.length + 1,
            bfsProcess_quiescent g (S.length + 1) V1 S hS hSidx (Nat.lt_succ_self _)⟩
        cases owns with
        | false =>
          simp only [Bool.false_and, Bool.false_eq_true, if_false] at h
          by_cases hq1e : Q1.isEmpty = true
          · rw [if_pos hq1e] at h
            have hQ1nil : Q1 = [] := by simpa using hq1e
            by_cases hnq1e : (nq ++ dq).isEmpty = true
            · rw [if_pos hnq1e] at h
              simp only [Option.some_inj] at h
              subst h
              exact ⟨⟨fu0, hbp0⟩, hqui1, hQ1V, hQ1idx, by simp [hQ1nil], by intro hc; cases hc⟩
            · rw [if_neg hnq1e] at h
              simp only [Option.some_inj] at h
              subst h
              refine ⟨⟨fu0, hbp0⟩, hnq1Qui, hnq1V, hnq1idx, by simp, by intro hc; cases hc⟩
          · rw [if_neg hq1e] at h
            match hrec2 : specBfsCore g f (.drain false (nq ++ dq)) V1 Q1 with
            | none => first | simp [hrec2] at h | simp at h
            | some (outR, V3, Q3) =>
              (try rw [hrec2] at h)
              (try dsimp only at h)
              obtain ⟨hbp3, hqui3, hQ3V, hQ3idx, hlen3, _⟩ :=
                ih (.drain false (nq ++ dq)) V1 Q1 (outR, V3, Q3) hrec2
                  ⟨hQ1V, hQ1idx, hnq1Qui, hnq1V, hnq1idx⟩
              obtain ⟨hout3, hV3⟩ := bProc_det hbp3 (hrunq Q1 hQ1Qui hQ1idx)
              subst hout3
              subst hV3
              simp only [Option.some_inj] at h
              subst h
              refine ⟨by simpa using ⟨fu0, hbp0⟩, hqui3, hQ3V, hQ3idx, ?_,
                by intro hc; cases hc⟩
              simp only [List.length_append, List.length_nil] at hlen3 ⊢
              omega
        | true =>
          simp only [Bool.true_and] at h
          by_cases hq1e : Q1.isEmpty = true
          · have hQ1nil : Q1 = [] := by simpa using hq1e
            by_cases hnq1e : (nq ++ dq).isEmpty = true
            · have hpm : (Q1.isEmpty && !(nq ++ dq).isEmpty) = false := by
                rw [hnq1e]; simp
              rw [hpm] at h
              simp only [Bool.false_eq_true, if_false] at h
              rw [if_pos hq1e] at h
              simp only [eq_self_iff_true, if_true, Option.some_inj] at h
              subst h
              exact ⟨⟨fu0, hbp0⟩, hqui1, hQ1V, hQ1idx, by simp [hQ1nil],
                fun _ => hQ1nil⟩
            · have hnq1f : (nq ++ dq).isEmpty = false := by simpa using hnq1e
              have hpm : (Q1.isEmpty && !(nq ++ dq).isEmpty) = true := by
                rw [hq1e, hnq1f]; simp
              rw [hpm] at h
              simp only [eq_self_iff_true, if_true] at h
              rw [if_neg hnq1e] at h
              match hrec2 : specBfsCore g f (.drain true []) V1 (nq ++ dq) with
              | none => first | simp [hrec2] at h | simp at h
              | some (outR, V3, Q3) =>
                (try rw [hrec2] at h)
                (try dsimp only at h)
                obtain ⟨hbp3, hqui3, hQ3V, hQ3idx, hlen3, howns3⟩ :=
                  ih (.drain true []) V1 (nq ++ dq) (outR, V3, Q3) hrec2
                    ⟨hnq1V, hnq1idx, fun u hu => absurd hu (List.not_mem_nil u),
                     fun u hu => absurd hu (List.not_mem_nil u),
                     fun u hu => absurd hu (List.not_mem_nil u)⟩
                obtain ⟨hout3, hV3⟩ := bProc_det hbp3 (hrunq (nq ++ dq) hnq1Qui hnq1idx)
                subst hout3
                subst hV3
                simp only [Option.some_inj] at h
                subst h
                refine ⟨by simpa using ⟨fu0, hbp0⟩, hqui3, hQ3V, hQ3idx, ?_,
                  howns3⟩
                have h9 : Q3 = [] := by simpa using howns3 rfl
                simp [h9]
          · have hq1f : Q1.isEmpty = false := by simpa using hq1e
            have hpm : (Q1.isEmpty && !(nq ++ dq).isEmpty) = false := by
              rw [hq1f]; simp
            rw [hpm] at h
            simp only [Bool.false_eq_true, if_false] at h
            rw [if_neg hq1e] at h
            match hrec2 : specBfsCore g f (.drain true (nq ++ dq)) V1 Q1 with
            | none => first | simp [hrec2] at h | simp at h
            | some (outR, V3, Q3) =>
              (try rw [hrec2] at h)
              (try dsimp only at h)
              obtain ⟨hbp3, hqui3, hQ3V, hQ3idx, hlen3, howns3⟩ :=
                ih (.drain true (nq ++ dq)) V1 Q1 (outR, V3, Q3) hrec2
                  ⟨hQ1V, hQ1idx, hnq1Qui, hnq1V, hnq1idx⟩
              obtain ⟨hout3, hV3⟩ := bProc_det hbp3 (hrunq Q1 hQ1Qui hQ1idx)
              subst hout3
              subst hV3
              simp only [Option.some_inj] at h
              subst h
              refine ⟨by simpa using ⟨fu0, hbp0⟩, hqui3, hQ3V, hQ3idx, ?_, howns3⟩
              have h9 : Q3 = [] := by simpa using howns3 rfl
              simp [h9]
    | .inner =>
      obtain ⟨hQV, hQidx⟩ := hpre
      simp only [specBfsCore] at h
      cases Q with
      | nil =>
        simp only [Option.some_inj] at h
        subst h
        exact ⟨⟨1, rfl⟩, fun u hu => absurd hu (List.not_mem_nil u),
          fun u hu => absurd hu (List.not_mem_nil u),
          fun u hu => absurd hu (List.not_mem_nil u), Nat.le_refl _⟩
      | cons u rest =>
        dsimp only at h
        match hvis : specBfsCore g f (.visit (some u) false) V rest with
        | none => first | simp [hvis] at h | simp at h
        | some (dq, V1, Q1) =>
          (try rw [hvis] at h)
          (try dsimp only at h)
          have hpreV : BfsPre g (.visit (some u) false) V rest :=
            ⟨fun x hx => hQV x (List.mem_cons_of_mem _ hx),
             fun x hx => hQidx x (List.mem_cons_of_mem _ hx)⟩
          obtain ⟨o, hbp, hdqeq, hqui1, hQ1V, hQ1idx, hlen1, _⟩ :=
            ih (.visit (some u) false) V rest (dq, V1, Q1) hvis hpreV
          have hcu : V.contains u = true := by
            simpa using hQV u (List.mem_cons_self _ _)
          rw [hcu] at hbp hdqeq
          simp only [if_true] at hbp hdqeq
          simp only [List.nil_append] at hdqeq
          subst hdqeq
          by_cases hdqe : dq.isEmpty = true
          · have honil : dq = [] := by simpa using hdqe
            rw [if_pos hdqe] at h
            obtain ⟨hbp2, hqui2, hQ2V, hQ2idx, hlen2⟩ :=
              ih .inner V1 Q1 r h ⟨hQ1V, hQ1idx⟩
            have hquiV1 : Quiescent g V1 Q1 := hqui1
            obtain ⟨hr1, hr2⟩ := bProc_det hbp2 (by
              exact ⟨Q1.length + 1,
                bfsProcess_quiescent g (Q1.length + 1) V1 Q1 hquiV1 hQ1idx
                  (Nat.lt_succ_self _)⟩)
            refine ⟨?_, hqui2, hQ2V, hQ2idx, hlen2⟩
            rw [hr1, hr2]
            subst honil
            exact hbp
          · rw [if_neg hdqe] at h
            simp only [Option.some_inj] at h
            subst h
            exact ⟨hbp, hqui1, hQ1V, hQ1idx, hlen1⟩

end GraphStruct

namespace GraphStruct

theorem bfsProcess_fresh (g : List c_GraphNode) :
    ∀ (fu : Nat) (V Q o V2 : List Nat), bfsProcess g fu V Q = some (o, V2) →
    o.Nodup ∧ ∀ x ∈ o, x ∉ V := by
  intro fu
  induction fu with
  | zero => intro V Q o V2 h; cases h
  | succ f ih =>
    intro V Q o V2 h
    cases Q with
    | nil => cases h; exact ⟨List.nodup_nil, by intro x hx; cases hx⟩
    | cons u rest =>
      rw [bfsProcess] at h
      match hfn : findNode g u with
      | none => first | simp [hfn] at h | simp at h
      | some nd =>
        (try rw [hfn] at h)
        (try dsimp only at h)
        match hrec : bfsProcess g f (specExpand V rest nd.cnt_out).2.1
            (specExpand V rest nd.cnt_out).2.2 with
        | none => first | simp [hrec] at h | simp at h
        | some (o1, V21) =>
          (try rw [hrec] at h)
          (try dsimp only at h)
          simp only [Option.some_inj, Prod.mk.injEq] at h
          obtain ⟨ho, hV21⟩ := h
          subst ho
          have hE := specExpand_fresh nd.cnt_out V rest
          have hst := specExpand_state nd.cnt_out V rest
          obtain ⟨h1nd, h1fr⟩ := ih _ _ _ _ hrec
          constructor
          · refine List.Nodup.append hE.2 h1nd ?_
            intro x hx hx1
            exact h1fr x hx1 (by
              rw [hst.1]; exact List.mem_append_right _ hx)
          · intro x hx hxV
            rcases List.mem_append.mp hx with hm | hm
            · exact hE.1 x hm hxV
            · exact h1fr x hm (by rw [hst.1]; exact List.mem_append_left _ hxV)

end GraphStruct

namespace GraphStruct

theorem bfsPre_drain_expand (g : List c_GraphNode) (owns : Bool)
    (V0 Q : List Nat) (nd : c_GraphNode) (hok : EntriesOk g nd.cnt_out)
    (hQV0 : ∀ u ∈ Q, u ∈ V0) (hQidx : ∀ u ∈ Q, u ∈ idxs g) :
    BfsPre g (.drain owns []) (specExpand V0 Q nd.cnt_out).2.1
      (specExpand V0 Q nd.cnt_out).2.2 := by
  have hst := specExpand_state nd.cnt_out V0 Q
  have hEidx := specExpand_idxs g nd.cnt_out V0 Q hok
  refine ⟨?_, ?_, fun u hu => absurd hu (List.not_mem_nil u),
    fun u hu => absurd hu (List.not_mem_nil u),
    fun u hu => absurd hu (List.not_mem_nil u)⟩
  · intro u hu
    rw [hst.2] at hu
    rw [hst.1]
    rcases List.mem_append.mp hu with hm | hm
    · exact List.mem_append_left _ (hQV0 u hm)
    · exact List.mem_append_right _ hm
  · intro u hu
    rw [hst.2] at hu
    rcases List.mem_append.mp hu with hm | hm
    · exact hQidx u hm
    · exact hEidx u hm

theorem specBfs_total (g : List c_GraphNode) (hwf : WF g) :
    ∀ (fuel : Nat) (m : BfsMode) (V Q : List Nat),
    BfsPre g m V Q →
    (∀ s owns, m = .visit (some s) owns → s ∈ idxs g) →
    (match m with
     | .visit _ _ => 4 * (Q.length + 4 * countUnvisited g V) + 3
     | .drain _ nq => 4 * (Q.length + 2 * nq.length + 4 * countUnvisited g V) + 2
     | .inner => 4 * (Q.length + 4 * countUnvisited g V) + 1) ≤ fuel →
    ∃ r, specBfsCore g fuel m V Q = some r := by
  intro fuel
  induction fuel with
  | zero =>
    intro m V Q _ _ hfuel
    exfalso
    match m with
    | .visit _ _ => first | (simp only at hfuel; omega) | omega
    | .drain _ _ => first | (simp only at hfuel; omega) | omega
    | .inner => first | (simp only at hfuel; omega) | omega
  | succ f ih =>
    intro m V Q hpre hvs hfuel
    match m with
    | .visit none owns => exact ⟨([], V, Q), rfl⟩
    | .visit (some s) owns =>
      obtain ⟨hQV, hQidx⟩ := hpre
      obtain ⟨nd, hfn⟩ := findNode_of_mem_idxs (hvs s owns rfl)
      have hok : EntriesOk g nd.cnt_out := wf_entries_ok hwf (findNode_some hfn).2
      simp only at hfuel
      by_cases hsv : s ∈ V
      · have hcs : V.contains s = true := by simpa using hsv
        have hfr := specExpand_fresh nd.cnt_out V Q
        have hEidx := specExpand_idxs g nd.cnt_out V Q hok
        have hst := specExpand_state nd.cnt_out V Q
        have hCE := countUnvisited_append g (specExpand V Q nd.cnt_out).1 V
          hfr.2 hfr.1 hEidx
        have hlenE : (specExpand V Q nd.cnt_out).2.2.length =
            Q.length + (specExpand V Q nd.cnt_out).1.length := by
          rw [hst.2]; simp
        have hmeas : 4 * ((specExpand V Q nd.cnt_out).2.2.length + 2 * ([] : List Nat).length +
            4 * countUnvisited g (specExpand V Q nd.cnt_out).2.1) + 2 ≤ f := by
          rw [hlenE, hst.1]
          simp only [List.length_nil]
          omega
        obtain ⟨⟨outD, V2, Q2⟩, hdrain⟩ := ih (.drain owns [])
          (specExpand V Q nd.cnt_out).2.1 (specExpand V Q nd.cnt_out).2.2
          (bfsPre_drain_expand g owns V Q nd hok hQV hQidx)
          (by intro s2 o2 hc; cases hc) hmeas
        simp only [specBfsCore]
        rw [hfn]
        dsimp only
        simp only [hcs, if_true]
        rw [hdrain]
        exact ⟨_, rfl⟩
      · have hcs : V.contains s = false := by simpa using hsv
        have hQV' : ∀ u ∈ Q, u ∈ V ++ [s] :=
          fun u hu => List.mem_append_left _ (hQV u hu)
        have hfr := specExpand_fresh nd.cnt_out (V ++ [s]) Q
        have hEidx := specExpand_idxs g nd.cnt_out (V ++ [s]) Q hok
        have hst := specExpand_state nd.cnt_out (V ++ [s]) Q
        have hCE := countUnvisited_append g (specExpand (V ++ [s]) Q nd.cnt_out).1 (V ++ [s])
          hfr.2 hfr.1 hEidx
        have hC0 : countUnvisited g (V ++ [s]) ≤ countUnvisited g V :=
          countUnvisited_mono g V [s]
        have hlenE : (specExpand (V ++ [s]) Q nd.cnt_out).2.2.length =
            Q.length + (specExpand (V ++ [s]) Q nd.cnt_out).1.length := by
          rw [hst.2]; simp
        have hmeas : 4 * ((specExpand (V ++ [s]) Q nd.cnt_out).2.2.length +
            2 * ([] : List Nat).length +
            4 * countUnvisited g (specExpand (V ++ [s]) Q nd.cnt_out).2.1) + 2 ≤ f := by
          rw [hlenE, hst.1]
          simp only [List.length_nil]
          omega
        obtain ⟨⟨outD, V2, Q2⟩, hdrain⟩ := ih (.drain owns [])
          (specExpand (V ++ [s]) Q nd.cnt_out).2.1 (specExpand (V ++ [s]) Q nd.cnt_out).2.2
          (bfsPre_drain_expand g owns (V ++ [s]) Q nd hok hQV' hQidx)
          (by intro s2 o2 hc; cases hc) hmeas
        simp only [specBfsCore]
        rw [hfn]
        dsimp only
        simp only [hcs, if_false, Bool.false_eq_true]
        rw [hdrain]
        exact ⟨_, rfl⟩
    | .drain owns nq =>
      obtain ⟨hQV, hQidx, hnqQui, hnqV, hnqidx⟩ := hpre
      simp only at hfuel
      have hmeasI : 4 * (Q.length + 4 * countUnvisited g V) + 1 ≤ f := by omega
      obtain ⟨⟨dq, V1, Q1⟩, hinner⟩ := ih .inner V Q ⟨hQV, hQidx⟩
        (by intro s2 o2 hc; cases hc) hmeasI
      obtain ⟨hbp, hqui1, hQ1V, hQ1idx, hlen1⟩ :=
        specBfs_char g hwf f .inner V Q (dq, V1, Q1) hinner ⟨hQV, hQidx⟩
      have hlen1q : Q1.length ≤ dq.length := by simpa using hlen1
      obtain ⟨fu0, hbp0⟩ := hbp
      have hV1 : V1 = V ++ dq := bfsProcess_visited g fu0 V Q (dq, V1) hbp0
      have hfr := bfsProcess_fresh g fu0 V Q dq V1 hbp0
      have hdqidx : ∀ u ∈ dq, u ∈ idxs g :=
        bfsProcess_idxs g hwf fu0 V Q dq V1 hbp0 hQidx
      have hC1 : countUnvisited g V1 + dq.length ≤ countUnvisited g V := by
        rw [hV1]
        exact countUnvisited_append g dq V hfr.1 hfr.2 hdqidx
      have hpost : Quiescent g V1 (Q ++ dq) :=
        bfsProcess_post g fu0 V Q dq V1 hbp0 hQV
      have hdqQui : Quiescent g V1 dq :=
        fun u hu => hpost u (List.mem_append_right _ hu)
      have hdqV1 : ∀ u ∈ dq, u ∈ V1 := by
        intro u hu; rw [hV1]; exact List.mem_append_right _ hu
      have hnqQui1 : Quiescent g V1 nq := hV1 ▸ quiescent_mono hnqQui
      have hnq1Qui : Quiescent g V1 (nq ++ dq) := quiescent_append hnqQui1 hdqQui
      have hnq1V : ∀ u ∈ nq ++ dq, u ∈ V1 := by
        intro u hu
        rcases List.mem_append.mp hu with hm | hm
        · rw [hV1]; exact List.mem_append_left _ (hnqV u hm)
        · exact hdqV1 u hm
      have hnq1idx : ∀ u ∈ nq ++ dq, u ∈ idxs g := by
        intro u hu
        rcases List.mem_append.mp hu with hm | hm
        · exact hnqidx u hm
        · exact hdqidx u hm
      simp only [specBfsCore]
      rw [hinner]
      dsimp only
      cases owns with
      | false =>
        simp only [Bool.false_and, Bool.false_eq_true, if_false]
        by_cases hq1e : Q1.isEmpty = true
        · rw [if_pos hq1e]
          by_cases hnq1e : (nq ++ dq).isEmpty = true
          · rw [if_pos hnq1e]
            exact ⟨_, rfl⟩
          · rw [if_neg hnq1e]
            exact ⟨_, rfl⟩
        · rw [if_neg hq1e]
          have hQ1pos : 1 ≤ Q1.length := by
            cases hq1x : Q1 with
            | nil => rw [hq1x] at hq1e; simp at hq1e
            | cons a b => simp
          have hmeas2 : 4 * (Q1.length + 2 * (nq ++ dq).length +
              4 * countUnvisited g V1) + 2 ≤ f := by
            simp only [List.length_append]
            omega
          obtain ⟨r2, hrec2⟩ := ih (.drain false (nq ++ dq)) V1 Q1
            ⟨hQ1V, hQ1idx, hnq1Qui, hnq1V, hnq1idx⟩
            (by intro s2 o2 hc; cases hc) hmeas2
          rw [hrec2]
          match r2 with
          | (outR, V3, Q3) => exact ⟨_, rfl⟩
      | true =>
        simp only [Bool.true_and]
        by_cases hq1e : Q1.isEmpty = true
        · have hQ1nil : Q1 = [] := by simpa using hq1e
          by_cases hnq1e : (nq ++ dq).isEmpty = true
          · have hpm : (Q1.isEmpty && !(nq ++ dq).isEmpty) = false := by
              rw [hnq1e]; simp
            rw [hpm]
            simp only [Bool.false_eq_true, if_false]
            rw [if_pos hq1e]
            simp only [eq_self_iff_true, if_true]
            exact ⟨_, rfl⟩
          · have hnq1f : (nq ++ dq).isEmpty = false := by simpa using hnq1e
            have hpm : (Q1.isEmpty && !(nq ++ dq).isEmpty) = true := by
              rw [hq1e, hnq1f]; simp
            rw [hpm]
            simp only [eq_self_iff_true, if_true]
            rw [if_neg hnq1e]
            have hnq1pos : 1 ≤ nq.length + dq.length := by
              have h0 : 0 < (nq ++ dq).length :=
                List.length_pos.mpr (by simpa using hnq1e)
              simp only [List.length_append] at h0
              omega
            have hmeas2 : 4 * ((nq ++ dq).length + 2 * ([] : List Nat).length +
                4 * countUnvisited g V1) + 2 ≤ f := by
              simp only [List.length_append, List.length_nil]
              omega
            obtain ⟨r2, hrec2⟩ := ih (.drain true []) V1 (nq ++ dq)
              ⟨hnq1V, hnq1idx, fun u hu => absurd hu (List.not_mem_nil u),
               fun u hu => absurd hu (List.not_mem_nil u),
               fun u hu => absurd hu (List.not_mem_nil u)⟩
              (by intro s2 o2 hc; cases hc) hmeas2
            rw [hrec2]
            match r2 with
            | (outR, V3, Q3) => exact ⟨_, rfl⟩
        · have hq1f : Q1.isEmpty = false := by simpa using hq1e
          have hpm : (Q1.isEmpty && !(nq ++ dq).isEmpty) = false := by
            rw [hq1f]; simp
          rw [hpm]
          simp only [Bool.false_eq_true, if_false]
          rw [if_neg hq1e]
          have hQ1pos : 1 ≤ Q1.length := by
            cases hq1x : Q1 with
            | nil => rw [hq1x] at hq1f; simp at hq1f
            | cons a b => simp
          have hmeas2 : 4 * (Q1.length + 2 * (nq ++ dq).length +
              4 * countUnvisited g V1) + 2 ≤ f := by
            simp only [List.length_append]
            omega
          obtain ⟨r2, hrec2⟩ := ih (.drain true (nq ++ dq)) V1 Q1
            ⟨hQ1V, hQ1idx, hnq1Qui, hnq1V, hnq1idx⟩
            (by intro s2 o2 hc; cases hc) hmeas2
          rw [hrec2]
          match r2 with
          | (outR, V3, Q3) => exact ⟨_, rfl⟩
    | .inner =>
      obtain ⟨hQV, hQidx⟩ := hpre
      simp only at hfuel
      cases Q with
      | nil => exact ⟨([], V, []), rfl⟩
      | cons u rest =>
        have hpreV : BfsPre g (.visit (some u) false) V rest :=
          ⟨fun x hx => hQV x (List.mem_cons_of_mem _ hx),
           fun x hx => hQidx x (List.mem_cons_of_mem _ hx)⟩
        have hmeasV : 4 * (rest.length + 4 * countUnvisited g V) + 3 ≤ f := by
          simp only [List.length_cons] at hfuel
          omega
        obtain ⟨⟨dq, V1, Q1⟩, hvis⟩ := ih (.visit (some u) false) V rest hpreV
          (by
            intro s2 o2 hc
            injection hc with h1 h2
            injection h1 with h1
            exact h1 ▸ hQidx u (List.mem_cons_self _ _)) hmeasV
        obtain ⟨o, hbp, hdqeq, hqui1, hQ1V, hQ1idx, hlen1, _⟩ :=
          specBfs_char g hwf f (.visit (some u) false) V rest (dq, V1, Q1) hvis hpreV
        have hcu : V.contains u = true := by
          simpa using hQV u (List.mem_cons_self _ _)
        rw [hcu] at hbp hdqeq
        simp only [if_true] at hbp hdqeq
        simp only [List.nil_append] at hdqeq
        subst hdqeq
        simp only [specBfsCore]
        (try dsimp only)
        rw [hvis]
        (try dsimp only)
        by_cases hdqe : dq.isEmpty = true
        · have honil : dq = [] := by simpa using hdqe
          have hQ1nil : Q1 = [] := by
            have : Q1.length ≤ 0 := by
              have := hlen1
              rw [honil] at this
              simpa using this
            exact List.eq_nil_of_length_eq_zero (Nat.le_zero.mp this)
          obtain ⟨fu0, hbp0⟩ := hbp
          have hV1 : V1 = V := by
            have := bfsProcess_visited g fu0 V (u :: rest) (dq, V1) hbp0
            rw [honil] at this
            simpa using this
          rw [if_pos hdqe]
          have hmeasI : 4 * (Q1.length + 4 * countUnvisited g V1) + 1 ≤ f := by
            rw [hQ1nil, hV1]
            simp only [List.length_nil, List.length_cons] at hfuel ⊢
            omega
          obtain ⟨r2, hrec2⟩ := ih .inner V1 Q1 ⟨hQ1V, hQ1idx⟩
            (by intro s2 o2 hc; cases hc) hmeasI
          exact ⟨r2, hrec2⟩
        · rw [if_neg hdqe]
          exact ⟨_, rfl⟩

end GraphStruct

namespace GraphStruct

theorem hInv_set_queue {h : c_SearchHeader} (hInv : HInv h) (q : List Nat) :
    HInv { h with visit_queue := q } := hInv

theorem bfsExpand_sim (g : List c_GraphNode) (hbelow : IdxBelow g) :
    ∀ (es : List (Option Nat)) (h : c_SearchHeader), HInv h → EntriesOk g es →
    (bfsExpand h es).1 = (specExpand h.idx_visited h.visit_queue es).1 ∧
    (bfsExpand h es).2.idx_visited = (specExpand h.idx_visited h.visit_queue es).2.1 ∧
    (bfsExpand h es).2.visit_queue = (specExpand h.idx_visited h.visit_queue es).2.2 ∧
    HInv (bfsExpand h es).2 := by
  intro es
  induction es with
  | nil => intro h hInv _; exact ⟨rfl, rfl, rfl, hInv⟩
  | cons e rest ih =>
    intro h hInv hok
    match e with
    | none =>
      obtain ⟨x, hx, _⟩ := hok none (List.mem_cons_self _ _)
      cases hx
    | some ni =>
      have hni_mem : ni ∈ idxs g := by
        obtain ⟨x, hx, hxm⟩ := hok (some ni) (List.mem_cons_self _ _)
        cases hx
        exact hxm
      have hni_lt : ni < 4294967293 := idx_below_of_mem hbelow hni_mem
      obtain ⟨hflag, hvis, hqueue, hInv'⟩ := testAdd_spec h ni hInv hni_lt
      have htail : EntriesOk g rest := entries_ok_tail hok
      by_cases hc : ni ∈ h.idx_visited
      · have hcb : h.idx_visited.contains ni = true := by simpa using hc
        rw [if_pos hcb] at hvis
        have hrec := ih (testAdd h ni).2 hInv' htail
        rw [hvis, hqueue] at hrec
        rw [bfsExpand]
        dsimp only
        rw [hflag, hcb]
        simp only [Bool.not_true, Bool.false_eq_true, if_false]
        rw [specExpand, if_pos hcb]
        exact hrec
      · have hcb : h.idx_visited.contains ni = false := by simpa using hc
        rw [if_neg (by rw [hcb]; exact Bool.false_ne_true)] at hvis
        have hInv2 : HInv { (testAdd h ni).2 with
            visit_queue := (testAdd h ni).2.visit_queue ++ [ni] } :=
          hInv_set_queue hInv' _
        have hrec := ih { (testAdd h ni).2 with
            visit_queue := (testAdd h ni).2.visit_queue ++ [ni] } hInv2 htail
        have hv2 : ({ (testAdd h ni).2 with
            visit_queue := (testAdd h ni).2.visit_queue ++ [ni] } :
            c_SearchHeader).idx_visited = h.idx_visited ++ [ni] := hvis
        have hq2 : ({ (testAdd h ni).2 with
            visit_queue := (testAdd h ni).2.visit_queue ++ [ni] } :
            c_SearchHeader).visit_queue = h.visit_queue ++ [ni] := by
          dsimp only
          rw [hqueue]
        rw [hv2, hq2] at hrec
        rw [bfsExpand]
        dsimp only
        rw [hflag, hcb]
        simp only [Bool.not_false, if_true]
        rw [specExpand, if_neg (by rw [hcb]; exact Bool.false_ne_true)]
        obtain ⟨h1, h2, h3, h4⟩ := hrec
        exact ⟨by rw [h1], by rw [h2], by rw [h3], h4⟩

end GraphStruct

namespace GraphStruct

theorem bfsCore_sim (g : List c_GraphNode) (hwf : WF g) (hbelow : IdxBelow g) :
    ∀ (fuel : Nat) (m : BfsMode) (h : c_SearchHeader), HInv h →
    (bfsCore g fuel m h = none ∧
      specBfsCore g fuel m h.idx_visited h.visit_queue = none) ∨
    (∃ o h', bfsCore g fuel m h = some (o, h') ∧
      specBfsCore g fuel m h.idx_visited h.visit_queue =
        some (o, h'.idx_visited, h'.visit_queue) ∧ HInv h') := by
  intro fuel
  induction fuel with
  | zero => intro m h _; left; exact ⟨rfl, rfl⟩
  | succ f ih =>
    intro m h hInv
    match m with
    | .visit none owns =>
      right
      exact ⟨[], h, rfl, rfl, hInv⟩
    | .visit (some s) owns =>
      match hf : findNode g s with
      | none =>
        left
        exact ⟨by simp [bfsCore, hf], by simp [specBfsCore, hf]⟩
      | some nd =>
        have hsmem : s ∈ idxs g := mem_idxs_of_findNode hf
        have hs_lt : s < 4294967293 := idx_below_of_mem hbelow hsmem
        obtain ⟨hflag, hvis, hqueue, hInv'⟩ := testAdd_spec h s hInv hs_lt
        have hentries : EntriesOk g nd.cnt_out := wf_entries_ok hwf (findNode_some hf).2
        have hexp := bfsExpand_sim g hbelow nd.cnt_out (testAdd h s).2 hInv' hentries
        rw [hvis, hqueue] at hexp
        obtain ⟨hexp1, hexp2, hexp3, hexpInv⟩ := hexp
        have hrec := ih (.drain owns []) (bfsExpand (testAdd h s).2 nd.cnt_out).2 hexpInv
        rw [hexp2, hexp3] at hrec
        by_cases hc : s ∈ h.idx_visited
        · have hcb : h.idx_visited.contains s = true := by simpa using hc
          rw [if_pos hcb] at hexp1 hexp2 hexp3 hrec
          rcases hrec with ⟨hn1, hn2⟩ | ⟨o, h', hd1, hd2, hInv2⟩
          · left
            constructor
            · simp only [bfsCore, hf]
              (try dsimp only)
              rw [hn1]
            · simp only [specBfsCore, hf]
              (try dsimp only)
              simp only [hcb, if_true]
              rw [hn2]
          · right
            refine ⟨(if (testAdd h s).1 = true then [s] else []) ++
              (bfsExpand (testAdd h s).2 nd.cnt_out).1 ++ o, h', ?_, ?_, hInv2⟩
            · simp only [bfsCore, hf]
              (try dsimp only)
              rw [hd1]
            · simp only [specBfsCore, hf]
              (try dsimp only)
              simp only [hcb, if_true]
              rw [hd2]
              rw [hflag, hcb]
              simp only [Bool.not_true, Bool.false_eq_true, if_false,
                List.nil_append]
              rw [hexp1]
        · have hcb : h.idx_visited.contains s = false := by simpa using hc
          rw [if_neg (by rw [hcb]; exact Bool.false_ne_true)] at hexp1 hexp2 hexp3 hrec
          rcases hrec with ⟨hn1, hn2⟩ | ⟨o, h', hd1, hd2, hInv2⟩
          · left
            constructor
            · simp only [bfsCore, hf]
              (try dsimp only)
              rw [hn1]
            · simp only [specBfsCore, hf]
              (try dsimp only)
              simp only [hcb, Bool.false_eq_true, if_false]
              rw [hn2]
          · right
            refine ⟨(if (testAdd h s).1 = true then [s] else []) ++
              (bfsExpand (testAdd h s).2 nd.cnt_out).1 ++ o, h', ?_, ?_, hInv2⟩
            · simp only [bfsCore, hf]
              (try dsimp only)
              rw [hd1]
            · simp only [specBfsCore, hf]
              (try dsimp only)
              simp only [hcb, Bool.false_eq_true, if_false]
              rw [hd2]
              rw [hflag, hcb]
              simp only [Bool.not_false, if_true]
              rw [hexp1]
    | .drain owns nq =>
      rcases ih .inner h hInv with ⟨hn1, hn2⟩ | ⟨o, h1, hd1, hd2, hInv1⟩
      · left
        constructor
        · simp only [bfsCore]
          rw [hn1]
        · simp only [specBfsCore]
          rw [hn2]
      · have hkey : ∀ r2 : List Nat × c_SearchHeader,
            (match bfsCore g f .inner h with
              | none => none
              | some (dq, h1) =>
                let nq1 := nq ++ dq
                let promote := owns && h1.visit_queue.isEmpty && !nq1.isEmpty
                let h2 := if promote then { h1 with visit_queue := nq1 } else h1
                let nq2 := if promote then ([] : List Nat) else nq1
                if h2.visit_queue.isEmpty then
                  if owns then some (dq, h2)
                  else
                    let h3 := if nq2.isEmpty then h2 else { h2 with visit_queue := nq2 }
                    some (dq, h3)
                else
                  match bfsCore g f (.drain owns nq2) h2 with
                  | none => none
                  | some (outR, h3) => some (dq ++ outR, h3)) = some r2 → True :=
          fun _ _ => trivial
      -- the structural branches are mirrored one by one below
        clear hkey
        by_cases hq1e : h1.visit_queue.isEmpty = true
        · by_cases hnq1e : (nq ++ o).isEmpty = true
          · -- queue empty and nothing collected: exit with the inner result
            have hpm : (owns && h1.visit_queue.isEmpty && !(nq ++ o).isEmpty) = false := by
              rw [hnq1e]; simp
            right
            refine ⟨o, h1, ?_, ?_, hInv1⟩
            · simp only [bfsCore]
              rw [hd1]
              (try dsimp only)
              rw [hpm]
              simp only [Bool.false_eq_true, if_false]
              rw [if_pos hq1e]
              cases owns with
              | true => simp
              | false =>
                simp only [Bool.false_eq_true, if_false]
                rw [if_pos hnq1e]
            · simp only [specBfsCore]
              rw [hd2]
              (try dsimp only)
              rw [hpm]
              simp only [Bool.false_eq_true, if_false]
              rw [if_pos hq1e]
              cases owns with
              | true => simp
              | false =>
                simp only [Bool.false_eq_true, if_false]
                rw [if_pos hnq1e]
          · cases owns with
            | true =>
              -- promote the collected queue and keep draining
              have hpm : (true && h1.visit_queue.isEmpty && !(nq ++ o).isEmpty) = true := by
                rw [hq1e]
                have : (nq ++ o).isEmpty = false := by simpa using hnq1e
                rw [this]; simp
              have hInv2 : HInv { h1 with visit_queue := nq ++ o } :=
                hInv_set_queue hInv1 _
              have hrec2 := ih (.drain true []) { h1 with visit_queue := nq ++ o } hInv2
              rcases hrec2 with ⟨hn1', hn2'⟩ | ⟨o3, h3, hd1', hd2', hInv3⟩
              · left
                constructor
                · simp only [bfsCore]
                  rw [hd1]
                  (try dsimp only)
                  rw [hpm]
                  simp only [if_true]
                  rw [if_neg hnq1e]
                  rw [hn1']
                · simp only [specBfsCore]
                  rw [hd2]
                  (try dsimp only)
                  rw [hpm]
                  simp only [if_true]
                  rw [if_neg hnq1e]
                  have hn2x : specBfsCore g f (.drain true []) h1.idx_visited
                      (nq ++ o) = none := hn2'
                  rw [hn2x]
              · right
                refine ⟨o ++ o3, h3, ?_, ?_, hInv3⟩
                · simp only [bfsCore]
                  rw [hd1]
                  (try dsimp only)
                  rw [hpm]
                  simp only [if_true]
                  rw [if_neg hnq1e]
                  rw [hd1']
                · simp only [specBfsCore]
                  rw [hd2]
                  (try dsimp only)
                  rw [hpm]
                  simp only [if_true]
                  rw [if_neg hnq1e]
                  have hd2x : specBfsCore g f (.drain true []) h1.idx_visited
                      (nq ++ o) = some (o3, h3.idx_visited, h3.visit_queue) := hd2'
                  rw [hd2x]
            | false =>
              -- non-owner leaves the collected queue behind
              have hpm : (false && h1.visit_queue.isEmpty && !(nq ++ o).isEmpty) = false := by
                simp
              right
              refine ⟨o, { h1 with visit_queue := nq ++ o }, ?_, ?_,
                hInv_set_queue hInv1 _⟩
              · simp only [bfsCore]
                rw [hd1]
                (try dsimp only)
                rw [hpm]
                simp only [Bool.false_eq_true, if_false]
                rw [if_pos hq1e]
                (try simp only [Bool.false_eq_true, if_false])
                (try dsimp only)
                rw [if_neg hnq1e]
              · simp only [specBfsCore]
                rw [hd2]
                (try dsimp only)
                rw [hpm]
                simp only [Bool.false_eq_true, if_false]
                rw [if_pos hq1e]
                (try simp only [Bool.false_eq_true, if_false])
                (try dsimp only)
                rw [if_neg hnq1e]
        · -- the inner queue is still populated: keep draining with the same flag
          have hq1f : h1.visit_queue.isEmpty = false := by simpa using hq1e
          have hpm : (owns && h1.visit_queue.isEmpty && !(nq ++ o).isEmpty) = false := by
            rw [hq1f]; simp
          have hrec2 := ih (.drain owns (nq ++ o)) h1 hInv1
          rcases hrec2 with ⟨hn1', hn2'⟩ | ⟨o3, h3, hd1', hd2', hInv3⟩
          · left
            constructor
            · simp only [bfsCore]
              rw [hd1]
              (try dsimp only)
              rw [hpm]
              simp only [Bool.false_eq_true, if_false]
              rw [if_neg hq1e]
              rw [hn1']
            · simp only [specBfsCore]
              rw [hd2]
              (try dsimp only)
              rw [hpm]
              simp only [Bool.false_eq_true, if_false]
              rw [if_neg hq1e]
              rw [hn2']
          · right
            refine ⟨o ++ o3, h3, ?_, ?_, hInv3⟩
            · simp only [bfsCore]
              rw [hd1]
              (try dsimp only)
              rw [hpm]
              simp only [Bool.false_eq_true, if_false]
              rw [if_neg hq1e]
              rw [hd1']
            · simp only [specBfsCore]
              rw [hd2]
              (try dsimp only)
              rw [hpm]
              simp only [Bool.false_eq_true, if_false]
              rw [if_neg hq1e]
              rw [hd2']
    | .inner =>
      match hq : h.visit_queue with
      | [] =>
        right
        refine ⟨[], h, ?_, ?_, hInv⟩
        · simp only [bfsCore]
          rw [hq]
        · simp only [specBfsCore]
          rw [hq]
      | u :: rest =>
        have hInvr : HInv { h with visit_queue := rest } := hInv_set_queue hInv _
        have hrec := ih (.visit (some u) false) { h with visit_queue := rest } hInvr
        rcases hrec with ⟨hn1, hn2⟩ | ⟨dq, h1, hd1, hd2, hInv1⟩
        · left
          constructor
          · simp only [bfsCore]
            (try rw [hq])
            (try dsimp only)
            rw [hn1]
          · simp only [specBfsCore]
            (try rw [hq])
            (try dsimp only)
            have hn2x : specBfsCore g f (.visit (some u) false) h.idx_visited rest =
                none := hn2
            rw [hn2x]
        · have hd2x : specBfsCore g f (.visit (some u) false) h.idx_visited rest =
              some (dq, h1.idx_visited, h1.visit_queue) := hd2
          by_cases hdqe : dq.isEmpty = true
          · have hrec2 := ih .inner h1 hInv1
            rcases hrec2 with ⟨hn1', hn2'⟩ | ⟨o2, h2, hd1', hd2', hInv2⟩
            · left
              constructor
              · simp only [bfsCore]
                (try rw [hq])
                (try dsimp only)
                rw [hd1]
                (try dsimp only)
                rw [if_pos hdqe]
                rw [hn1']
              · simp only [specBfsCore]
                (try rw [hq])
                (try dsimp only)
                rw [hd2x]
                (try dsimp only)
                rw [if_pos hdqe]
                rw [hn2']
            · right
              refine ⟨o2, h2, ?_, ?_, hInv2⟩
              · simp only [bfsCore]
                (try rw [hq])
                (try dsimp only)
                rw [hd1]
                (try dsimp only)
                rw [if_pos hdqe]
                rw [hd1']
              · simp only [specBfsCore]
                (try rw [hq])
                (try dsimp only)
                rw [hd2x]
                (try dsimp only)
                rw [if_pos hdqe]
                rw [hd2']
          · right
            refine ⟨dq, h1, ?_, ?_, hInv1⟩
            · simp only [bfsCore]
              (try rw [hq])
              (try dsimp only)
              rw [hd1]
              (try dsimp only)
              rw [if_neg hdqe]
            · simp only [specBfsCore]
              (try rw [hq])
              (try dsimp only)
              rw [hd2x]
              (try dsimp only)
              rw [if_neg hdqe]

end GraphStruct

namespace GraphStruct

theorem specExpand_queue_irrel :
    ∀ (es : List (Option Nat)) (V Q Q2 : List Nat),
    (specExpand V Q es).1 = (specExpand V Q2 es).1 ∧
    (specExpand V Q es).2.1 = (specExpand V Q2 es).2.1 := by
  intro es
  induction es with
  | nil => intro V Q Q2; exact ⟨rfl, rfl⟩
  | cons e rest ih =>
    intro V Q Q2
    match e with
    | none => exact ih V Q Q2
    | some ni =>
      by_cases hc : V.contains ni
      · rw [specExpand, specExpand, if_pos hc, if_pos hc]
        exact ih V Q Q2
      · rw [specExpand, specExpand, if_neg hc, if_neg hc]
        obtain ⟨h1, h2⟩ := ih (V ++ [ni]) (Q ++ [ni]) (Q2 ++ [ni])
        exact ⟨by dsimp only; rw [h1], by dsimp only; rw [h2]⟩

theorem specExpand_mem :
    ∀ (es : List (Option Nat)) (V Q : List Nat) (x : Nat),
    x ∈ (specExpand V Q es).1 ↔ (some x ∈ es ∧ x ∉ V) := by
  intro es
  induction es with
  | nil => intro V Q x; simp [specExpand]
  | cons e rest ih =>
    intro V Q x
    match e with
    | none =>
      show x ∈ (specExpand V Q rest).1 ↔ _
      rw [ih V Q x]
      constructor
      · exact fun ⟨h1, h2⟩ => ⟨List.mem_cons_of_mem _ h1, h2⟩
      · rintro ⟨h1, h2⟩
        rcases List.mem_cons.mp h1 with hm | hm
        · cases hm
        · exact ⟨hm, h2⟩
    | some ni =>
      by_cases hc : V.contains ni
      · have hni : ni ∈ V := by simpa using hc
        rw [specExpand, if_pos hc]
        rw [ih V Q x]
        constructor
        · exact fun ⟨h1, h2⟩ => ⟨List.mem_cons_of_mem _ h1, h2⟩
        · rintro ⟨h1, h2⟩
          rcases List.mem_cons.mp h1 with hm | hm
          · exfalso
            exact h2 (by rw [Option.some.inj hm]; exact hni)
          · exact ⟨hm, h2⟩
      · have hni : ni ∉ V := by simpa using hc
        rw [specExpand, if_neg hc]
        show x ∈ ni :: (specExpand (V ++ [ni]) (Q ++ [ni]) rest).1 ↔ _
        rw [List.mem_cons, ih (V ++ [ni]) (Q ++ [ni]) x]
        constructor
        · rintro (hm | ⟨h1, h2⟩)
          · subst hm
            exact ⟨List.mem_cons_self _ _, hni⟩
          · refine ⟨List.mem_cons_of_mem _ h1, fun hv => h2 ?_⟩
            exact List.mem_append_left _ hv
        · rintro ⟨h1, h2⟩
          rcases List.mem_cons.mp h1 with hm | hm
          · left
            exact Option.some.inj hm
          · by_cases hx : x = ni
            · exact Or.inl hx
            · right
              refine ⟨hm, fun hv => ?_⟩
              rcases List.mem_append.mp hv with hv2 | hv2
              · exact h2 hv2
              · exact hx (by simpa using hv2)

theorem levelStep_state (g : List c_GraphNode) :
    ∀ (L V : List Nat) (N V1 : List Nat),
    levelStep g V L = some (N, V1) → V1 = V ++ N := by
  intro L
  induction L with
  | nil => intro V N V1 h; cases h; simp
  | cons u rest ih =>
    intro V N V1 h
    rw [levelStep] at h
    match hfn : findNode g u with
    | none => first | simp [hfn] at h | simp at h
    | some nd =>
      (try rw [hfn] at h)
      (try dsimp only at h)
      match hrec : levelStep g (specExpand V [] nd.cnt_out).2.1 rest with
      | none => first | simp [hrec] at h | simp at h
      | some (n2, V2) =>
        (try rw [hrec] at h)
        (try dsimp only at h)
        simp only [Option.some_inj, Prod.mk.injEq] at h
        obtain ⟨hN, hV⟩ := h
        subst hN
        subst hV
        rw [ih _ _ _ hrec, (specExpand_state nd.cnt_out V []).1]
        simp

theorem levelStep_total (g : List c_GraphNode) :
    ∀ (L V : List Nat), (∀ u ∈ L, u ∈ idxs g) →
    ∃ r, levelStep g V L = some r := by
  intro L
  induction L with
  | nil => intro V _; exact ⟨([], V), rfl⟩
  | cons u rest ih =>
    intro V hL
    obtain ⟨nd, hfn⟩ := findNode_of_mem_idxs (hL u (List.mem_cons_self _ _))
    obtain ⟨⟨n2, V2⟩, hrec⟩ := ih (specExpand V [] nd.cnt_out).2.1
      (fun x hx => hL x (List.mem_cons_of_mem _ hx))
    refine ⟨((specExpand V [] nd.cnt_out).1 ++ n2, V2), ?_⟩
    rw [levelStep, hfn]
    dsimp only
    rw [hrec]

theorem levelStep_fresh (g : List c_GraphNode) :
    ∀ (L V : List Nat) (N V1 : List Nat),
    levelStep g V L = some (N, V1) → N.Nodup ∧ (∀ x ∈ N, x ∉ V) := by
  intro L
  induction L with
  | nil => intro V N V1 h; cases h; exact ⟨List.nodup_nil, by intro x hx; cases hx⟩
  | cons u rest ih =>
    intro V N V1 h
    rw [levelStep] at h
    match hfn : findNode g u with
    | none => first | simp [hfn] at h | simp at h
    | some nd =>
      (try rw [hfn] at h)
      (try dsimp only at h)
      match hrec : levelStep g (specExpand V [] nd.cnt_out).2.1 rest with
      | none => first | simp [hrec] at h | simp at h
      | some (n2, V2) =>
        (try rw [hrec] at h)
        (try dsimp only at h)
        simp only [Option.some_inj, Prod.mk.injEq] at h
        obtain ⟨hN, hV⟩ := h
        subst hN
        have hfr := specExpand_fresh nd.cnt_out V []
        have hst := (specExpand_state nd.cnt_out V []).1
        obtain ⟨h2nd, h2fr⟩ := ih _ _ _ hrec
        constructor
        · refine List.Nodup.append hfr.2 h2nd ?_
          intro x hx hx2
          exact h2fr x hx2 (by rw [hst]; exact List.mem_append_right _ hx)
        · intro x hx hxV
          rcases List.mem_append.mp hx with hm | hm
          · exact hfr.1 x hm hxV
          · exact h2fr x hm (by rw [hst]; exact List.mem_append_left _ hxV)

theorem levelStep_idxs (g : List c_GraphNode) (hwf : WF g) :
    ∀ (L V : List Nat) (N V1 : List Nat),
    levelStep g V L = some (N, V1) → ∀ x ∈ N, x ∈ idxs g := by
  intro L
  induction L with
  | nil => intro V N V1 h; cases h; intro x hx; cases hx
  | cons u rest ih =>
    intro V N V1 h
    rw [levelStep] at h
    match hfn : findNode g u with
    | none => first | simp [hfn] at h | simp at h
    | some nd =>
      (try rw [hfn] at h)
      (try dsimp only at h)
      match hrec : levelStep g (specExpand V [] nd.cnt_out).2.1 rest with
      | none => first | simp [hrec] at h | simp at h
      | some (n2, V2) =>
        (try rw [hrec] at h)
        (try dsimp only at h)
        simp only [Option.some_inj, Prod.mk.injEq] at h
        obtain ⟨hN, hV⟩ := h
        subst hN
        intro x hx
        rcases List.mem_append.mp hx with hm | hm
        · exact specExpand_idxs g nd.cnt_out V []
            (wf_entries_ok hwf (findNode_some hfn).2) x hm
        · exact ih _ _ _ hrec x hm

end GraphStruct

namespace GraphStruct

theorem levelStep_mem (g : List c_GraphNode) (hnd : (idxs g).Nodup) :
    ∀ (L V N V1 : List Nat), levelStep g V L = some (N, V1) →
    ∀ x, x ∈ N ↔ (x ∉ V ∧ ∃ u ∈ L, edgeRel g u x) := by
  intro L
  induction L with
  | nil =>
    intro V N V1 h x
    cases h
    simp
  | cons u rest ih =>
    intro V N V1 h x
    rw [levelStep] at h
    match hfn : findNode g u with
    | none => first | simp [hfn] at h | simp at h
    | some nd =>
      (try rw [hfn] at h)
      (try dsimp only at h)
      match hrec : levelStep g (specExpand V [] nd.cnt_out).2.1 rest with
      | none => first | simp [hrec] at h | simp at h
      | some (n2, V2) =>
        (try rw [hrec] at h)
        (try dsimp only at h)
        simp only [Option.some_inj, Prod.mk.injEq] at h
        obtain ⟨hN, hV⟩ := h
        subst hN
        have hst := (specExpand_state nd.cnt_out V []).1
        have hE := specExpand_mem nd.cnt_out V []
        have hedge : ∀ y, edgeRel g u y ↔ some y ∈ nd.cnt_out := by
          intro y
          constructor
          · rintro ⟨nd', hmem', hidx', hout'⟩
            have h1 : findNode g nd'.index = some nd' := findNode_of_mem_nodup hnd hmem'
            rw [hidx', hfn] at h1
            have : nd = nd' := by injection h1
            rw [this]
            exact hout'
          · intro hy
            exact ⟨nd, (findNode_some hfn).2, (findNode_some hfn).1, hy⟩
        constructor
        · intro hx
          rcases List.mem_append.mp hx with hm | hm
          · obtain ⟨h1, h2⟩ := (hE x).mp hm
            exact ⟨h2, u, List.mem_cons_self _ _, (hedge x).mpr h1⟩
          · obtain ⟨h1, h2⟩ := (ih _ _ _ hrec x).mp hm
            rw [hst] at h1
            refine ⟨fun hv => h1 (List.mem_append_left _ hv), ?_⟩
            obtain ⟨u2, hu2, he2⟩ := h2
            exact ⟨u2, List.mem_cons_of_mem _ hu2, he2⟩
        · rintro ⟨hxV, u2, hu2, he2⟩
          by_cases hxE : x ∈ (specExpand V [] nd.cnt_out).1
          · exact List.mem_append_left _ hxE
          · rcases List.mem_cons.mp hu2 with hm | hm
            · exfalso
              subst hm
              exact hxE ((hE x).mpr ⟨(hedge x).mp he2, hxV⟩)
            · refine List.mem_append_right _ ((ih _ _ _ hrec x).mpr ⟨?_, u2, hm, he2⟩)
              rw [hst]
              intro hv
              rcases List.mem_append.mp hv with hv2 | hv2
              · exact hxV hv2
              · exact hxE hv2

theorem bfsLevels_total (g : List c_GraphNode) (hwf : WF g) :
    ∀ (fuel : Nat) (V L : List Nat), (∀ u ∈ L, u ∈ idxs g) →
    countUnvisited g V + 2 ≤ fuel → ∃ Ls, bfsLevels g fuel V L = some Ls := by
  intro fuel
  induction fuel with
  | zero => intro V L _ hf; omega
  | succ f ih =>
    intro V L hL hf
    by_cases hLe : L.isEmpty = true
    · exact ⟨[], by rw [bfsLevels, if_pos hLe]⟩
    · obtain ⟨⟨N, V1⟩, hstep⟩ := levelStep_total g L V hL
      have hV1 : V1 = V ++ N := levelStep_state g L V N V1 hstep
      have hNidx : ∀ x ∈ N, x ∈ idxs g := levelStep_idxs g hwf L V N V1 hstep
      by_cases hNe : N.isEmpty = true
      · have hNnil : N = [] := by simpa using hNe
        have hf1 : ∃ f2, f = f2 + 1 := ⟨f - 1, by omega⟩
        obtain ⟨f2, rfl⟩ := hf1
        refine ⟨[[]], ?_⟩
        rw [bfsLevels, if_neg hLe, hstep]
        dsimp only
        rw [hNnil]
        rw [bfsLevels]
        simp
      · have hfr := levelStep_fresh g L V N V1 hstep
        have hNpos : 1 ≤ N.length := by
          have h0 : 0 < N.length := List.length_pos.mpr (by simpa using hNe)
          omega
        have hcnt := countUnvisited_append g N V hfr.1 hfr.2 hNidx
        obtain ⟨Ls', hrec⟩ := ih V1 N hNidx (by rw [hV1]; omega)
        refine ⟨N :: Ls', ?_⟩
        rw [bfsLevels, if_neg hLe, hstep]
        dsimp only
        rw [hrec]

theorem bProc_compose_level (g : List c_GraphNode) :
    ∀ (L V M N V1 o2 V2 : List Nat),
    levelStep g V L = some (N, V1) → BProc g V1 (M ++ N) o2 V2 →
    BProc g V (L ++ M) (N ++ o2) V2 := by
  intro L
  induction L with
  | nil =>
    intro V M N V1 o2 V2 h hbp
    cases h
    simpa using hbp
  | cons u rest ih =>
    intro V M N V1 o2 V2 h hbp
    rw [levelStep] at h
    match hfn : findNode g u with
    | none => first | simp [hfn] at h | simp at h
    | some nd =>
      (try rw [hfn] at h)
      (try dsimp only at h)
      match hrec : levelStep g (specExpand V [] nd.cnt_out).2.1 rest with
      | none => first | simp [hrec] at h | simp at h
      | some (n2, V1x) =>
        (try rw [hrec] at h)
        (try dsimp only at h)
        simp only [Option.some_inj, Prod.mk.injEq] at h
        obtain ⟨hN, hV1x⟩ := h
        subst hN
        subst hV1x
        have hbp2 : BProc g V1x ((M ++ (specExpand V [] nd.cnt_out).1) ++ n2) o2 V2 := by
          obtain ⟨fu, hb⟩ := hbp
          exact ⟨fu, by rw [List.append_assoc]; exact hb⟩
        have hih := ih (specExpand V [] nd.cnt_out).2.1
          (M ++ (specExpand V [] nd.cnt_out).1) n2 V1x o2 V2 hrec hbp2
        obtain ⟨fu, hb⟩ := hih
        refine ⟨fu + 1, ?_⟩
        show bfsProcess g (fu + 1) V (u :: (rest ++ M)) = _
        rw [bfsProcess, hfn]
        dsimp only
        have hqi := specExpand_queue_irrel nd.cnt_out V (rest ++ M) []
        have hst := specExpand_state nd.cnt_out V (rest ++ M)
        rw [hst.2, hqi.1, hqi.2]
        have hq2 : (rest ++ M) ++ (specExpand V [] nd.cnt_out).1 =
            rest ++ (M ++ (specExpand V [] nd.cnt_out).1) := by
          rw [List.append_assoc]
        rw [hq2, hb]
        simp

theorem bProc_of_levels (g : List c_GraphNode) :
    ∀ (fuel : Nat) (V L : List Nat) (Ls : List (List Nat)),
    bfsLevels g fuel V L = some Ls → BProc g V L Ls.join (V ++ Ls.join) := by
  intro fuel
  induction fuel with
  | zero => intro V L Ls h; cases h
  | succ f ih =>
    intro V L Ls h
    rw [bfsLevels] at h
    by_cases hLe : L.isEmpty = true
    · rw [if_pos hLe] at h
      have hLnil : L = [] := by simpa using hLe
      cases h
      refine ⟨1, ?_⟩
      rw [hLnil]
      simp [bfsProcess]
    · rw [if_neg hLe] at h
      match hstep : levelStep g V L with
      | none => first | simp [hstep] at h | simp at h
      | some (N, V1) =>
        (try rw [hstep] at h)
        (try dsimp only at h)
        match hrec : bfsLevels g f V1 N with
        | none => first | simp [hrec] at h | simp at h
        | some Ls' =>
          (try rw [hrec] at h)
          (try dsimp only at h)
          simp only [Option.some_inj] at h
          subst h
          have hih := ih V1 N Ls' hrec
          have hbp : BProc g V1 ([] ++ N) Ls'.join (V1 ++ Ls'.join) := by
            simpa using hih
          have hcomp := bProc_compose_level g L V [] N V1 Ls'.join (V1 ++ Ls'.join)
            hstep hbp
          have hV1 : V1 = V ++ N := levelStep_state g L V N V1 hstep
          obtain ⟨fu, hb⟩ := hcomp
          refine ⟨fu, ?_⟩
          rw [List.append_nil] at hb
          rw [hb, hV1]
          simp

end GraphStruct

namespace GraphStruct

theorem reachN_mono (g : List c_GraphNode) (s : Nat) :
    ∀ (k j x : Nat), j ≤ k → ReachN g s j x → ReachN g s k x := by
  intro k
  induction k with
  | zero =>
    intro j x hj h
    have : j = 0 := Nat.le_zero.mp hj
    exact this ▸ h
  | succ k ih =>
    intro j x hj h
    by_cases hjk : j ≤ k
    · exact Or.inl (ih j x hjk h)
    · have : j = k + 1 := by omega
      exact this ▸ h

theorem bfsProcess_sound (g : List c_GraphNode) (hnd : (idxs g).Nodup) (s : Nat) :
    ∀ (fu : Nat) (V Q o V2 : List Nat), bfsProcess g fu V Q = some (o, V2) →
    (∀ u ∈ Q, Reach g s u) → ∀ x ∈ o, Reach g s x := by
  intro fu
  induction fu with
  | zero => intro V Q o V2 h; cases h
  | succ f ih =>
    intro V Q o V2 h hQ
    cases Q with
    | nil => cases h; intro x hx; cases hx
    | cons u rest =>
      rw [bfsProcess] at h
      match hfn : findNode g u with
      | none => first | simp [hfn] at h | simp at h
      | some nd =>
        (try rw [hfn] at h)
        (try dsimp only at h)
        match hrec : bfsProcess g f (specExpand V rest nd.cnt_out).2.1
            (specExpand V rest nd.cnt_out).2.2 with
        | none => first | simp [hrec] at h | simp at h
        | some (o1, V21) =>
          (try rw [hrec] at h)
          (try dsimp only at h)
          simp only [Option.some_inj, Prod.mk.injEq] at h
          obtain ⟨ho, hV21⟩ := h
          subst ho
          have hEreach : ∀ x ∈ (specExpand V rest nd.cnt_out).1, Reach g s x := by
            intro x hx
            have hsub : some x ∈ nd.cnt_out := specExpand_sub nd.cnt_out V rest x hx
            have hedge : edgeRel g u x :=
              ⟨nd, (findNode_some hfn).2, (findNode_some hfn).1, hsub⟩
            exact Relation.ReflTransGen.tail (hQ u (List.mem_cons_self _ _)) hedge
          have hQ2 : ∀ x ∈ (specExpand V rest nd.cnt_out).2.2, Reach g s x := by
            intro x hx
            rw [(specExpand_state nd.cnt_out V rest).2] at hx
            rcases List.mem_append.mp hx with hm | hm
            · exact hQ x (List.mem_cons_of_mem _ hm)
            · exact hEreach x hm
          intro x hx
          rcases List.mem_append.mp hx with hm | hm
          · exact hEreach x hm
          · exact ih _ _ _ _ hrec hQ2 x hm

theorem reach_mem_of_closed (g : List c_GraphNode) (hnd : (idxs g).Nodup)
    (V : List Nat) (hcl : Quiescent g V V) (s : Nat) (hs : s ∈ V) :
    ∀ x, Reach g s x → x ∈ V := by
  intro x hr
  induction hr with
  | refl => exact hs
  | tail hab hbc ihb =>
    obtain ⟨nd', hmem', hidx', hout'⟩ := hbc
    have hfn : findNode g nd'.index = some nd' := findNode_of_mem_nodup hnd hmem'
    exact (hcl _ ihb).2 nd' (hidx' ▸ hfn) _ hout' _ rfl

end GraphStruct

namespace GraphStruct

theorem bfsLevels_dist (g : List c_GraphNode) (hnd : (idxs g).Nodup) (s : Nat) :
    ∀ (fuel : Nat) (V L : List Nat) (Ls : List (List Nat)) (k0 : Nat),
    bfsLevels g fuel V L = some Ls →
    (∀ x, x ∈ V ↔ ReachN g s k0 x) →
    (∀ x, x ∈ L ↔ (ReachN g s k0 x ∧ ∀ j, j < k0 → ¬ ReachN g s j x)) →
    ∀ (i : Nat) (hi : i < Ls.length) (x : Nat),
      x ∈ Ls[i] ↔ (ReachN g s (k0 + i + 1) x ∧
        ∀ j, j < k0 + i + 1 → ¬ ReachN g s j x) := by
  intro fuel
  induction fuel with
  | zero => intro V L Ls k0 h; cases h
  | succ f ih =>
    intro V L Ls k0 h hV hL
    rw [bfsLevels] at h
    by_cases hLe : L.isEmpty = true
    · rw [if_pos hLe] at h
      cases h
      intro i hi
      simp at hi
    · rw [if_neg hLe] at h
      match hstep : levelStep g V L with
      | none => first | simp [hstep] at h | simp at h
      | some (N, V1) =>
        (try rw [hstep] at h)
        (try dsimp only at h)
        match hrec : bfsLevels g f V1 N with
        | none => first | simp [hrec] at h | simp at h
        | some Ls' =>
          (try rw [hrec] at h)
          (try dsimp only at h)
          simp only [Option.some_inj] at h
          subst h
          have hV1eq : V1 = V ++ N := levelStep_state g L V N V1 hstep
          have hNmem := levelStep_mem g hnd L V N V1 hstep
          -- the freshly discovered level is exactly distance k0 + 1
          have hN : ∀ x, x ∈ N ↔ (ReachN g s (k0 + 1) x ∧
              ∀ j, j < k0 + 1 → ¬ ReachN g s j x) := by
            intro x
            rw [hNmem x]
            constructor
            · rintro ⟨hxV, u, hu, he⟩
              obtain ⟨hu1, _⟩ := (hL u).mp hu
              refine ⟨Or.inr ⟨u, hu1, he⟩, ?_⟩
              intro j hj hrx
              exact hxV ((hV x).mpr (reachN_mono g s k0 j x (by omega) hrx))
            · rintro ⟨hr, hnr⟩
              have hxV : x ∉ V := fun hv => hnr k0 (Nat.lt_succ_self _) ((hV x).mp hv)
              rcases hr with hr0 | ⟨y, hy, he⟩
              · exact absurd hr0 (hnr k0 (Nat.lt_succ_self _))
              · refine ⟨hxV, y, ?_, he⟩
                rw [hL y]
                refine ⟨hy, ?_⟩
                intro j hj hry
                exact hnr (j + 1) (by omega) (Or.inr ⟨y, reachN_mono g s j j y
                  (le_refl _) hry, he⟩)
          have hV1 : ∀ x, x ∈ V1 ↔ ReachN g s (k0 + 1) x := by
            intro x
            rw [hV1eq]
            constructor
            · intro hx
              rcases List.mem_append.mp hx with hm | hm
              · exact reachN_mono g s (k0 + 1) k0 x (Nat.le_succ _) ((hV x).mp hm)
              · exact ((hN x).mp hm).1
            · intro hr
              by_cases hk : ReachN g s k0 x
              · exact List.mem_append_left _ ((hV x).mpr hk)
              · refine List.mem_append_right _ ((hN x).mpr ⟨hr, ?_⟩)
                intro j hj hrj
                exact hk (reachN_mono g s k0 j x (by omega) hrj)
          have hih := ih V1 N Ls' (k0 + 1) hrec hV1 hN
          intro i hi x
          match i with
          | 0 =>
            show x ∈ N ↔ _
            rw [hN x]
          | i' + 1 =>
            have hi' : i' < Ls'.length := by simpa using hi
            have := hih i' hi' x
            have harith : k0 + 1 + i' + 1 = k0 + (i' + 1) + 1 := by omega
            rw [harith] at this
            exact this

end GraphStruct

namespace GraphStruct

/-- **C5.** For every graph (well-formed, duplicate-free identities below
the reserved sentinels) and every start identity that resolves,
`runBreadthFirst` returns, given enough fuel, exactly the level-order
sequence: the start node followed by the concatenation of the successive
breadth-first levels (each level produced in adjacency-list order —
the tie-breaking rule), with each identity appearing exactly once,
membership coinciding with reachability, and the `i`-th level consisting
precisely of the nodes at shortest-hop distance `i+1`; in particular, on
the cycle `{(1,2),(2,3),(3,1)}`, `runBreadthFirst(1)` yields `[1,2,3]`. -/
theorem c5_breadth_first_level_order :
    (∀ (G : c_Graph) (fuel s : Nat),
      WF G.nodes → (idxs G.nodes).Nodup → IdxBelow G.nodes →
      G.nodes.length < 4294967293 → s ∈ idxs G.nodes →
      16 * G.nodes.length + 3 ≤ fuel →
      ∃ (out : List Nat) (Ls : List (List Nat)),
        runBreadthFirst G fuel s = some out ∧
        bfsLevels G.nodes (G.nodes.length + 2) [s] [s] = some Ls ∧
        out = s :: Ls.join ∧
        out.Nodup ∧
        (∀ x, x ∈ out ↔ Reach G.nodes s x) ∧
        (∀ (i : Nat), i < Ls.length → ∀ (x : Nat) (hi : i < Ls.length),
          x ∈ Ls[i] ↔ (ReachN G.nodes s (i + 1) x ∧
            ∀ j, j < i + 1 → ¬ ReachN G.nodes s j x))) ∧
    runBreadthFirst (buildGraph [⟨1,2,0⟩, ⟨2,3,0⟩, ⟨3,1,0⟩]) 51 1 = some [1, 2, 3] := by
  constructor
  · intro G fuel s hwf hnd hbelow hlen hs hfuel
    have hcnt0 : countUnvisited G.nodes [] = G.nodes.length := countUnvisited_nil G.nodes
    obtain ⟨⟨o1, V1, Q1⟩, hspec⟩ := specBfs_total G.nodes hwf fuel (.visit (some s) true)
      [] []
      ⟨fun u hu => absurd hu (List.not_mem_nil u),
       fun u hu => absurd hu (List.not_mem_nil u)⟩
      (by
        intro s2 o2 hc
        injection hc with h1 h2
        injection h1 with h1
        exact h1 ▸ hs)
      (by simp only [List.length_nil, hcnt0]; omega)
    rcases bfsCore_sim G.nodes hwf hbelow fuel (.visit (some s) true) initHeader
        hInv_initHeader with ⟨hn1, hn2⟩ | ⟨o, h', hbfs, hspec2, _⟩
    · exfalso
      have hnone : specBfsCore G.nodes fuel (.visit (some s) true) [] [] = none := hn2
      rw [hspec] at hnone
      cases hnone
    · have hspec2x : specBfsCore G.nodes fuel (.visit (some s) true) [] [] =
          some (o, h'.idx_visited, h'.visit_queue) := hspec2
      rw [hspec] at hspec2x
      simp only [Option.some_inj, Prod.mk.injEq] at hspec2x
      obtain ⟨ho1, hV1h, hQ1h⟩ := hspec2x
      obtain ⟨ob, hbp, houteq, hqc1, hqc2, hqc3, hqc4, hqc5⟩ :=
        specBfs_char G.nodes hwf fuel (.visit (some s) true) [] [] (o1, V1, Q1) hspec
          ⟨fun u hu => absurd hu (List.not_mem_nil u),
           fun u hu => absurd hu (List.not_mem_nil u)⟩
      have hcon : ([] : List Nat).contains s = false := rfl
      rw [hcon] at hbp houteq
      simp only [Bool.false_eq_true, if_false, List.nil_append] at hbp houteq
      have hsub1 : countUnvisited G.nodes [s] ≤ countUnvisited G.nodes [] := by
        simpa using countUnvisited_mono G.nodes [] [s]
      obtain ⟨Ls, hlev⟩ := bfsLevels_total G.nodes hwf (G.nodes.length + 2) [s] [s]
        (fun u hu => by
          have : u = s := by simpa using hu
          exact this ▸ hs)
        (by omega)
      have hbpl := bProc_of_levels G.nodes (G.nodes.length + 2) [s] [s] Ls hlev
      obtain ⟨hobeq, hV1eq⟩ := bProc_det hbp hbpl
      have hout : o = s :: Ls.join := by
        rw [← ho1, houteq, hobeq]
        rfl
      obtain ⟨hpos, nd0, hget, hidx0⟩ := idxMap_found G.nodes s hs
      have hcond : ¬ (idxMap G.nodes s = 4294967293 ∨ idxMap G.nodes s = 4294967295) := by
        omega
      obtain ⟨fuW, hbW⟩ := hbpl
      obtain ⟨hjnd, hjfr⟩ := bfsProcess_fresh G.nodes fuW [s] [s] Ls.join
        ([s] ++ Ls.join) hbW
      refine ⟨o, Ls, ?_, hlev, hout, ?_, ?_, ?_⟩
      · simp only [runBreadthFirst, if_neg hcond, hget, hidx0, hbfs]
      · rw [hout]
        refine List.nodup_cons.mpr ⟨?_, hjnd⟩
        intro hsmem
        exact hjfr s hsmem (by simp)
      · intro x
        rw [hout]
        constructor
        · intro hx
          rcases List.mem_cons.mp hx with hxs | hxj
          · exact hxs ▸ Relation.ReflTransGen.refl
          · exact bfsProcess_sound G.nodes hnd s fuW [s] [s] Ls.join
              ([s] ++ Ls.join) hbW
              (fun u hu => by
                have : u = s := by simpa using hu
                exact this ▸ Relation.ReflTransGen.refl) x hxj
        · intro hr
          have hcl : Quiescent G.nodes ([s] ++ Ls.join) ([s] ++ Ls.join) :=
            bfsProcess_post G.nodes fuW [s] [s] Ls.join ([s] ++ Ls.join) hbW
              (fun u hu => hu)
          have hx2 := reach_mem_of_closed G.nodes hnd ([s] ++ Ls.join) hcl s
            (List.mem_append_left _ (by simp)) x hr
          rcases List.mem_append.mp hx2 with hm | hm
          · exact List.mem_cons.mpr (Or.inl (by simpa using hm))
          · exact List.mem_cons_of_mem _ hm
      · have hdist := bfsLevels_dist G.nodes hnd s (G.nodes.length + 2) [s] [s] Ls 0
          hlev
          (by intro x; simp [ReachN])
          (by intro x; simp [ReachN])
        intro i hi x hi2
        have h9 := hdist i hi2 x
        have ha : 0 + i + 1 = i + 1 := by omega
        rw [ha] at h9
        exact h9
  · rfl

/-- Witness for C5 on the three-cycle: every hypothesis of the general
statement discharged by evaluation at `{(1,2),(2,3),(3,1)}`, start 1,
fuel 51. -/
theorem c5_breadth_first_level_order_witness :
    ∃ (out : List Nat) (Ls : List (List Nat)),
      runBreadthFirst (buildGraph [⟨1,2,0⟩, ⟨2,3,0⟩, ⟨3,1,0⟩]) 51 1 = some out ∧
      bfsLevels (buildGraph [⟨1,2,0⟩, ⟨2,3,0⟩, ⟨3,1,0⟩]).nodes
        ((buildGraph [⟨1,2,0⟩, ⟨2,3,0⟩, ⟨3,1,0⟩]).nodes.length + 2) [1] [1] = some Ls ∧
      out = 1 :: Ls.join ∧
      out.Nodup ∧
      (∀ x, x ∈ out ↔ Reach (buildGraph [⟨1,2,0⟩, ⟨2,3,0⟩, ⟨3,1,0⟩]).nodes 1 x) ∧
      (∀ (i : Nat), i < Ls.length → ∀ (x : Nat) (hi : i < Ls.length),
        x ∈ Ls[i] ↔ (ReachN (buildGraph [⟨1,2,0⟩, ⟨2,3,0⟩, ⟨3,1,0⟩]).nodes 1 (i + 1) x ∧
          ∀ j, j < i + 1 → ¬ ReachN (buildGraph [⟨1,2,0⟩, ⟨2,3,0⟩, ⟨3,1,0⟩]).nodes 1 j x)) :=
  c5_breadth_first_level_order.1 (buildGraph [⟨1,2,0⟩, ⟨2,3,0⟩, ⟨3,1,0⟩]) 51 1
    (by
      have hG : (buildGraph [⟨1,2,0⟩, ⟨2,3,0⟩, ⟨3,1,0⟩]).nodes =
          [⟨1, [some 2], [some 3]⟩, ⟨2, [some 3], [some 1]⟩,
           ⟨3, [some 1], [some 2]⟩] := by decide
      rw [hG]
      simp [WF, idxs])
    (by decide) (by unfold IdxBelow; decide) (by decide) (by decide) (by decide)

end GraphStruct
